import Mathlib

/-!
# eudore/endpoint: the gorm controller's query construction

A shallow embedding of `gorm/controller.go`: the two regular expressions `regs` and `regc`
(run by a leftmost-first backtracking matcher, the matching discipline of Go's `regexp`),
the search-expression compiler `parseSearchExpression` with its fallback `parseSearchLike`,
and the five verbs of `GormController` as functions that return their result together with
the list of calls they make to the storage engine; and of the logger lookup of
`gorm/logger.go` with the `WithDB` of `context.go`.

Go strings are Lean `String`s (sequences of code points; the regular expressions and every
string operation used here act on whole code points or on ASCII suffixes, so bytes and code
points agree). A Go panic is the result `none`.
-/

namespace Endpoint

/-! ## Regular expressions -/

/-- The operators of Go's regexp syntax that occur in `regs` and `regc`. -/
inductive Re where
  /-- one character of a class -/
  | cls (p : Char → Bool)
  /-- greedy `x*` over a class -/
  | star (p : Char → Bool)
  /-- concatenation -/
  | seq (a b : Re)
  /-- alternation `a|b`, the left branch preferred -/
  | alt (a b : Re)
  /-- capturing group number `i` -/
  | group (i : Nat) (a : Re)

/-- Capture slots: group number and captured text. -/
abbrev Caps := List (Nat × List Char)

/-- Greedy repetition of a class: the longest run first, then shorter ones. -/
def greedy {α : Type} (p : Char → Bool) : List Char → (List Char → Option α) → Option α
  | [], k => k []
  | c :: cs, k =>
    if p c then
      match greedy p cs k with
      | some r => some r
      | none => k (c :: cs)
    else k (c :: cs)

/-- Backtracking matcher in continuation-passing style: `k` receives the unread input and
the captures; the first success in preference order is the result. -/
def Re.run {α : Type} :
    Re → List Char → Caps → (List Char → Caps → Option α) → Option α
  | .cls p, s, cs, k =>
    match s with
    | [] => none
    | c :: t => if p c then k t cs else none
  | .star p, s, cs, k => greedy p s (fun t => k t cs)
  | .seq a b, s, cs, k => Re.run a s cs (fun t cs1 => Re.run b t cs1 k)
  | .alt a b, s, cs, k =>
    match Re.run a s cs k with
    | some r => some r
    | none => Re.run b s cs k
  | .group i a, s, cs, k =>
    Re.run a s cs (fun t cs1 => k t ((i, s.take (s.length - t.length)) :: cs1))

/-- Match anchored at the start of `s`: the unread input and the captures. -/
def Re.matchAt (re : Re) (s : List Char) : Option (List Char × Caps) :=
  Re.run re s [] (fun t cs => some (t, cs))

/-- Leftmost match: the first start position at which `matchAt` succeeds. The result is the
input from the match start, the unread input after the match, and the captures. -/
def Re.find (re : Re) : List Char → Option (List Char × List Char × Caps)
  | [] =>
    match Re.matchAt re [] with
    | some (t, cs) => some ([], t, cs)
    | none => none
  | c :: s =>
    match Re.matchAt re (c :: s) with
    | some (t, cs) => some (c :: s, t, cs)
    | none => Re.find re s

/-- Text of capture group `i` (empty when the group did not take part). -/
def capture (cs : Caps) (i : Nat) : String :=
  match cs.lookup i with
  | some t => String.mk t
  | none => ""

/-- Go `(*Regexp).FindStringSubmatch` for a regexp with `n` groups: `[]` (nil) without a
match, else the matched text followed by the `n` group texts. -/
def Re.FindStringSubmatch (re : Re) (n : Nat) (s : String) : List String :=
  match Re.find re s.data with
  | none => []
  | some (from_, rest, cs) =>
    String.mk (from_.take (from_.length - rest.length))
      :: (List.range n).map (fun i => capture cs (i + 1))

/-- Successive non-overlapping matches, scanning left to right. `skip` counts the characters
of the last match that are still to be passed over. -/
def Re.findAllAux (re : Re) : List Char → Nat → List String
  | [], _ => []
  | _ :: s, skip + 1 => Re.findAllAux re s skip
  | c :: s, 0 =>
    match Re.matchAt re (c :: s) with
    | none => Re.findAllAux re s 0
    | some (t, _) =>
      String.mk ((c :: s).take ((c :: s).length - t.length))
        :: Re.findAllAux re s ((c :: s).length - t.length - 1)

/-- Go `(*Regexp).FindAllString(s, -1)` for a regexp that never matches the empty string
(such as `regs`, whose every match starts with `\S`). -/
def Re.FindAllString (re : Re) (s : String) : List String :=
  Re.findAllAux re s.data 0

/-- Go `\s`: `[\t\n\f\r ]`. -/
def isSpace (c : Char) : Bool :=
  c = Char.ofNat 9 || c = Char.ofNat 10 || c = Char.ofNat 12 || c = Char.ofNat 13 || c = ' '

/-- Go `\S`. -/
def isNonSpace (c : Char) : Bool := !isSpace c

/-- Go `\w`: `[0-9A-Za-z_]`. -/
def isWord (c : Char) : Bool :=
  ('0' ≤ c && c ≤ '9') || ('A' ≤ c && c ≤ 'Z') || ('a' ≤ c && c ≤ 'z') || c = '_'

/-- Go `.` without the `s` flag: any character but the line feed. -/
def isDot (c : Char) : Bool := c ≠ Char.ofNat 10

/-- The single quote. -/
def quote : Char := Char.ofNat 39

/-- A literal character. -/
def Re.chr (c : Char) : Re := .cls (fun x => x = c)

/-- A literal string. -/
def Re.lit2 (a b : Char) : Re := .seq (Re.chr a) (Re.chr b)

/-- Greedy `x+` over a class. -/
def Re.plus (p : Char → Bool) : Re := .seq (.cls p) (.star p)

/-- The regexp `regs`, source text: (\S+\'.*\'|\S+) -/
def regs : Re :=
  .group 1 (.alt
    (.seq (Re.plus isNonSpace) (.seq (Re.chr quote) (.seq (.star isDot) (Re.chr quote))))
    (Re.plus isNonSpace))

/-- The operator alternation of `regc`, in source order: =|>|<|<>|!=|>=|<=|~|!~|: -/
def regcOp : Re :=
  .alt (Re.chr '=') (.alt (Re.chr '>') (.alt (Re.chr '<') (.alt (Re.lit2 '<' '>')
    (.alt (Re.lit2 '!' '=') (.alt (Re.lit2 '>' '=') (.alt (Re.lit2 '<' '=')
      (.alt (Re.chr '~') (.alt (Re.lit2 '!' '~') (Re.chr ':')))))))))

/-- The regexp `regc`, source text: (\w*)(=|>|<|<>|!=|>=|<=|~|!~|:)(.*) -/
def regc : Re :=
  .seq (.group 1 (.star isWord)) (.seq (.group 2 regcOp) (.group 3 (.star isDot)))


/-! ## Values and the `strconv` parsers -/

/-- A bound query parameter (Go `interface{}`): the dynamic types the controller produces.
`float` stands for the `float64` that `strconv.ParseFloat` returns for the literal it holds;
the controller never inspects its numeric value. -/
inductive Value where
  | str (s : String)
  | strs (l : List String)
  | int (i : Int)
  | float (literal : String)
  | bool (b : Bool)
  deriving DecidableEq, Repr

/-- The three `strconv` parsers that `parseSearchType` calls; `none` is a non-nil error. -/
structure Strconv where
  /-- `strconv.ParseInt(s, 10, 64)` -/
  ParseInt : String → Option Int
  /-- `strconv.ParseFloat(s, 64)`: whether the literal is accepted -/
  ParseFloat : String → Option Unit
  /-- `strconv.ParseBool(s)` -/
  ParseBool : String → Option Bool

namespace strconv

/-- Value of a decimal digit. -/
def digitVal (c : Char) : Option Nat :=
  if '0' ≤ c && c ≤ '9' then some (c.toNat - 48) else none

/-- Base-10 value of a digit string; `none` when a character is not a digit. -/
def parseDigits : List Char → Nat → Option Nat
  | [], acc => some acc
  | c :: cs, acc =>
    match digitVal c with
    | some d => parseDigits cs (acc * 10 + d)
    | none => none

/-- Go `strconv.ParseInt(s, 10, 64)`: an optional sign, then at least one decimal digit, the
value within the range of `int64`. -/
def ParseInt (s : String) : Option Int :=
  let body (neg : Bool) (ds : List Char) : Option Int :=
    match ds with
    | [] => none
    | _ :: _ =>
      match parseDigits ds 0 with
      | none => none
      | some un =>
        if neg then (if un ≤ 2 ^ 63 then some (-(un : Int)) else none)
        else (if un < 2 ^ 63 then some (un : Int) else none)
  match s.data with
  | [] => none
  | c :: cs =>
    if c = '+' then body false cs
    else if c = '-' then body true cs
    else body false (c :: cs)

/-- Go `strconv.ParseBool`. -/
def ParseBool (s : String) : Option Bool :=
  if s = "1" || s = "t" || s = "T" || s = "TRUE" || s = "true" || s = "True" then some true
  else if s = "0" || s = "f" || s = "F" || s = "FALSE" || s = "false" || s = "False" then some false
  else none

/-- ASCII lower case of a letter. -/
def lower (c : Char) : Char :=
  if 'A' ≤ c && c ≤ 'Z' then Char.ofNat (c.toNat + 32) else c

/-- Length of the common prefix of `s` and the lower-case `pre`, ignoring the case of `s`. -/
def commonPrefixLenIgnoreCase : List Char → List Char → Nat
  | c :: s, p :: pre => if lower c = p then commonPrefixLenIgnoreCase s pre + 1 else 0
  | _, _ => 0

/-- Characters consumed by `inf` or `infinity` at the head of `s`. -/
def infLen (s : List Char) : Option Nat :=
  let n := commonPrefixLenIgnoreCase s "infinity".data
  let n := if 3 < n && n < 8 then 3 else n
  if n = 3 || n = 8 then some n else none

/-- Go `strconv.special`: the length of a leading `±inf`, `±infinity` or `nan`. -/
def special (s : List Char) : Option Nat :=
  match s with
  | [] => none
  | c :: t =>
    if c = '+' || c = '-' then (infLen t).map (fun n => n + 1)
    else if c = 'i' || c = 'I' then infLen s
    else if c = 'n' || c = 'N' then
      (if commonPrefixLenIgnoreCase s "nan".data = 3 then some 3 else none)
    else none

/-- Value of a hexadecimal letter digit. -/
def hexLetterVal (c : Char) : Option Nat :=
  if 'a' ≤ lower c && lower c ≤ 'f' then some ((lower c).toNat - 87) else none

/-- What the mantissa loop of `readFloat` has seen. -/
structure Mant where
  digits : Nat := 0
  frac : Nat := 0
  sawdot : Bool := false
  sawdigits : Bool := false
  underscores : Bool := false

/-- The mantissa loop of `readFloat`: the state at the first character that ends it, and
the unread input. -/
def scanMant (hex : Bool) : List Char → Mant → Mant × List Char
  | [], m => (m, [])
  | c :: cs, m =>
    if c = '_' then scanMant hex cs { m with underscores := true }
    else if c = '.' then
      (if m.sawdot then (m, c :: cs) else scanMant hex cs { m with sawdot := true })
    else
      match digitVal c, (if hex then hexLetterVal c else none) with
      | some d, _ =>
        scanMant hex cs { m with sawdigits := true,
                                 digits := m.digits * (if hex then 16 else 10) + d,
                                 frac := if m.sawdot then m.frac + 1 else m.frac }
      | none, some d =>
        scanMant hex cs { m with sawdigits := true, digits := m.digits * 16 + d,
                                 frac := if m.sawdot then m.frac + 1 else m.frac }
      | none, none => (m, c :: cs)

/-- The exponent digits of `readFloat` (the accumulated value stops growing at 10000). -/
def scanExp : List Char → Nat → Bool → Nat × Bool × List Char
  | [], e, u => (e, u, [])
  | c :: cs, e, u =>
    if c = '_' then scanExp cs e true
    else
      match digitVal c with
      | some d => scanExp cs (if e < 10000 then e * 10 + d else e) u
      | none => (e, u, c :: cs)

/-- Go `strconv.underscoreOK`, as a scan with the last character class seen: 0 start,
1 digit or base prefix, 2 underscore, 3 anything else. -/
def underscoreScan (hex : Bool) : List Char → Nat → Bool
  | [], saw => saw ≠ 2
  | c :: cs, saw =>
    if (digitVal c).isSome || (hex && (hexLetterVal c).isSome) then underscoreScan hex cs 1
    else if c = '_' then (if saw ≠ 1 then false else underscoreScan hex cs 2)
    else if saw = 2 then false
    else underscoreScan hex cs 3

/-- Go `strconv.underscoreOK`. -/
def underscoreOK (s : List Char) : Bool :=
  let s := match s with
    | c :: t => if c = '-' || c = '+' then t else s
    | [] => s
  match s with
  | z :: x :: t =>
    if z = '0' && (lower x = 'b' || lower x = 'o' || lower x = 'x') then
      underscoreScan (lower x = 'x') t 1
    else underscoreScan false s 0
  | _ => underscoreScan false s 0

/-- The number `2^1024 - 2^970`, half an ulp above the largest finite `float64`. -/
def overflowBound : Nat :=
  179769313486231580793728971405303415079934132710037826936173778980444968292764750946649017977587207096330286416692887910946555547851940402630657488671505820681908902000708383676273854845817711531764475730270069855571366959622842914819860834936475292719074168444365510704342711559699508093042880177904174497792

/-- Whether `digits × base ^ ex` rounds to a finite `float64`: it is below
`2^1024 - 2^970`, half an ulp above the largest finite value. -/
def inRange (digits : Nat) (base : Nat) (ex : Int) : Bool :=
  if 0 ≤ ex then digits * base ^ ex.toNat < overflowBound
  else digits < overflowBound * base ^ (-ex).toNat

/-- Go `strconv.readFloat` on the whole of `s`, then the range check of `atof64`: `true`
when `s` is a decimal or hexadecimal floating-point literal whose value does not overflow. -/
def readFloatAll (s : List Char) : Bool :=
  let body := match s with
    | c :: t => if c = '+' || c = '-' then t else s
    | [] => s
  let hex := match body with
    | z :: x :: _ :: _ => z = '0' && lower x = 'x'
    | _ => false
  let (m, rest) := scanMant hex (if hex then body.drop 2 else body) {}
  if !m.sawdigits then false
  else
    let done (e : Int) (u : Bool) : Bool :=
      (!(m.underscores || u) || underscoreOK s) &&
        (if hex then inRange m.digits 2 (e - 4 * m.frac) else inRange m.digits 10 (e - m.frac))
    match rest with
    | [] => if hex then false else done 0 false
    | c :: r =>
      if lower c = (if hex then 'p' else 'e') then
        match r with
        | [] => false
        | sg :: r1 =>
          let (neg, ds) := if sg = '+' then (false, r1) else if sg = '-' then (true, r1)
                           else (false, sg :: r1)
          match ds with
          | [] => false
          | d :: _ =>
            if (digitVal d).isSome then
              match scanExp ds 0 false with
              | (e, u, []) => done (if neg then -(e : Int) else e) u
              | _ => false
            else false
      else false

/-- Go `strconv.ParseFloat(s, 64)`, reduced to whether it returns a nil error. -/
def ParseFloat (s : String) : Option Unit :=
  match special s.data with
  | some n => if n = s.data.length then some () else none
  | none => if readFloatAll s.data then some () else none

/-- The parsers of Go's standard library. -/
def go : Strconv := { ParseInt := ParseInt, ParseFloat := ParseFloat, ParseBool := ParseBool }

end strconv

/-! ## Go string helpers -/

/-- Go `strings.HasSuffix`. -/
def HasSuffix (s suffix : String) : Bool := suffix.data.isSuffixOf s.data

/-- Go `s[:len(s)-n]` where the last `n` bytes of `s` are ASCII. -/
def dropLast (s : String) (n : Nat) : String := String.mk (s.data.take (s.data.length - n))

/-- Go `strings.Contains(s, ",")`. -/
def containsComma (s : String) : Bool := s.data.contains ','

/-- Pieces of a character list between the occurrences of `sep`. -/
def splitChars (sep : Char) : List Char → List (List Char)
  | [] => [[]]
  | c :: cs =>
    if c = sep then [] :: splitChars sep cs
    else
      match splitChars sep cs with
      | [] => [[c]]
      | h :: t => (c :: h) :: t

/-- Go `strings.Split(s, ",")`. -/
def splitComma (s : String) : List String := (splitChars ',' s.data).map String.mk

/-- Go `strings.Join(elems, sep)`. -/
def Join : List String → String → String
  | [], _ => ""
  | [a], _ => a
  | a :: b :: rest, sep => a ++ sep ++ Join (b :: rest) sep

/-! ## The query builder and the request context -/

/-- Go `error` values. -/
abbrev Error := String

/-- A record of the registered model type. -/
abbrev Record := List (String × Value)

/-- A parameterised condition, the arguments of gorm `Where(query, args...)`. -/
structure Predicate where
  Fragment : String
  Params : List Value
  deriving DecidableEq, Repr

/-- An `eudore.Logger`. -/
structure Logger where
  id : Nat
  deriving DecidableEq, Repr

/-- Keys of `context.Context` values: a string, or the pointer `ContextItemGormLogger`. -/
inductive ContextKey where
  | str (s : String)
  | ContextItemGormLogger
  deriving DecidableEq, Repr

/-- A value kept in a `context.Context`: an `eudore.Logger`, or a value of another type. -/
inductive CtxValue where
  | logger (l : Logger)
  | other (v : String)
  deriving DecidableEq, Repr

/-- A `context.Context`, as the chain of its values, newest first. -/
abbrev GoContext := List (ContextKey × CtxValue)

/-- Go `context.WithValue`. -/
def GoContext.WithValue (c : GoContext) (k : ContextKey) (v : CtxValue) : GoContext :=
  (k, v) :: c

/-- Go `ctx.Value(key)`: the newest value stored under a key equal to `key`; `none` is nil. -/
def GoContext.Value : GoContext → ContextKey → Option CtxValue
  | [], _ => none
  | (k, v) :: c, key => if k = key then some v else GoContext.Value c key

/-- The statement a `*gorm.DB` carries, as the controller builds it: the `(query, args)` pairs
given to `Where` and to the inline condition of `Find`, in call order (the engine combines
them by AND), the limit, the offset, the order and the context. Chain methods are functions
returning the extended statement; what the engine does with a statement is not modelled. -/
structure DB where
  wheres : List Predicate := []
  limit : Option Int := none
  offset : Option Int := none
  order : Option String := none
  context : GoContext := []
  deriving DecidableEq, Repr

/-- gorm `db.Where(query, args...)`. -/
def DB.Where (db : DB) (query : String) (args : List Value) : DB :=
  { db with wheres := db.wheres ++ [⟨query, args⟩] }

/-- gorm `db.WithContext(ctx)`. -/
def DB.WithContext (db : DB) (c : GoContext) : DB := { db with context := c }

/-- gorm `db.Limit(n)`. -/
def DB.Limit (db : DB) (n : Int) : DB := { db with limit := some n }

/-- gorm `db.Offset(n)`. -/
def DB.Offset (db : DB) (n : Int) : DB := { db with offset := some n }

/-- gorm `db.Order(o)`. -/
def DB.Order (db : DB) (o : String) : DB := { db with order := some o }

/-- The struct `gormPaging`. -/
structure gormPaging where
  Page : Int := 0
  Size : Int := 0
  Order : String := ""
  Total : Int := 0
  Search : String := ""
  Data : List Record := []
  deriving DecidableEq, Repr

/-- What a handler reads from its `eudore.Context`. -/
structure Context where
  /-- `ctx.GetContext()` -/
  GetContext : GoContext
  /-- `ctx.Logger()` -/
  Logger : Logger
  /-- `ctx.GetParam(key)` -/
  GetParam : String → String
  /-- `ctx.Bind(paging)`: the struct after binding, or the bind error -/
  BindPaging : gormPaging → Except Error gormPaging
  /-- `ctx.Bind(data)` on a fresh record: the bound record, or the bind error -/
  BindData : Except Error Record

/-- Go `int` multiplication (64-bit, wrapping). -/
def mulInt (a b : Int) : Int := (a * b + 2 ^ 63) % 2 ^ 64 - 2 ^ 63

/-- A call that reaches the storage engine, with the statement it carries. -/
inductive StorageCall where
  | Count (db : DB)
  | Find (db : DB)
  | Save (db : DB) (data : Record)
  | Updates (db : DB) (data : Record)
  | Delete (db : DB)
  deriving DecidableEq, Repr

/-- The statement of a storage call. -/
def StorageCall.db : StorageCall → DB
  | .Count db => db
  | .Find db => db
  | .Save db _ => db
  | .Updates db _ => db
  | .Delete db => db

/-- Answers of the storage engine to the finisher methods of gorm. -/
structure Engine where
  /-- `db.Count(&total)`: the total and `.Error` -/
  Count : DB → Int × Option Error
  /-- `db.Find(dest)`: the rows and `.Error` -/
  Find : DB → List Record × Option Error
  /-- `db.Save(data).Error` -/
  Save : DB → Record → Option Error
  /-- `db.Updates(data).Error` -/
  Updates : DB → Record → Option Error
  /-- `db.Delete(data).Error` -/
  Delete : DB → Option Error

/-- One column as `db.Migrator().ColumnTypes(model)` describes it. -/
structure ColumnType where
  Name : String
  DatabaseTypeName : String
  deriving DecidableEq, Repr

/-! ## The controller -/

/-- The struct `GormController` (the embedded route helper left out). -/
structure GormController where
  ModelType : String
  ModelColumnNames : List String
  ModelColumnTypes : List String
  WithDB : Context → DB

/-- The function `getGormModelColumns`, on the engine's answer to `ColumnTypes(model)`. -/
def getGormModelColumns (coltypes : Except Error (List ColumnType)) :
    Except Error (List String × List String) :=
  match coltypes with
  | .error err => .error err
  | .ok coltypes =>
    .ok (coltypes.map (fun coltype => coltype.Name),
         coltypes.map (fun coltype =>
           if coltype.DatabaseTypeName = "int8" then "int"
           else if coltype.DatabaseTypeName = "text" then "string"
           else if coltype.DatabaseTypeName = "timestamptz" then "time"
           else ""))

/-- The function `NewGormController`: `policy` is `policy.CreateExpressions`, `name` the
table name of the model, `coltypes` the engine's description of it, `db` the statement of
`db.Model(model)` as a request finds it; `none` is the nil controller. The migration is a
call of its own and leaves no trace in the controller. -/
def NewGormController (policy : Context → String → List String → Int → String × List Value)
    (db : DB) (modelType name : String) (coltypes : Except Error (List ColumnType)) :
    Option GormController :=
  match getGormModelColumns coltypes with
  | .error _ => none
  | .ok (cols, typs) =>
    some {
      ModelType := modelType
      ModelColumnNames := cols
      ModelColumnTypes := typs
      WithDB := fun ctx =>
        let (sql, vals) := policy ctx name cols (-1)
        (db.Where sql vals).WithContext
          (ctx.GetContext.WithValue ContextKey.ContextItemGormLogger
            (CtxValue.logger ctx.Logger)) }

/-- The function `stringSliceIn`. -/
def stringSliceIn : List String → String → Bool
  | [], _ => false
  | i :: strs, str => if i = str then true else stringSliceIn strs str

/-- The method `parseSearchType`. -/
def GormController.parseSearchType (sc : Strconv) (key : String) : String × Value :=
  match sc.ParseInt key with
  | some i => ("int", Value.int i)
  | none =>
    match sc.ParseFloat key with
    | some _ => ("float", Value.float key)
    | none =>
      match sc.ParseBool key with
      | some b => ("bool", Value.bool b)
      | none => ("string", Value.str key)

/-- The loop of `parseSearchLike` from column index `i` on; `none` when `ModelColumnNames[i]`
is out of range. -/
def parseSearchLikeLoop (names : List String) (typ : String) (val : Value) :
    List String → Nat → List String × List Value → Option (List String × List Value)
  | [], _, acc => some acc
  | coltyp :: rest, i, (sqls, vals) =>
    if typ ≠ coltyp then parseSearchLikeLoop names typ val rest (i + 1) (sqls, vals)
    else if coltyp = "string" then
      match names.get? i with
      | none => none
      | some n => parseSearchLikeLoop names typ val rest (i + 1)
                    (sqls ++ [n ++ " LIKE ?"], vals ++ [val])
    else if coltyp = "int" || coltyp = "bool" then
      match names.get? i with
      | none => none
      | some n => parseSearchLikeLoop names typ val rest (i + 1)
                    (sqls ++ [n ++ "=?"], vals ++ [val])
    else parseSearchLikeLoop names typ val rest (i + 1) (sqls, vals)

/-- The method `parseSearchLike`. -/
def GormController.parseSearchLike (sc : Strconv) (ctl : GormController) (key : String) :
    Option (String × List Value) :=
  let (typ, val) := GormController.parseSearchType sc key
  match parseSearchLikeLoop ctl.ModelColumnNames typ val ctl.ModelColumnTypes 0 ([], []) with
  | none => none
  | some (sqls, vals) => some (Join sqls " OR ", vals)

/-- The body of the loop of `parseSearchExpression` for one token `key`, on the fragment
`sql` and the params `data` built so far. -/
def searchStep (ctl : GormController) (st : String × List Value) (key : String) :
    String × List Value :=
  match Re.FindStringSubmatch regc 3 key with
  | [_, name, op, val] =>
    if !stringSliceIn ctl.ModelColumnNames name then st
    else
      let exp : String × String :=
        if op = "~" then ("LIKE", "%" ++ val ++ "%")
        else if op = "!~" then ("NOT LIKE", "%" ++ val ++ "%")
        else if op = ":" && containsComma val then ("IN", val)
        else (op, val)
      (st.1 ++ (name ++ " " ++ exp.1 ++ " ? AND "),
       if exp.1 = "IN" then st.2 ++ [Value.strs (splitComma exp.2)]
       else st.2 ++ [Value.str exp.2])
  | _ => (if HasSuffix st.1 "AND " then dropLast st.1 4 ++ "OR " else st.1, st.2)

/-- The loop of `parseSearchExpression` over the tokens of `key`: the fragment before the
final trim, and the params. -/
def searchLoop (ctl : GormController) (key : String) : String × List Value :=
  (Re.FindAllString regs key).foldl (searchStep ctl) ("", [])

/-- The final trim of `parseSearchExpression`: four characters off a fragment that ends in
an AND or OR joiner. -/
def trimJoiner (sql : String) : String :=
  if HasSuffix sql " AND " || HasSuffix sql " OR " then dropLast sql 4 else sql

/-- The method `parseSearchExpression`. -/
def GormController.parseSearchExpression (sc : Strconv) (ctl : GormController) (key : String) :
    Option (String × List Value) :=
  let st := searchLoop ctl key
  if st.2.length ≠ 0 then some (trimJoiner st.1, st.2)
  else GormController.parseSearchLike sc ctl key

/-- What a handler hands back: the returned value (`none` is nil), the returned error, and
the calls it made to the storage engine, in order. -/
structure Reply (α : Type) where
  value : Option α
  err : Option Error
  calls : List StorageCall

/-- The statement `Get` counts on: `ctl.WithDB(ctx)`, extended by the compiled search when
the bound `Search` is not empty; `none` when the compiler panics. -/
def GormController.listDB (sc : Strconv) (ctl : GormController) (ctx : Context)
    (paging : gormPaging) : Option DB :=
  if paging.Search ≠ "" then
    match ctl.parseSearchExpression sc paging.Search with
    | none => none
    | some (cond, conddata) => some ((ctl.WithDB ctx).Where cond conddata)
  else some (ctl.WithDB ctx)

/-- The method `Get`. -/
def GormController.Get (sc : Strconv) (eng : Engine) (ctl : GormController) (ctx : Context) :
    Option (Reply gormPaging) :=
  match ctx.BindPaging { Size := 20, Order := "id desc" } with
  | .error err => some ⟨none, some err, []⟩
  | .ok bound =>
    let paging : gormPaging := { bound with Data := [] }
    match ctl.listDB sc ctx paging with
    | none => none
    | some db =>
      let counted := eng.Count db
      let paging : gormPaging := { paging with Total := counted.1 }
      if counted.2 ≠ none || paging.Total = 0 then
        some ⟨some paging, counted.2, [StorageCall.Count db]⟩
      else
        let q := ((db.Limit paging.Size).Offset (mulInt paging.Size paging.Page)).Order
          paging.Order
        let found := eng.Find q
        some ⟨some { paging with Data := found.1 }, found.2,
          [StorageCall.Count db, StorageCall.Find q]⟩

/-- The method `GetById`: `Find(data, "id=?", id)` adds its inline condition to the
statement; `data` is the zero record unless a row was scanned into it. -/
def GormController.GetById (eng : Engine) (ctl : GormController) (ctx : Context) :
    Reply Record :=
  let q := (ctl.WithDB ctx).Where "id=?" [Value.str (ctx.GetParam "id")]
  let found := eng.Find q
  ⟨some (found.1.headD []), found.2, [StorageCall.Find q]⟩

/-- The method `Post`. -/
def GormController.Post (eng : Engine) (ctl : GormController) (ctx : Context) : Reply Record :=
  match ctx.BindData with
  | .error err => ⟨none, some err, []⟩
  | .ok data =>
    ⟨some data, eng.Save (ctl.WithDB ctx) data, [StorageCall.Save (ctl.WithDB ctx) data]⟩

/-- The method `PutById`. -/
def GormController.PutById (eng : Engine) (ctl : GormController) (ctx : Context) :
    Reply Record :=
  match ctx.BindData with
  | .error err => ⟨none, some err, []⟩
  | .ok data =>
    let q := (ctl.WithDB ctx).Where "id=?" [Value.str (ctx.GetParam "id")]
    ⟨some data, eng.Updates q data, [StorageCall.Updates q data]⟩

/-- The method `DeleteById` (it returns only the error). -/
def GormController.DeleteById (eng : Engine) (ctl : GormController) (ctx : Context) :
    Reply Unit :=
  let q := (ctl.WithDB ctx).Where "id=?" [Value.str (ctx.GetParam "id")]
  ⟨none, eng.Delete q, [StorageCall.Delete q]⟩

/-- The struct `gormLogger` of `gorm/logger.go`. -/
structure gormLogger where
  Logger : Logger
  LogLevel : Int
  SlowThreshold : Int
  deriving DecidableEq, Repr

/-- The method `getLogger`: the value under the string key `"logger"`, when it is an
`eudore.Logger`; else the logger of `l`. -/
def gormLogger.getLogger (l : gormLogger) (ctx : GoContext) : Endpoint.Logger :=
  match ctx.Value (ContextKey.str "logger") with
  | some (CtxValue.logger log) => log
  | _ => l.Logger

/-- The method `WithDB` of the endpoint `Context` (`context.go`); `database` is
`ctx.App.Database`. -/
def Context.WithDB (database : DB) (ctx : Context) : DB :=
  database.WithContext
    (ctx.GetContext.WithValue ContextKey.ContextItemGormLogger (CtxValue.logger ctx.Logger))

/-- The scope predicate of a request: what `policy.CreateExpressions` returns for it. -/
def scopeOf (policy : Context → String → List String → Int → String × List Value)
    (name : String) (cols : List String) (ctx : Context) : Predicate :=
  ⟨(policy ctx name cols (-1)).1, (policy ctx name cols (-1)).2⟩

/-! ## Vocabulary of the statements -/

/-- The operator strings that `regcOp` can select. -/
def selectableOps : List (List Char) :=
  [['='], ['>'], ['<'], ['!', '='], ['~'], ['!', '~'], [':']]

/-- The characters that start or make up an operator of `regc`. -/
def isOpChar (c : Char) : Bool :=
  c = '=' || c = '>' || c = '<' || c = '!' || c = '~' || c = ':'

/-- A name made only of `\w` characters, the names `regc` can capture. -/
def wordName (c : String) : Bool := c.data.all isWord

/-- A plain value: no white space, no quote, no operator character. -/
def plainValue (v : String) : Bool :=
  v.data.all (fun ch => !isSpace ch && ch != quote && !isOpChar ch)

/-- A value without white space and without a quote. -/
def solidValue (v : String) : Bool :=
  v.data.all (fun ch => !isSpace ch && ch != quote)

/-- The fragment `frag` is the one clause `c op ?`, with or without the blank that the final
trim of an AND joiner leaves behind it. -/
def singleClause (c op frag : String) : Prop :=
  frag = c ++ " " ++ op ++ " ?" ∨ frag = c ++ " " ++ op ++ " ? "

/-- A controller with the given column names and semantic types (no scope conditions). -/
def controllerOf (names types : List String) : GormController :=
  { ModelType := "Model", ModelColumnNames := names, ModelColumnTypes := types,
    WithDB := fun _ => {} }

/-- The condition `id=?` bound to the path parameter `id`. -/
def idCondition (ctx : Context) : Predicate := ⟨"id=?", [Value.str (ctx.GetParam "id")]⟩

/-- A policy that restricts `id` to 1, 2, 3. -/
def demoPolicy : Context → String → List String → Int → String × List Value :=
  fun _ _ _ _ => ("id IN ?", [Value.strs ["1", "2", "3"]])

/-- A request for `search=name~ali` with path parameter `id` 5. -/
def demoContext : Context :=
  { GetContext := [], Logger := ⟨1⟩, GetParam := fun _ => "5",
    BindPaging := fun p => .ok { p with Search := "name~ali" },
    BindData := .ok [("name", Value.str "x")] }

/-- An engine that counts 45 rows and answers every other call with nothing. -/
def demoEngine : Engine :=
  { Count := fun _ => (45, none), Find := fun _ => ([], none), Save := fun _ _ => none,
    Updates := fun _ _ => none, Delete := fun _ => none }

/-- The column description of the demo model. -/
def demoColumns : Except Error (List ColumnType) :=
  .ok [⟨"id", "int8"⟩, ⟨"name", "text"⟩]

/-- The controller that `NewGormController` makes for the demo model. -/
def demoController : GormController :=
  { ModelType := "User"
    ModelColumnNames := ["id", "name"]
    ModelColumnTypes := ["int", "string"]
    WithDB := fun ctx =>
      let (sql, vals) := demoPolicy ctx "users" ["id", "name"] (-1)
      (({} : DB).Where sql vals).WithContext
        (ctx.GetContext.WithValue ContextKey.ContextItemGormLogger
          (CtxValue.logger ctx.Logger)) }

/-- The columns that the fallback like-scan emits a clause for: those whose semantic type is
the inferred type `typ`, when that type is `string`, `int` or `bool`. -/
def likeHits (names types : List String) (typ : String) : List (String × String) :=
  (names.zip types).filter
    (fun p => p.2 = typ && (typ = "string" || typ = "int" || typ = "bool"))

/-- The clause of the fallback like-scan for a column (name, type). -/
def likeClause (p : String × String) : String :=
  if p.2 = "string" then p.1 ++ " LIKE ?" else p.1 ++ "=?"

/-- A token that produces a clause: `regc` matches it and the name it captures is a known
column. -/
def clauseToken (ctl : GormController) (tok : String) : Bool :=
  match Re.FindStringSubmatch regc 3 tok with
  | [_, name, _, _] => stringSliceIn ctl.ModelColumnNames name
  | _ => false

/-- The fragment ends in an AND or OR joiner, with or without the blank behind it. -/
def endsInJoiner (frag : String) : Bool :=
  HasSuffix frag "AND" || HasSuffix frag "AND " || HasSuffix frag "OR" || HasSuffix frag "OR "

/-- Invariant of the loop of `parseSearchExpression`: without params the fragment is empty,
with params it ends in a placeholder followed by a joiner. -/
def wellJoined (st : String × List Value) : Prop :=
  (st.2 = [] ∧ st.1 = "") ∨
  (st.2 ≠ [] ∧ ∃ x : String, st.1 = x ++ " ? AND " ∨ st.1 = x ++ " ? OR ")

/-- The ten operator strings of the alternation of `regc`, in source order. -/
def regcOps : List (List Char) :=
  [['='], ['>'], ['<'], ['<', '>'], ['!', '='], ['>', '='], ['<', '='], ['~'], ['!', '~'], [':']]

/-- A param that the structured path can bind for the search text `key`: a list, or a string
other than `key` itself. The fallback binds `key` itself, or its int, float or bool value. -/
def structuredParam (key : String) : Value → Prop
  | .str s => s ≠ key
  | .strs _ => True
  | _ => False

/-- One clause of a search text as it is written: column, operator, value. -/
structure ClauseSpec where
  column : String
  op : String
  value : String

/-- The token of a written clause. -/
def ClauseSpec.token (q : ClauseSpec) : String := q.column ++ q.op ++ q.value

/-- A written clause inside the grammar: a known column made of word characters, an operator
that `regc` selects, a value without white space and without quotes. -/
def ClauseSpec.valid (ctl : GormController) (q : ClauseSpec) : Bool :=
  wordName q.column && stringSliceIn ctl.ModelColumnNames q.column &&
    selectableOps.contains q.op.data && solidValue q.value

/-- The operator text of the compiled clause. -/
def ClauseSpec.opText (q : ClauseSpec) : String :=
  if q.op = "~" then "LIKE" else if q.op = "!~" then "NOT LIKE"
  else if q.op = ":" ∧ containsComma q.value = true then "IN" else q.op

/-- The compiled clause. -/
def ClauseSpec.clause (q : ClauseSpec) : String := q.column ++ " " ++ q.opText ++ " ?"

/-- The param of the compiled clause. -/
def ClauseSpec.param (q : ClauseSpec) : Value :=
  if q.op = "~" ∨ q.op = "!~" then Value.str ("%" ++ q.value ++ "%")
  else if q.op = ":" ∧ containsComma q.value = true then Value.strs (splitComma q.value)
  else Value.str q.value

/-- A string of white space only. -/
def blank (s : String) : Bool := s.data.all isSpace

/-- The search text made of the white space `lead` and then each clause followed by its
separator. -/
def spacedText (lead : String) : List (ClauseSpec × String) → String
  | [] => lead
  | (q, sep) :: rest => lead ++ q.token ++ spacedText sep rest

/-- Every separator is white space, and not empty unless it follows the last clause. -/
def wellSpaced : List (ClauseSpec × String) → Bool
  | [] => true
  | [(_, sep)] => blank sep
  | (_, sep) :: rest => blank sep && sep != "" && wellSpaced rest

/-- Concatenation of a list of strings. -/
def concatAll : List String → String
  | [] => ""
  | a :: rest => a ++ concatAll rest

/-- The search text ` a=1  b~z`: two clauses, each behind its white space. -/
def demoItems : List (ClauseSpec × String) :=
  [(⟨"a", "=", "1"⟩, "  "), (⟨"b", "~", "z"⟩, "")]

/-- A written clause that the loop body compiles: a known column made of word characters, an
operator that `regc` selects, a value without a line feed. -/
def ClauseSpec.matchable (ctl : GormController) (q : ClauseSpec) : Bool :=
  wordName q.column && stringSliceIn ctl.ModelColumnNames q.column &&
    selectableOps.contains q.op.data && q.value.data.all isDot

/-- Every clause is inside the grammar and every separator is non-empty white space. -/
def separated (ctl : GormController) (items : List (ClauseSpec × String)) : Bool :=
  items.all (fun it => it.1.valid ctl && blank it.2 && it.2 != "")

/-- The value `mid` between single quotes. -/
def quoted (mid : String) : String := String.mk [quote] ++ mid ++ String.mk [quote]

/-- The clause `a='x y'`, its value between quotes. -/
def demoQuoted : ClauseSpec := ⟨"a", "=", quoted "x y"⟩

/-- The token holds one of the operators of `regc` somewhere: the shape name, operator,
value, where the name and the value may be empty. -/
def hasOperator (tok : String) : Prop :=
  ∃ pre o post, o ∈ regcOps ∧ tok.data = pre ++ (o ++ post)

/-- The statement of the fetch of `Get` for the bound paging struct, on the counted
statement `db`. -/
def fetchOf (db : DB) (paging : gormPaging) : DB :=
  ((db.Limit paging.Size).Offset (mulInt paging.Size paging.Page)).Order paging.Order

/-- The range of Go `int` on a 64-bit platform. -/
def inInt (n : Int) : Prop := -(2 ^ 63) ≤ n ∧ n < 2 ^ 63

/-- A binder of query parameters: a parameter that the request supplies overwrites the field
of the struct, a parameter it does not supply leaves the field as it is. -/
def bindQuery (page size : Option Int) (order search : Option String) :
    gormPaging → Except Error gormPaging :=
  fun p => .ok { p with Page := page.getD p.Page, Size := size.getD p.Size,
                        Order := order.getD p.Order, Search := search.getD p.Search }

/-- A request with the given query parameters and the path parameter `id`. -/
def requestOf (page size : Option Int) (order search : Option String) (id : String) :
    Context :=
  { GetContext := [], Logger := ⟨1⟩, GetParam := fun _ => id,
    BindPaging := bindQuery page size order search, BindData := .ok [] }

/-- The text of the `id` field of a row. -/
def idOf (row : Record) : String :=
  match row.lookup "id" with
  | some (Value.str s) => s
  | _ => ""

/-- Whether a row satisfies a condition, for the conditions of the sample requests: the empty
condition, `id=?` and `id IN ?`. -/
def holdsOn (row : Record) (p : Predicate) : Bool :=
  match p.Params with
  | [] => p.Fragment == ""
  | [Value.str v] => p.Fragment == "id=?" && idOf row == v
  | [Value.strs vs] => p.Fragment == "id IN ?" && vs.contains (idOf row)
  | _ => false

/-- The rows of a table that satisfy every condition of a statement. -/
def selectRows (rows : List Record) (db : DB) : List Record :=
  rows.filter (fun r => db.wheres.all (holdsOn r))

/-- A sample storage engine over a table: the count is the number of selected rows, a fetch
returns the selected rows in table order behind the offset and up to the limit, and a fetch
that selects no row reports no error (gorm `Find`, unlike `First`, has no not-found error). -/
def tableEngine (rows : List Record) : Engine :=
  { Count := fun db => (((selectRows rows db).length : Nat), none)
    Find := fun db =>
      let hit := (selectRows rows db).drop (db.offset.getD 0).toNat
      (match db.limit with
       | some n => hit.take n.toNat
       | none => hit, none)
    Save := fun _ _ => none
    Updates := fun _ _ => none
    Delete := fun _ => none }

/-- The row with the given `id`. -/
def rowOf (n : Nat) : Record := [("id", Value.str (toString n))]

/-- A table of the rows with `id` 1 to `n`. -/
def tableOf (n : Nat) : List Record := (List.range n).map (fun i => rowOf (i + 1))

/-- A policy without restriction: the empty condition. -/
def openPolicy : Context → String → List String → Int → String × List Value :=
  fun _ _ _ _ => ("", [])

/-- The controller that `NewGormController` makes for the demo model under `openPolicy`. -/
def openController : GormController :=
  { ModelType := "User"
    ModelColumnNames := ["id", "name"]
    ModelColumnTypes := ["int", "string"]
    WithDB := fun ctx =>
      let (sql, vals) := openPolicy ctx "users" ["id", "name"] (-1)
      (({} : DB).Where sql vals).WithContext
        (ctx.GetContext.WithValue ContextKey.ContextItemGormLogger
          (CtxValue.logger ctx.Logger)) }

/-! ## Fragments, clauses and texts -/

/-- The number of placeholders `?` in a fragment. -/
def placeholders (frag : String) : Nat := frag.data.count '?'

/-- One clause of a compiled fragment: its column, its operator, whether it is written
`name=?` (the equality of the like-scan) or `name op ?`, and the param bound with it. -/
structure Emitted where
  name : String
  op : String
  tight : Bool
  param : Value

/-- The text of a clause. -/
def Emitted.clause (e : Emitted) : String :=
  if e.tight then e.name ++ e.op ++ "?" else e.name ++ " " ++ e.op ++ " ?"

/-- The fragment made of clauses, each followed by its joiner. -/
def render (es : List (Emitted × String)) : String :=
  concatAll (es.map (fun e => e.1.clause ++ e.2))

/-- The operators that a fragment may hold. -/
def vocabulary : List String :=
  ["=", ">", "<", "<>", "!=", ">=", "<=", ":", "LIKE", "NOT LIKE", "IN"]

/-- Every clause but the last is followed by an AND or OR joiner, the last by nothing or by
one blank. -/
def joinersOK : List (Emitted × String) → Bool
  | [] => true
  | [e] => e.2 = "" || e.2 = " "
  | e :: rest => (e.2 = " AND " || e.2 = " OR ") && joinersOK rest

/-- The loop body of `parseSearchExpression`, run on the token `tok` alone, appends the
clause of `e` and binds the param of `e`. -/
def emitsStructured (ctl : GormController) (tok : String) (e : Emitted) : Prop :=
  searchStep ctl ("", []) tok = (e.clause ++ " AND ", [e.param])

/-- The loop of `parseSearchLike` for the search text `key`, run on the column of `e` alone
with one of the column types, appends the clause of `e` and binds the param of `e`. -/
def emitsLike (sc : Strconv) (key : String) (types : List String) (e : Emitted) : Prop :=
  ∃ coltyp ∈ types,
    parseSearchLikeLoop [e.name] (GormController.parseSearchType sc key).1
      (GormController.parseSearchType sc key).2 [coltyp] 0 ([], []) =
        some ([e.clause], [e.param])

/-- The search text made of `lead` and then each token followed by its separator. -/
def textOf (lead : String) : List (String × String) → String
  | [] => lead
  | (tok, sep) :: rest => lead ++ tok ++ textOf sep rest

/-- Two tokens that differ at most in the value of their clause: the same token, or two
tokens that `regc` matches with the same name and the same operator, where for the operator
`:` both values or neither hold a comma. -/
def valueVariant (a b : String) : Prop :=
  a = b ∨ ∃ wa wb n o va vb,
    Re.FindStringSubmatch regc 3 a = [wa, n, o, va] ∧
    Re.FindStringSubmatch regc 3 b = [wb, n, o, vb] ∧
    (o = ":" → containsComma va = containsComma vb)

/-- A token as it is written between white space: not empty, no white space, no quote. -/
def solidToken (t : String) : Bool :=
  t != "" && t.data.all (fun ch => !isSpace ch && ch != quote)

/-- Every token is solid and every separator is white space, not empty unless it follows
the last token. -/
def gapped : List (String × String) → Bool
  | [] => true
  | [(tok, sep)] => solidToken tok && blank sep
  | (tok, sep) :: rest => solidToken tok && blank sep && sep != "" && gapped rest

/-! ## The float reader in pieces -/

section
open strconv

/-- The input of `readFloatAll` behind its sign. -/
def floatBody (s : List Char) : List Char :=
  match s with
  | c :: t => if c = '+' || c = '-' then t else s
  | [] => s

/-- Whether `readFloatAll` reads the body as hexadecimal. -/
def floatHex (body : List Char) : Bool :=
  match body with
  | z :: x :: _ :: _ => z = '0' && lower x = 'x'
  | _ => false

/-- The part of `readFloatAll` behind the sign and the base prefix: mantissa and exponent
of `digits`. -/
def readFloatFrom (s : List Char) (hex : Bool) (digits : List Char) : Bool :=
  let (m, rest) := scanMant hex digits {}
  if !m.sawdigits then false
  else
    let done (e : Int) (u : Bool) : Bool :=
      (!(m.underscores || u) || underscoreOK s) &&
        (if hex then inRange m.digits 2 (e - 4 * m.frac) else inRange m.digits 10 (e - m.frac))
    match rest with
    | [] => if hex then false else done 0 false
    | c :: r =>
      if lower c = (if hex then 'p' else 'e') then
        match r with
        | [] => false
        | sg :: r1 =>
          let (neg, ds) := if sg = '+' then (false, r1) else if sg = '-' then (true, r1)
                           else (false, sg :: r1)
          match ds with
          | [] => false
          | d :: _ =>
            if (digitVal d).isSome then
              match scanExp ds 0 false with
              | (e, u, []) => done (if neg then -(e : Int) else e) u
              | _ => false
            else false
      else false

end

/-! # Properties -/

/-! ## The bound of `ParseFloat` -/

theorem overflowBound_eq : strconv.overflowBound = 2 ^ 1024 - 2 ^ 970 := by
  norm_num [strconv.overflowBound]

/-! ## The backtracking matcher -/

theorem greedy_stop {α : Type} (p : Char → Bool) (s : List Char) (k : List Char → Option α)
    (h : s = [] ∨ ∃ c t, s = c :: t ∧ p c = false) : greedy p s k = k s := by
  rcases h with rfl | ⟨c, t, rfl, hc⟩
  · rfl
  · simp [greedy, hc]

theorem greedy_append_some {α : Type} (p : Char → Bool) (pre rest : List Char)
    (k : List Char → Option α) (r : α)
    (hpre : ∀ c ∈ pre, p c = true) (h : greedy p rest k = some r) :
    greedy p (pre ++ rest) k = some r := by
  induction pre with
  | nil => simpa using h
  | cons c cs ih =>
    have h1 := ih (fun x hx => hpre x (List.mem_cons_of_mem _ hx))
    simp [greedy, hpre c (List.mem_cons_self _ _), h1]

theorem greedy_append_none {α : Type} (p : Char → Bool) (t rest : List Char)
    (k : List Char → Option α)
    (ht : ∀ a b, t = a ++ b → b ≠ [] → k (b ++ rest) = none)
    (h : greedy p rest k = none) :
    greedy p (t ++ rest) k = none := by
  induction t with
  | nil => simpa using h
  | cons c cs ih =>
    have h1 := ih (fun a b hab hb => ht (c :: a) b (by simp [hab]) hb)
    have h2 := ht [] (c :: cs) rfl (by simp)
    simp only [List.cons_append] at h2 ⊢
    simp [greedy, h1, h2]

theorem greedy_sound {α : Type} (p : Char → Bool) (s : List Char) (k : List Char → Option α)
    (r : α) (h : greedy p s k = some r) : ∃ a b, s = a ++ b ∧ k b = some r := by
  induction s with
  | nil => exact ⟨[], [], rfl, by simpa [greedy] using h⟩
  | cons c cs ih =>
    unfold greedy at h
    split at h
    · split at h
      · next r' hr =>
        simp only [Option.some.injEq] at h
        subst h
        obtain ⟨a, b, hab, hk⟩ := ih hr
        exact ⟨c :: a, b, by simp [hab], hk⟩
      · exact ⟨[], c :: cs, rfl, h⟩
    · exact ⟨[], c :: cs, rfl, h⟩

theorem greedy_sound_all {α : Type} (p : Char → Bool) (s : List Char)
    (k : List Char → Option α) (r : α) (h : greedy p s k = some r) :
    ∃ a b, s = a ++ b ∧ (∀ c ∈ a, p c = true) ∧ k b = some r := by
  induction s with
  | nil => exact ⟨[], [], rfl, by simp, by simpa [greedy] using h⟩
  | cons c cs ih =>
    unfold greedy at h
    split at h
    · next hc =>
      split at h
      · next r' hr =>
        simp only [Option.some.injEq] at h
        subst h
        obtain ⟨a, b, hab, ha, hk⟩ := ih hr
        refine ⟨c :: a, b, by simp [hab], ?_, hk⟩
        intro x hx
        rcases List.mem_cons.1 hx with rfl | hx
        · exact hc
        · exact ha x hx
      · exact ⟨[], c :: cs, rfl, by simp, h⟩
    · exact ⟨[], c :: cs, rfl, by simp, h⟩

theorem greedy_isSome {α : Type} (p : Char → Bool) (a b : List Char)
    (k : List Char → Option α) (ha : ∀ c ∈ a, p c = true) (hk : (k b).isSome = true) :
    (greedy p (a ++ b) k).isSome = true := by
  have hb : (greedy p b k).isSome = true := by
    cases b with
    | nil => simpa [greedy] using hk
    | cons c cs =>
      unfold greedy
      split
      · split
        · rfl
        · exact hk
      · exact hk
  induction a with
  | nil => simpa using hb
  | cons c cs ih =>
    have h1 := ih (fun x hx => ha x (List.mem_cons_of_mem _ hx))
    simp only [List.cons_append, greedy, ha c (List.mem_cons_self _ _), if_true]
    split
    · rfl
    · next hn =>
      have hn' : greedy p (cs ++ b) k = none := hn
      rw [hn'] at h1; simp at h1

theorem greedy_total {α : Type} (p : Char → Bool) (s : List Char) (k : List Char → Option α)
    (hk : ∀ t, (k t).isSome = true) : (greedy p s k).isSome = true := by
  have := greedy_isSome p [] s k (by simp) (hk s)
  simpa using this

/-- When every success of the continuation is the same result `r`, and some reachable split
succeeds, the greedy repetition returns `r`. -/
theorem greedy_const {α : Type} (p : Char → Bool) (s : List Char) (k : List Char → Option α)
    (r : α) (h1 : ∀ a b, s = a ++ b → k b = none ∨ k b = some r)
    (h2 : ∃ a b, s = a ++ b ∧ (∀ c ∈ a, p c = true) ∧ k b = some r) :
    greedy p s k = some r := by
  obtain ⟨a, b, hab, ha, hk⟩ := h2
  have hs : (greedy p s k).isSome = true := by
    rw [hab]; exact greedy_isSome p a b k ha (by simp [hk])
  obtain ⟨r', hr'⟩ := Option.isSome_iff_exists.1 hs
  obtain ⟨a', b', hab', hk'⟩ := greedy_sound p s k r' hr'
  rcases h1 a' b' hab' with h | h
  · rw [h] at hk'; exact absurd hk' (by simp)
  · rw [h] at hk'
    rw [hr', ← hk']

theorem take_length_sub {α : Type} (a b : List α) :
    (a ++ b).take ((a ++ b).length - b.length) = a := by
  simp

theorem suffix_append_cases {α : Type} (A B b : List α) (h : b <:+ A ++ B) :
    b <:+ B ∨ ∃ a', a' ≠ [] ∧ a' <:+ A ∧ b = a' ++ B := by
  induction A with
  | nil => left; simpa using h
  | cons x A ih =>
    rw [List.cons_append, List.suffix_cons_iff] at h
    rcases h with h | h
    · right
      exact ⟨x :: A, by simp, List.suffix_refl _, by simpa using h⟩
    · rcases ih h with h' | ⟨a', h1, h2, h3⟩
      · exact Or.inl h'
      · exact Or.inr ⟨a', h1, h2.trans (List.suffix_cons _ _), h3⟩

theorem run_seq {α : Type} (a b : Re) (s : List Char) (cs : Caps)
    (k : List Char → Caps → Option α) :
    Re.run (.seq a b) s cs k = Re.run a s cs (fun t cs1 => Re.run b t cs1 k) := rfl

theorem run_group {α : Type} (i : Nat) (a : Re) (s : List Char) (cs : Caps)
    (k : List Char → Caps → Option α) :
    Re.run (.group i a) s cs k =
      Re.run a s cs (fun t cs1 => k t ((i, s.take (s.length - t.length)) :: cs1)) := rfl

theorem run_star {α : Type} (p : Char → Bool) (s : List Char) (cs : Caps)
    (k : List Char → Caps → Option α) :
    Re.run (.star p) s cs k = greedy p s (fun t => k t cs) := rfl

theorem run_alt {α : Type} (a b : Re) (s : List Char) (cs : Caps)
    (k : List Char → Caps → Option α) :
    Re.run (.alt a b) s cs k =
      match Re.run a s cs k with
      | some r => some r
      | none => Re.run b s cs k := rfl

theorem run_cls_cons {α : Type} (p : Char → Bool) (c : Char) (t : List Char) (cs : Caps)
    (k : List Char → Caps → Option α) :
    Re.run (.cls p) (c :: t) cs k = if p c then k t cs else none := rfl

theorem run_chr_cons {α : Type} (c : Char) (t : List Char) (cs : Caps)
    (k : List Char → Caps → Option α) : Re.run (Re.chr c) (c :: t) cs k = k t cs := by
  simp [Re.chr, Re.run]

theorem run_chr_none {α : Type} (c : Char) (s : List Char) (cs : Caps)
    (k : List Char → Caps → Option α) (h : s = [] ∨ ∃ x t, s = x :: t ∧ x ≠ c) :
    Re.run (Re.chr c) s cs k = none := by
  rcases h with rfl | ⟨x, t, rfl, hx⟩
  · rfl
  · simp [Re.chr, Re.run, hx]

theorem run_chr_sound {α : Type} (c : Char) (s : List Char) (cs : Caps)
    (k : List Char → Caps → Option α) (r : α) (h : Re.run (Re.chr c) s cs k = some r) :
    ∃ t, s = c :: t ∧ k t cs = some r := by
  cases s with
  | nil => simp [Re.chr, Re.run] at h
  | cons x t =>
    simp only [Re.chr, Re.run] at h
    split at h
    · next hx => exact ⟨t, by simpa using hx, h⟩
    · exact absurd h (by simp)

theorem run_lit2_sound {α : Type} (a b : Char) (s : List Char) (cs : Caps)
    (k : List Char → Caps → Option α) (r : α) (h : Re.run (Re.lit2 a b) s cs k = some r) :
    ∃ t, s = a :: b :: t ∧ k t cs = some r := by
  rw [Re.lit2, run_seq] at h
  obtain ⟨t1, h1, h2⟩ := run_chr_sound a s cs _ r h
  obtain ⟨t2, h3, h4⟩ := run_chr_sound b t1 cs _ r h2
  exact ⟨t2, by rw [h1, h3], h4⟩

theorem run_alt_sound {α : Type} (a b : Re) (s : List Char) (cs : Caps)
    (k : List Char → Caps → Option α) (r : α) (h : Re.run (.alt a b) s cs k = some r) :
    Re.run a s cs k = some r ∨ Re.run b s cs k = some r := by
  simp only [Re.run] at h
  split at h
  · next r' hr => left; rw [hr, h]
  · right; exact h

theorem find_of_matchAt (re : Re) (s t : List Char) (cs : Caps)
    (h : Re.matchAt re s = some (t, cs)) : Re.find re s = some (s, t, cs) := by
  cases s <;> simp [Re.find, h]

theorem find_sound (re : Re) (s from_ rest : List Char) (caps : Caps)
    (h : Re.find re s = some (from_, rest, caps)) :
    (∃ pre, s = pre ++ from_) ∧ Re.matchAt re from_ = some (rest, caps) := by
  induction s with
  | nil =>
    simp only [Re.find] at h
    split at h
    · next t cs hm =>
      simp only [Option.some.injEq, Prod.mk.injEq] at h
      obtain ⟨rfl, rfl, rfl⟩ := h
      exact ⟨⟨[], rfl⟩, hm⟩
    · exact absurd h (by simp)
  | cons c s ih =>
    simp only [Re.find] at h
    split at h
    · next t cs hm =>
      simp only [Option.some.injEq, Prod.mk.injEq] at h
      obtain ⟨rfl, rfl, rfl⟩ := h
      exact ⟨⟨[], rfl⟩, hm⟩
    · obtain ⟨⟨pre, hp⟩, hm⟩ := ih h
      exact ⟨⟨c :: pre, by simp [hp]⟩, hm⟩

theorem find_isSome (re : Re) (pre t : List Char) (h : (Re.matchAt re t).isSome = true) :
    (Re.find re (pre ++ t)).isSome = true := by
  induction pre with
  | nil =>
    cases t with
    | nil =>
      obtain ⟨r, hr⟩ := Option.isSome_iff_exists.1 h
      simp [Re.find, hr]
    | cons c s =>
      obtain ⟨r, hr⟩ := Option.isSome_iff_exists.1 h
      simp [Re.find, hr]
  | cons c cs ih =>
    simp only [List.cons_append, Re.find]
    split
    · rfl
    · exact ih

theorem findAllAux_skip (re : Re) (a b : List Char) :
    Re.findAllAux re (a ++ b) a.length = Re.findAllAux re b 0 := by
  induction a with
  | nil => rfl
  | cons x a ih => simpa [Re.findAllAux] using ih

theorem findAllAux_infix (re : Re) (s : List Char) :
    ∀ (n : Nat) (tok : String), tok ∈ Re.findAllAux re s n →
      ∃ a b, s = a ++ (tok.data ++ b) := by
  induction s with
  | nil => intro n tok h; simp [Re.findAllAux] at h
  | cons c s ih =>
    intro n tok h
    cases n with
    | succ m =>
      simp only [Re.findAllAux] at h
      obtain ⟨a, b, e⟩ := ih m tok h
      exact ⟨c :: a, b, by simp [e]⟩
    | zero =>
      simp only [Re.findAllAux] at h
      split at h
      · obtain ⟨a, b, e⟩ := ih 0 tok h
        exact ⟨c :: a, b, by simp [e]⟩
      · next t cs hm =>
        rcases List.mem_cons.1 h with h1 | h1
        · refine ⟨[], (c :: s).drop ((c :: s).length - t.length), ?_⟩
          rw [h1]
          simp only [List.nil_append]
          exact (List.take_append_drop _ _).symm
        · obtain ⟨a, b, e⟩ := ih _ tok h1
          exact ⟨c :: a, b, by simp [e]⟩

/-! ## Character classes -/

theorem isWord_solid (c : Char) (h : isWord c = true) : isSpace c = false ∧ c ≠ quote := by
  constructor
  · cases hs : isSpace c with
    | false => rfl
    | true =>
      simp only [isSpace, Bool.or_eq_true, decide_eq_true_eq] at hs
      rcases hs with (((rfl | rfl) | rfl) | rfl) | rfl <;> exact absurd h (by decide)
  · rintro rfl
    exact absurd h (by decide)

theorem isDot_of_not_space (c : Char) (h : isSpace c = false) : isDot c = true := by
  cases hd : isDot c with
  | true => rfl
  | false =>
    simp only [isDot, ne_eq, decide_not, Bool.not_eq_false', decide_eq_true_eq] at hd
    subst hd
    exact absurd h (by decide)

theorem isDot_quote : isDot quote = true := by decide

theorem not_quote_of_space (x : Char) (h : isSpace x = true) : x ≠ quote := by
  rintro rfl
  exact absurd h (by decide)

/-! ## The tokens of `regs` -/

/-- A run of non-space, non-quote characters that ends at a space or at the end of the
input is one match of `regs`. -/
theorem regs_matchAt_token (tok rest : List Char) (hne : tok ≠ [])
    (htok : ∀ c ∈ tok, isSpace c = false ∧ c ≠ quote)
    (hrest : rest = [] ∨ ∃ c t, rest = c :: t ∧ isSpace c = true) :
    Re.matchAt regs (tok ++ rest) = some (rest, [(1, tok)]) := by
  obtain ⟨c, t, rfl⟩ := List.exists_cons_of_ne_nil hne
  have hc := htok c (List.mem_cons_self _ _)
  have ht : ∀ x ∈ t, isNonSpace x = true := fun x hx => by
    simp [isNonSpace, (htok x (List.mem_cons_of_mem _ hx)).1]
  have hstop : rest = [] ∨ ∃ c t, rest = c :: t ∧ isNonSpace c = false := by
    rcases hrest with h | ⟨c, t, h1, h2⟩
    · exact Or.inl h
    · exact Or.inr ⟨c, t, h1, by simp [isNonSpace, h2]⟩
  have hq : ∀ x, isSpace x = true → x ≠ quote := by
    intro x hx hxq
    subst hxq
    revert hx
    decide
  simp only [Re.matchAt, regs, Re.run, Re.plus, Re.chr, List.cons_append, isNonSpace, hc.1,
    Bool.not_false, if_true]
  rw [greedy_append_none]
  · simp only []
    rw [greedy_append_some (r := (rest, [(1, c :: t)]))]
    · exact ht
    · rw [greedy_stop _ _ _ hstop]
      have h3 : t.length + rest.length + 1 - rest.length = t.length + 1 := by omega
      simp [h3]
  · intro a b hab hb
    obtain ⟨x, b', rfl⟩ := List.exists_cons_of_ne_nil hb
    have hx := htok x (by rw [hab]; simp)
    simp [hx.2]
  · rw [greedy_stop _ _ _ hstop]
    rcases hrest with rfl | ⟨x, t', rfl, h2⟩
    · rfl
    · simp [hq x h2]

theorem regs_findAll_space (c : Char) (rest : List Char) (hc : isSpace c = true) :
    Re.findAllAux regs (c :: rest) 0 = Re.findAllAux regs rest 0 := by
  have h : Re.matchAt regs (c :: rest) = none := by
    simp [Re.matchAt, regs, Re.run, Re.plus, isNonSpace, hc]
  simp [Re.findAllAux, h]

theorem regs_findAll_token (tok rest : List Char) (hne : tok ≠ [])
    (htok : ∀ c ∈ tok, isSpace c = false ∧ c ≠ quote)
    (hrest : rest = [] ∨ ∃ c t, rest = c :: t ∧ isSpace c = true) :
    Re.findAllAux regs (tok ++ rest) 0 = String.mk tok :: Re.findAllAux regs rest 0 := by
  have h := regs_matchAt_token tok rest hne htok hrest
  obtain ⟨c, t, rfl⟩ := List.exists_cons_of_ne_nil hne
  simp only [List.cons_append] at h ⊢
  have h3 : t.length + rest.length + 1 - rest.length = t.length + 1 := by omega
  simp only [Re.findAllAux, h, List.length_cons, List.length_append, h3]
  simp [findAllAux_skip]

/-- A text without white space and without a quote is its own single token. -/
theorem regs_single_token (tok : List Char) (hne : tok ≠ [])
    (htok : ∀ c ∈ tok, isSpace c = false ∧ c ≠ quote) :
    Re.FindAllString regs (String.mk tok) = [String.mk tok] := by
  have h := regs_findAll_token tok [] hne htok (Or.inl rfl)
  simp only [List.append_nil] at h
  simp [Re.FindAllString, h, Re.findAllAux]

theorem regs_findAll_blank (lead rest : List Char) (h : ∀ c ∈ lead, isSpace c = true) :
    Re.findAllAux regs (lead ++ rest) 0 = Re.findAllAux regs rest 0 := by
  induction lead with
  | nil => rfl
  | cons c l ih =>
    rw [List.cons_append, regs_findAll_space c _ (h c (List.mem_cons_self _ _))]
    exact ih (fun x hx => h x (List.mem_cons_of_mem _ hx))

theorem findAllAux_blank (rest : List Char) (h : ∀ c ∈ rest, isSpace c = true) :
    Re.findAllAux regs rest 0 = [] := by
  have := regs_findAll_blank rest [] h
  simpa [Re.findAllAux] using this

/-- A quoted value behind a run of non-space, non-quote characters, with nothing but white
space behind its closing quote, is one match of `regs`, white space inside it included. -/
theorem regs_matchAt_quoted (pre mid rest : List Char) (hne : pre ≠ [])
    (hpre : ∀ c ∈ pre, isSpace c = false ∧ c ≠ quote)
    (hmid : ∀ c ∈ mid, isDot c = true) (hrest : ∀ c ∈ rest, isSpace c = true) :
    Re.matchAt regs (pre ++ quote :: (mid ++ quote :: rest))
      = some (rest, [(1, pre ++ quote :: (mid ++ [quote]))]) := by
  obtain ⟨p0, ptail, rfl⟩ := List.exists_cons_of_ne_nil hne
  have hp0 := hpre p0 (List.mem_cons_self _ _)
  have hpt : ∀ x ∈ ptail, isNonSpace x = true := fun x hx => by
    simp [isNonSpace, (hpre x (List.mem_cons_of_mem _ hx)).1]
  -- the continuation behind the closing quote, and its one possible result
  let s := p0 :: ptail ++ quote :: (mid ++ quote :: rest)
  let k1 : List Char → Caps → Option (List Char × Caps) :=
    fun t cs1 => some (t, (1, s.take (s.length - t.length)) :: cs1)
  let K2 : List Char → Option (List Char × Caps) := fun t3 => Re.run (Re.chr quote) t3 [] k1
  have hr : k1 rest [] = some (rest, [(1, p0 :: ptail ++ quote :: (mid ++ [quote]))]) := by
    have e : s = (p0 :: ptail ++ quote :: (mid ++ [quote])) ++ rest := by simp [s]
    simp only [k1, e, take_length_sub]
  have hK2rest : ∀ t2, t2 <:+ rest → greedy isDot t2 K2 = none := by
    intro t2 ht2
    have := greedy_append_none isDot t2 [] K2 (by
      intro a b hab hb
      obtain ⟨x, b', rfl⟩ := List.exists_cons_of_ne_nil hb
      have hx : x ∈ rest := ht2.subset (by rw [hab]; simp)
      simp only [List.append_nil, K2]
      exact run_chr_none _ _ _ _ (Or.inr ⟨x, b', rfl, not_quote_of_space x (hrest x hx)⟩))
      (by simp [greedy, K2, Re.chr, Re.run])
    simpa using this
  have hK2mid : ∀ m, (∀ c ∈ m, isDot c = true) →
      greedy isDot (m ++ quote :: rest) K2
        = some (rest, [(1, p0 :: ptail ++ quote :: (mid ++ [quote]))]) := by
    intro m hm
    apply greedy_append_some _ _ _ _ _ hm
    simp only [greedy, isDot_quote, if_true, hK2rest rest (List.suffix_refl _)]
    simp only [K2, run_chr_cons]
    exact hr
  let K1 : List Char → Option (List Char × Caps) := fun t =>
    Re.run (Re.chr quote) t [] (fun t2 cs => Re.run (.star isDot) t2 cs
      (fun t3 cs3 => Re.run (Re.chr quote) t3 cs3 k1))
  have hK1q : ∀ t2, K1 (quote :: t2) = greedy isDot t2 K2 := by
    intro t2
    simp only [K1, run_chr_cons, run_star, K2]
  have hmain : greedy isNonSpace (ptail ++ quote :: (mid ++ quote :: rest)) K1
      = some (rest, [(1, p0 :: ptail ++ quote :: (mid ++ [quote]))]) := by
    apply greedy_const
    · intro a b hab
      cases b with
      | nil => left; exact run_chr_none _ _ _ _ (Or.inl rfl)
      | cons x t2 =>
        by_cases hx : x = quote
        · subst hx
          rw [hK1q]
          have hsuf : quote :: t2 <:+ ptail ++ quote :: (mid ++ quote :: rest) := ⟨a, hab.symm⟩
          rcases suffix_append_cases _ _ _ hsuf with h | ⟨a', h1, h2, h3⟩
          · have e : quote :: (mid ++ quote :: rest) = (quote :: mid) ++ quote :: rest := by simp
            rw [e] at h
            rcases suffix_append_cases _ _ _ h with h' | ⟨a', h1, h2, h3⟩
            · rw [List.suffix_cons_iff] at h'
              rcases h' with h' | h'
              · simp only [List.cons.injEq, true_and] at h'
                left; rw [h']; exact hK2rest rest (List.suffix_refl _)
              · exact absurd rfl (not_quote_of_space quote
                  (hrest quote (h'.subset (List.mem_cons_self _ _))))
            · obtain ⟨y, a'', rfl⟩ := List.exists_cons_of_ne_nil h1
              simp only [List.cons_append, List.cons.injEq] at h3
              right
              rw [h3.2]
              apply hK2mid
              intro c hc
              have hc' : c ∈ quote :: mid := h2.subset (List.mem_cons_of_mem _ hc)
              rcases List.mem_cons.1 hc' with rfl | hc'
              · exact isDot_quote
              · exact hmid c hc'
          · obtain ⟨y, a'', rfl⟩ := List.exists_cons_of_ne_nil h1
            simp only [List.cons_append, List.cons.injEq] at h3
            have hy : y ∈ p0 :: ptail :=
              List.mem_cons_of_mem _ (h2.subset (List.mem_cons_self _ _))
            exact absurd h3.1.symm (hpre y hy).2
        · left
          exact run_chr_none _ _ _ _ (Or.inr ⟨x, t2, rfl, hx⟩)
    · exact ⟨ptail, _, rfl, hpt, by rw [hK1q]; exact hK2mid mid hmid⟩
  simp only [Re.matchAt, regs, run_group, run_alt, Re.plus, run_seq, List.cons_append,
    run_cls_cons, isNonSpace, hp0.1, Bool.not_false, if_true, run_star]
  have hmain' := hmain
  simp only [K1, isNonSpace, k1, s, List.cons_append, run_star] at hmain'
  rw [hmain']

theorem regs_findAll_quoted (pre mid rest : List Char) (hne : pre ≠ [])
    (hpre : ∀ c ∈ pre, isSpace c = false ∧ c ≠ quote)
    (hmid : ∀ c ∈ mid, isDot c = true) (hrest : ∀ c ∈ rest, isSpace c = true) :
    Re.findAllAux regs (pre ++ quote :: (mid ++ quote :: rest)) 0
      = [String.mk (pre ++ quote :: (mid ++ [quote]))] := by
  have h := regs_matchAt_quoted pre mid rest hne hpre hmid hrest
  obtain ⟨c, t, rfl⟩ := List.exists_cons_of_ne_nil hne
  have e : c :: t ++ quote :: (mid ++ quote :: rest)
      = c :: ((t ++ quote :: (mid ++ [quote])) ++ rest) := by simp
  rw [e] at h ⊢
  simp only [List.cons_append] at h ⊢
  generalize t ++ quote :: (mid ++ [quote]) = X at h ⊢
  have h3 : (c :: (X ++ rest)).length - rest.length = X.length + 1 := by
    simp only [List.length_cons, List.length_append]; omega
  have htake : List.take (X.length + 1) (c :: (X ++ rest)) = c :: X := by simp
  simp only [Re.findAllAux, h, h3, htake, Nat.add_sub_cancel, findAllAux_skip,
    findAllAux_blank rest hrest]

/-! ## The matches of `regc` -/

theorem regcOp_run {α : Type} (o v : List Char) (cs : Caps) (k : List Char → Caps → Option α)
    (r : α) (ho : o ∈ selectableOps) (hk : k v cs = some r) :
    Re.run regcOp (o ++ v) cs k = some r := by
  simp only [selectableOps, List.mem_cons, List.mem_singleton, List.not_mem_nil, or_false] at ho
  rcases ho with rfl | rfl | rfl | rfl | rfl | rfl | rfl <;>
    simp [regcOp, Re.run, Re.chr, Re.lit2, hk]

theorem selectableOps_head (o : List Char) (ho : o ∈ selectableOps) (v : List Char) :
    ∃ c t, o ++ v = c :: t ∧ isWord c = false := by
  simp only [selectableOps, List.mem_cons, List.mem_singleton, List.not_mem_nil, or_false] at ho
  rcases ho with rfl | rfl | rfl | rfl | rfl | rfl | rfl <;>
    exact ⟨_, _, rfl, by decide⟩

theorem selectableOps_ne_in (o : List Char) (ho : o ∈ selectableOps) : String.mk o ≠ "IN" := by
  simp only [selectableOps, List.mem_cons, List.mem_singleton, List.not_mem_nil, or_false] at ho
  rcases ho with rfl | rfl | rfl | rfl | rfl | rfl | rfl <;> decide

theorem selectableOps_solid (o : List Char) (ho : o ∈ selectableOps) :
    o ≠ [] ∧ ∀ c ∈ o, isSpace c = false ∧ c ≠ quote := by
  simp only [selectableOps, List.mem_cons, List.mem_singleton, List.not_mem_nil, or_false] at ho
  rcases ho with rfl | rfl | rfl | rfl | rfl | rfl | rfl <;> decide

theorem regcOps_ne_nil (o : List Char) (h : o ∈ regcOps) : o ≠ [] := by
  simp only [regcOps, List.mem_cons, List.mem_singleton, List.not_mem_nil, or_false] at h
  rcases h with rfl | rfl | rfl | rfl | rfl | rfl | rfl | rfl | rfl | rfl <;> simp

theorem regcOps_selectable (o : List Char) (ho : o ∈ regcOps) (post : List Char) :
    ∃ o' t, o' ∈ selectableOps ∧ o ++ post = o' ++ t := by
  simp only [regcOps, List.mem_cons, List.mem_singleton, List.not_mem_nil, or_false] at ho
  rcases ho with rfl | rfl | rfl | rfl | rfl | rfl | rfl | rfl | rfl | rfl
  · exact ⟨['='], post, by decide, rfl⟩
  · exact ⟨['>'], post, by decide, rfl⟩
  · exact ⟨['<'], post, by decide, rfl⟩
  · exact ⟨['<'], '>' :: post, by decide, rfl⟩
  · exact ⟨['!', '='], post, by decide, rfl⟩
  · exact ⟨['>'], '=' :: post, by decide, rfl⟩
  · exact ⟨['<'], '=' :: post, by decide, rfl⟩
  · exact ⟨['~'], post, by decide, rfl⟩
  · exact ⟨['!', '~'], post, by decide, rfl⟩
  · exact ⟨[':'], post, by decide, rfl⟩

theorem regc_matchAt (name o v : List Char) (hname : ∀ c ∈ name, isWord c = true)
    (ho : o ∈ selectableOps) (hv : ∀ c ∈ v, isDot c = true) :
    Re.matchAt regc (name ++ (o ++ v)) = some ([], [(3, v), (2, o), (1, name)]) := by
  simp only [Re.matchAt, regc, run_seq, run_group, run_star]
  apply greedy_append_some _ _ _ _ _ hname
  rw [greedy_stop _ _ _ (Or.inr (selectableOps_head o ho v))]
  apply regcOp_run _ _ _ _ _ ho
  have h := greedy_append_some isDot v []
    (fun t => some (t, (3, List.take ((v).length - t.length) v) ::
      (2, List.take ((o ++ v).length - v.length) (o ++ v)) ::
      [(1, List.take ((name ++ (o ++ v)).length - (o ++ v).length) (name ++ (o ++ v)))]))
    ([], [(3, v), (2, o), (1, name)]) hv (by simp [greedy])
  simpa using h

theorem regc_submatch (name o v : List Char) (hname : ∀ c ∈ name, isWord c = true)
    (ho : o ∈ selectableOps) (hv : ∀ c ∈ v, isDot c = true) :
    Re.FindStringSubmatch regc 3 (String.mk (name ++ (o ++ v))) =
      [String.mk (name ++ (o ++ v)), String.mk name, String.mk o, String.mk v] := by
  have h3 : (name ++ (o ++ v)).length - 0 = (name ++ (o ++ v)).length := by omega
  simp only [Re.FindStringSubmatch, find_of_matchAt _ _ _ _ (regc_matchAt name o v hname ho hv),
    List.length_nil, h3, List.take_length]
  simp [capture, List.range, List.range.loop, List.lookup]

theorem regcOp_sound {α : Type} (s : List Char) (cs : Caps)
    (k : List Char → Caps → Option α) (r : α) (h : Re.run regcOp s cs k = some r) :
    ∃ o t, o ∈ regcOps ∧ s = o ++ t ∧ k t cs = some r := by
  unfold regcOp at h
  rcases run_alt_sound _ _ _ _ _ _ h with h | h
  · obtain ⟨t, e, hk⟩ := run_chr_sound _ _ _ _ _ h
    exact ⟨['='], t, by simp [regcOps], e, hk⟩
  rcases run_alt_sound _ _ _ _ _ _ h with h | h
  · obtain ⟨t, e, hk⟩ := run_chr_sound _ _ _ _ _ h
    exact ⟨['>'], t, by simp [regcOps], e, hk⟩
  rcases run_alt_sound _ _ _ _ _ _ h with h | h
  · obtain ⟨t, e, hk⟩ := run_chr_sound _ _ _ _ _ h
    exact ⟨['<'], t, by simp [regcOps], e, hk⟩
  rcases run_alt_sound _ _ _ _ _ _ h with h | h
  · obtain ⟨t, e, hk⟩ := run_lit2_sound _ _ _ _ _ _ h
    exact ⟨['<', '>'], t, by simp [regcOps], e, hk⟩
  rcases run_alt_sound _ _ _ _ _ _ h with h | h
  · obtain ⟨t, e, hk⟩ := run_lit2_sound _ _ _ _ _ _ h
    exact ⟨['!', '='], t, by simp [regcOps], e, hk⟩
  rcases run_alt_sound _ _ _ _ _ _ h with h | h
  · obtain ⟨t, e, hk⟩ := run_lit2_sound _ _ _ _ _ _ h
    exact ⟨['>', '='], t, by simp [regcOps], e, hk⟩
  rcases run_alt_sound _ _ _ _ _ _ h with h | h
  · obtain ⟨t, e, hk⟩ := run_lit2_sound _ _ _ _ _ _ h
    exact ⟨['<', '='], t, by simp [regcOps], e, hk⟩
  rcases run_alt_sound _ _ _ _ _ _ h with h | h
  · obtain ⟨t, e, hk⟩ := run_chr_sound _ _ _ _ _ h
    exact ⟨['~'], t, by simp [regcOps], e, hk⟩
  rcases run_alt_sound _ _ _ _ _ _ h with h | h
  · obtain ⟨t, e, hk⟩ := run_lit2_sound _ _ _ _ _ _ h
    exact ⟨['!', '~'], t, by simp [regcOps], e, hk⟩
  · obtain ⟨t, e, hk⟩ := run_chr_sound _ _ _ _ _ h
    exact ⟨[':'], t, by simp [regcOps], e, hk⟩

/-- Every match of `regc` splits its input into a name, one of the ten operators, a value and
the unread rest, and captures the three in its groups. -/
theorem regc_matchAt_sound (s t : List Char) (caps : Caps)
    (h : Re.matchAt regc s = some (t, caps)) :
    ∃ n o v, o ∈ regcOps ∧ s = n ++ (o ++ (v ++ t)) ∧ caps = [(3, v), (2, o), (1, n)] := by
  simp only [Re.matchAt, regc, run_seq, run_group, run_star] at h
  obtain ⟨n, t1, e1, h1⟩ := greedy_sound _ _ _ _ h
  obtain ⟨o, t2, ho, e2, h2⟩ := regcOp_sound _ _ _ _ h1
  obtain ⟨v, t3, e3, h3⟩ := greedy_sound _ _ _ _ h2
  simp only [Option.some.injEq, Prod.mk.injEq] at h3
  obtain ⟨h3a, h3b⟩ := h3
  subst h3a
  refine ⟨n, o, v, ho, by rw [e1, e2, e3], ?_⟩
  rw [← h3b]
  subst e3
  subst e2
  subst e1
  simp

/-- What `FindStringSubmatch` returns for `regc` on a token: the name, the operator and the
value lie side by side in the token, in this order. -/
theorem regc_submatch_sound (tok whole name op val : String)
    (h : Re.FindStringSubmatch regc 3 tok = [whole, name, op, val]) :
    ∃ pre post, op.data ∈ regcOps ∧
      tok.data = pre ++ (name.data ++ (op.data ++ (val.data ++ post))) := by
  unfold Re.FindStringSubmatch at h
  split at h
  · exact absurd h (by simp)
  · next from_ rest cs hf =>
    obtain ⟨⟨pre, hp⟩, hm⟩ := find_sound _ _ _ _ _ hf
    obtain ⟨n, o, v, ho, hs, hc⟩ := regc_matchAt_sound _ _ _ hm
    subst hc
    simp only [List.range, List.range.loop, List.map, List.cons.injEq, and_true] at h
    obtain ⟨_, hn, hop, hv⟩ := h
    have hn' : name.data = n := by rw [← hn]; simp [capture, List.lookup]
    have ho' : op.data = o := by rw [← hop]; simp [capture, List.lookup]
    have hv' : val.data = v := by rw [← hv]; simp [capture, List.lookup]
    exact ⟨pre, rest, by rw [ho']; exact ho, by rw [hp, hs, hn', ho', hv']⟩

/-- The name that `regc` captures is made of word characters only. -/
theorem regc_name_word (tok whole name op val : String)
    (h : Re.FindStringSubmatch regc 3 tok = [whole, name, op, val]) :
    wordName name = true := by
  unfold Re.FindStringSubmatch at h
  split at h
  · exact absurd h (by simp)
  · next from_ rest cs hf =>
    obtain ⟨_, hm⟩ := find_sound _ _ _ _ _ hf
    simp only [Re.matchAt, regc, run_seq, run_group, run_star] at hm
    obtain ⟨n, t1, e1, hn, h1⟩ := greedy_sound_all _ _ _ _ hm
    obtain ⟨o, t2, _, e2, h2⟩ := regcOp_sound _ _ _ _ h1
    obtain ⟨v, t3, e3, h3⟩ := greedy_sound _ _ _ _ h2
    simp only [Option.some.injEq, Prod.mk.injEq] at h3
    obtain ⟨_, h3b⟩ := h3
    simp only [List.range, List.range.loop, List.map, List.cons.injEq, and_true] at h
    obtain ⟨_, hname, _, _⟩ := h
    have hn' : name.data = n := by
      rw [← hname, ← h3b]
      subst e1
      simp [capture, List.lookup]
    simp only [wordName, List.all_eq_true, hn']
    exact hn

theorem submatch_cases (tok : String) :
    Re.FindStringSubmatch regc 3 tok = [] ∨
    ∃ w n o v, Re.FindStringSubmatch regc 3 tok = [w, n, o, v] := by
  unfold Re.FindStringSubmatch
  split
  · exact Or.inl rfl
  · exact Or.inr ⟨_, _, _, _, rfl⟩

theorem regc_matchAt_isSome (o post : List Char) (ho : o ∈ regcOps) :
    (Re.matchAt regc (o ++ post)).isSome = true := by
  obtain ⟨o', t, ho', e⟩ := regcOps_selectable o ho post
  rw [e]
  simp only [Re.matchAt, regc, run_seq, run_group, run_star]
  rw [greedy_stop _ _ _ (Or.inr (selectableOps_head o' ho' t))]
  have htot := greedy_total isDot t
    (fun t3 => some (t3, (3, List.take (t.length - t3.length) t) ::
      (2, List.take ((o' ++ t).length - t.length) (o' ++ t)) ::
      [(1, List.take ((o' ++ t).length - (o' ++ t).length) (o' ++ t))])) (fun _ => rfl)
  obtain ⟨r, hr⟩ := Option.isSome_iff_exists.1 htot
  rw [regcOp_run o' t _ _ r ho' hr]
  rfl

/-- The tokens that `regc` matches are the tokens that hold an operator. -/
theorem regc_matches_iff (tok : String) :
    (Re.FindStringSubmatch regc 3 tok).length = 4 ↔ hasOperator tok := by
  constructor
  · intro h
    rcases submatch_cases tok with h0 | ⟨w, n, o, v, hm⟩
    · rw [h0] at h; simp at h
    · obtain ⟨pre, post, ho, ht⟩ := regc_submatch_sound tok w n o v hm
      exact ⟨pre ++ n.data, o.data, v.data ++ post, ho, by rw [ht]; simp⟩
  · rintro ⟨pre, o, post, ho, ht⟩
    have h1 := find_isSome regc pre (o ++ post) (regc_matchAt_isSome o post ho)
    rw [← ht] at h1
    obtain ⟨r, hr⟩ := Option.isSome_iff_exists.1 h1
    obtain ⟨a, b, c⟩ := r
    simp [Re.FindStringSubmatch, hr]

/-! ## Strings and lists -/

theorem hasSuffix_append (x y : String) : HasSuffix (x ++ y) y = true := by
  simp [HasSuffix, String.data_append]

theorem hasSuffix_iff (s z : String) : HasSuffix s z = true ↔ z.data <:+ s.data := by
  simp [HasSuffix]

theorem hasSuffix_append_short (x y z : String) (h : z.data.length ≤ y.data.length) :
    HasSuffix (x ++ y) z = HasSuffix y z := by
  apply Bool.eq_iff_iff.2
  rw [hasSuffix_iff, hasSuffix_iff, String.data_append]
  constructor
  · intro hz
    exact List.suffix_of_suffix_length_le hz (List.suffix_append _ _) h
  · intro hz
    exact hz.trans (List.suffix_append _ _)

/-- A string that ends in `y` does not end in `z` when some ending `z'` of `z`, no longer than
`y`, is not an ending of `y`. -/
theorem hasSuffix_append_false (x y z z' : String) (hz : z'.data <:+ z.data)
    (hlen : z'.data.length ≤ y.data.length) (hno : HasSuffix y z' = false) :
    HasSuffix (x ++ y) z = false := by
  cases h : HasSuffix (x ++ y) z with
  | false => rfl
  | true =>
    have h1 : z'.data <:+ (x ++ y).data := hz.trans ((hasSuffix_iff _ _).1 h)
    have h2 : HasSuffix (x ++ y) z' = true := (hasSuffix_iff _ _).2 h1
    rw [hasSuffix_append_short x y z' hlen, hno] at h2
    exact absurd h2 (by simp)

theorem dropLast_append (x y : String) : dropLast (x ++ y) y.data.length = x := by
  simp [dropLast, String.data_append]

theorem trimJoiner_and (x : String) : trimJoiner (x ++ " AND ") = x ++ " " := by
  have h1 : x ++ " AND " = (x ++ " ") ++ "AND " := by
    apply String.ext; simp [String.data_append]
  have h2 : HasSuffix (x ++ " AND ") " AND " = true := hasSuffix_append _ _
  have h3 := dropLast_append (x ++ " ") "AND "
  rw [trimJoiner, h2]
  simp only [Bool.true_or, if_true]
  rw [h1]
  exact h3

theorem trimJoiner_or (x : String) : trimJoiner (x ++ " OR ") = x := by
  have h1 : HasSuffix (x ++ " OR ") " AND " = false := by
    exact hasSuffix_append_false x " OR " " AND " "D " (by decide) (by decide) (by decide)
  have h2 : HasSuffix (x ++ " OR ") " OR " = true := hasSuffix_append _ _
  have h3 := dropLast_append x " OR "
  simp only [show (" OR ".data.length) = 4 from rfl] at h3
  simp [trimJoiner, h1, h2, h3]

theorem endsInJoiner_placeholder (y : String) : endsInJoiner (y ++ "?") = false := by
  simp only [endsInJoiner, Bool.or_eq_false_iff]
  exact ⟨⟨⟨hasSuffix_append_false y "?" "AND" "D" (by decide) (by decide) (by decide),
    hasSuffix_append_false y "?" "AND " " " (by decide) (by decide) (by decide)⟩,
    hasSuffix_append_false y "?" "OR" "R" (by decide) (by decide) (by decide)⟩,
    hasSuffix_append_false y "?" "OR " " " (by decide) (by decide) (by decide)⟩

theorem endsInJoiner_placeholder_blank (y : String) : endsInJoiner (y ++ "? ") = false := by
  simp only [endsInJoiner, Bool.or_eq_false_iff]
  exact ⟨⟨⟨hasSuffix_append_false y "? " "AND" "D" (by decide) (by decide) (by decide),
    hasSuffix_append_false y "? " "AND " "D " (by decide) (by decide) (by decide)⟩,
    hasSuffix_append_false y "? " "OR" "R" (by decide) (by decide) (by decide)⟩,
    hasSuffix_append_false y "? " "OR " "R " (by decide) (by decide) (by decide)⟩

theorem splitChars_ne_nil (sep : Char) (l : List Char) : splitChars sep l ≠ [] := by
  cases l with
  | nil => simp [splitChars]
  | cons c cs =>
    unfold splitChars
    split
    · simp
    · split <;> simp

theorem splitChars_no_sep (sep : Char) (l : List Char) :
    ∀ p ∈ splitChars sep l, sep ∉ p := by
  induction l with
  | nil => intro p hp; simp [splitChars] at hp; simp [hp]
  | cons c cs ih =>
    intro p hp
    unfold splitChars at hp
    split at hp
    · rcases List.mem_cons.1 hp with h | h
      · simp [h]
      · exact ih p h
    · next hc =>
      split at hp
      · simp only [List.mem_singleton] at hp
        simp [hp]; exact fun e => hc e.symm
      · next h t heq =>
        rcases List.mem_cons.1 hp with h1 | h1
        · rw [h1]
          have := ih h (by rw [heq]; exact List.mem_cons_self _ _)
          simp only [List.mem_cons, not_or]
          exact ⟨fun e => hc e.symm, this⟩
        · exact ih p (by rw [heq]; exact List.mem_cons_of_mem _ h1)

theorem splitChars_join (sep : Char) (l : List Char) :
    Join ((splitChars sep l).map String.mk) (String.mk [sep]) = String.mk l := by
  induction l with
  | nil => simp [splitChars, Join]
  | cons c cs ih =>
    unfold splitChars
    split
    · next hc =>
      obtain ⟨h, t, heq⟩ := List.exists_cons_of_ne_nil (splitChars_ne_nil sep cs)
      rw [heq] at ih ⊢
      simp only [List.map_cons, Join] at ih ⊢
      rw [ih]
      apply String.ext
      simp [String.data_append, hc]
    · split
      · next heq => exact absurd heq (splitChars_ne_nil sep cs)
      · next h t heq =>
        rw [heq] at ih
        cases t with
        | nil =>
          simp only [List.map_cons, List.map_nil, Join] at ih ⊢
          have := congrArg String.data ih
          simp only at this
          rw [this]
        | cons b r =>
          simp only [List.map_cons, Join] at ih ⊢
          have := congrArg String.data ih
          simp only [String.data_append] at this
          apply String.ext
          simp only [String.data_append]
          rw [← this]
          simp

/-- The pieces of `splitComma`: joined by commas they give the value back, and none of them
holds a comma. -/
theorem splitComma_spec (v : String) :
    Join (splitComma v) "," = v ∧ ∀ p ∈ splitComma v, containsComma p = false := by
  constructor
  · exact splitChars_join ',' v.data
  · intro p hp
    simp only [splitComma, List.mem_map] at hp
    obtain ⟨l, hl, rfl⟩ := hp
    have := splitChars_no_sep ',' v.data l hl
    simpa [containsComma] using this

theorem join_placeholder (sep : String) (l : List String)
    (h : ∀ s ∈ l, ∃ y : String, s = y ++ "?") :
    Join l sep = "" ∨ ∃ y : String, Join l sep = y ++ "?" := by
  induction l with
  | nil => exact Or.inl rfl
  | cons a t ih =>
    right
    cases t with
    | nil => simpa [Join] using h a (List.mem_cons_self _ _)
    | cons b rest =>
      have hb := ih (fun s hs => h s (List.mem_cons_of_mem _ hs))
      rcases hb with hb | ⟨y, hy⟩
      · obtain ⟨yb, hyb⟩ := h b (by simp)
        cases rest with
        | nil =>
          simp only [Join] at hb ⊢
          exact ⟨a ++ sep ++ yb, by rw [hyb]; apply String.ext; simp [String.data_append]⟩
        | cons c rest' =>
          simp only [Join] at hb
          have := congrArg String.data hb
          simp only [String.data_append, hyb] at this
          simp at this
      · simp only [Join]
        exact ⟨a ++ sep ++ y, by rw [hy]; apply String.ext; simp [String.data_append]⟩

theorem concat_join (qs : List String) (h : qs ≠ []) :
    concatAll (qs.map (fun q => q ++ " AND ")) = Join qs " AND " ++ " AND " := by
  induction qs with
  | nil => exact absurd rfl h
  | cons a t ih =>
    cases t with
    | nil => simp [concatAll, Join]
    | cons b rest =>
      have := ih (by simp)
      simp only [List.map_cons, concatAll, Join] at this ⊢
      rw [this]
      apply String.ext
      simp [String.data_append]

theorem cons_ne_snoc (c d : Char) (h : c ≠ d) : ∀ l : List Char, c :: l ≠ l ++ [d] := by
  intro l
  induction l generalizing c with
  | nil => simpa using h
  | cons e l ih =>
    intro heq
    simp only [List.cons_append, List.cons.injEq] at heq
    obtain ⟨rfl, h2⟩ := heq
    exact ih c h h2

theorem wrap_ne (x o v y : List Char) (ho : o = ['~'] ∨ o = ['!', '~']) :
    x ++ (o ++ (v ++ y)) ≠ '%' :: (v ++ ['%']) := by
  intro h
  have hl := congrArg List.length h
  rcases ho with rfl | rfl
  · cases x with
    | nil =>
      simp only [List.nil_append, List.cons_append, List.cons.injEq] at h
      exact absurd h.1 (by decide)
    | cons a x =>
      cases x with
      | nil =>
        cases y with
        | nil =>
          simp only [List.cons_append, List.nil_append, List.append_nil, List.cons.injEq] at h
          exact cons_ne_snoc '~' '%' (by decide) v h.2
        | cons b y => simp at hl
      | cons b x => simp at hl; omega
  · cases x with
    | nil =>
      simp only [List.nil_append, List.cons_append, List.cons.injEq] at h
      exact absurd h.1 (by decide)
    | cons a x => simp at hl; omega

theorem get?_append_length {α : Type} (pre : List α) (n : α) (ns : List α) :
    (pre ++ n :: ns).get? pre.length = some n := by
  induction pre with
  | nil => rfl
  | cons a pre ih => simpa using ih

/-! ## The loop of the compiler -/

theorem stringSliceIn_iff (strs : List String) (str : String) :
    stringSliceIn strs str = true ↔ str ∈ strs := by
  induction strs with
  | nil => simp [stringSliceIn]
  | cons a t ih =>
    by_cases h : a = str
    · simp [stringSliceIn, h]
    · have h2 : ¬ str = a := fun e => h e.symm
      simp [stringSliceIn, h, h2, ih]

/-- The loop body on a token that `regc` matches with a known name: one clause, joined by
AND, and one param. -/
theorem searchStep_clause (ctl : GormController) (st : String × List Value)
    (tok whole name op val : String)
    (hm : Re.FindStringSubmatch regc 3 tok = [whole, name, op, val])
    (hin : name ∈ ctl.ModelColumnNames) (hop : op ≠ "IN") :
    searchStep ctl st tok =
      (st.1 ++ (name ++ " " ++
          (if op = "~" then "LIKE" else if op = "!~" then "NOT LIKE"
           else if op = ":" ∧ containsComma val = true then "IN" else op) ++ " ? AND "),
       st.2 ++ [if op = "~" ∨ op = "!~" then Value.str ("%" ++ val ++ "%")
                else if op = ":" ∧ containsComma val = true then Value.strs (splitComma val)
                else Value.str val]) := by
  have hs := (stringSliceIn_iff ctl.ModelColumnNames name).2 hin
  simp only [searchStep, hm, hs, Bool.not_true, Bool.false_eq_true, if_false]
  by_cases h1 : op = "~"
  · subst h1; simp
  · by_cases h2 : op = "!~"
    · subst h2; simp
    · by_cases h3 : op = ":" ∧ containsComma val = true
      · obtain ⟨h3a, h3b⟩ := h3
        subst h3a
        simp [h3b]
      · have h4 : ¬ (op = ":" ∧ containsComma val = true) := h3
        simp only [not_and, Bool.not_eq_true] at h4
        by_cases h5 : op = ":"
        · have h6 := h4 h5
          subst h5
          simp [h6]
        · simp [h1, h2, h5, hop]

/-- The loop body on any token that `regc` matches with a known name: the fragment grows by
one clause on that name closed by the AND joiner, the params by one. -/
theorem searchStep_known (ctl : GormController) (st : String × List Value)
    (tok whole name op val : String)
    (hm : Re.FindStringSubmatch regc 3 tok = [whole, name, op, val])
    (hin : name ∈ ctl.ModelColumnNames) :
    ∃ opText param, searchStep ctl st tok =
      (st.1 ++ (name ++ " " ++ opText ++ " ? AND "), st.2 ++ [param]) := by
  have hs := (stringSliceIn_iff ctl.ModelColumnNames name).2 hin
  simp only [searchStep, hm, hs, Bool.not_true, Bool.false_eq_true, if_false]
  split_ifs <;> exact ⟨_, _, rfl⟩

theorem searchStep_unknown (ctl : GormController) (st : String × List Value)
    (tok whole name op val : String)
    (hm : Re.FindStringSubmatch regc 3 tok = [whole, name, op, val])
    (hin : name ∉ ctl.ModelColumnNames) :
    searchStep ctl st tok = st := by
  have hs : stringSliceIn ctl.ModelColumnNames name = false := by
    cases h : stringSliceIn ctl.ModelColumnNames name with
    | false => rfl
    | true => exact absurd ((stringSliceIn_iff _ _).1 h) hin
  simp [searchStep, hm, hs]

theorem searchStep_unmatched (ctl : GormController) (st : String × List Value) (tok : String)
    (hm : (Re.FindStringSubmatch regc 3 tok).length ≠ 4) :
    searchStep ctl st tok =
      (if HasSuffix st.1 "AND " then dropLast st.1 4 ++ "OR " else st.1, st.2) := by
  unfold searchStep
  split
  · next h => rw [h] at hm; simp at hm
  · rfl

theorem clauseToken_iff (ctl : GormController) (tok : String) :
    clauseToken ctl tok = true ↔
      ∃ w n o v, Re.FindStringSubmatch regc 3 tok = [w, n, o, v] ∧ n ∈ ctl.ModelColumnNames := by
  rcases submatch_cases tok with h | ⟨w, n, o, v, h⟩
  · simp [clauseToken, h]
  · simp only [clauseToken, h, stringSliceIn_iff]
    constructor
    · intro hn; exact ⟨w, n, o, v, rfl, hn⟩
    · rintro ⟨w', n', o', v', h', hin'⟩
      simp only [List.cons.injEq, and_true] at h'
      exact h'.2.1 ▸ hin'

theorem searchStep_params (ctl : GormController) (st : String × List Value) (tok : String) :
    (clauseToken ctl tok = true → ∃ p, (searchStep ctl st tok).2 = st.2 ++ [p]) ∧
    (clauseToken ctl tok = false → (searchStep ctl st tok).2 = st.2) := by
  rcases submatch_cases tok with h | ⟨w, n, o, v, h⟩
  · have hl : (Re.FindStringSubmatch regc 3 tok).length ≠ 4 := by simp [h]
    simp [clauseToken, h, searchStep_unmatched ctl st tok hl]
  · by_cases hin : n ∈ ctl.ModelColumnNames
    · obtain ⟨ot, p, hp⟩ := searchStep_known ctl st tok w n o v h hin
      have hc : clauseToken ctl tok = true := (clauseToken_iff ctl tok).2 ⟨w, n, o, v, h, hin⟩
      simp [hc, hp]
    · have hc : clauseToken ctl tok = false := by
        cases hc : clauseToken ctl tok with
        | false => rfl
        | true =>
          obtain ⟨w', n', o', v', h', hin'⟩ := (clauseToken_iff ctl tok).1 hc
          rw [h] at h'
          simp only [List.cons.injEq, and_true] at h'
          exact absurd (h'.2.1 ▸ hin') hin
      simp [hc, searchStep_unknown ctl st tok w n o v h hin]

theorem searchLoop_count (ctl : GormController) (toks : List String) :
    ∀ st : String × List Value,
      (toks.foldl (searchStep ctl) st).2.length = st.2.length + toks.countP (clauseToken ctl) := by
  induction toks with
  | nil => intro st; simp
  | cons t ts ih =>
    intro st
    rw [List.foldl_cons, ih]
    cases hc : clauseToken ctl t with
    | true =>
      obtain ⟨p, hp⟩ := (searchStep_params ctl st t).1 hc
      simp [hp, hc, List.countP_cons]
      omega
    | false =>
      have hp := (searchStep_params ctl st t).2 hc
      simp [hp, hc, List.countP_cons]

/-- A column whose name is not made of word characters is never the name of a clause. -/
theorem clause_name_word (ctl : GormController) (st : String × List Value) (tok : String)
    (h : clauseToken ctl tok = true) :
    ∃ name opText param, wordName name = true ∧ name ∈ ctl.ModelColumnNames ∧
      searchStep ctl st tok = (st.1 ++ (name ++ " " ++ opText ++ " ? AND "), st.2 ++ [param]) := by
  obtain ⟨w, n, o, v, hm, hin⟩ := (clauseToken_iff ctl tok).1 h
  obtain ⟨ot, p, hp⟩ := searchStep_known ctl st tok w n o v hm hin
  exact ⟨n, ot, p, regc_name_word tok w n o v hm, hin, hp⟩

theorem searchStep_wellJoined (ctl : GormController) (st : String × List Value) (tok : String)
    (h : wellJoined st) : wellJoined (searchStep ctl st tok) := by
  rcases submatch_cases tok with hm | ⟨w, n, o, v, hm⟩
  · have hl : (Re.FindStringSubmatch regc 3 tok).length ≠ 4 := by simp [hm]
    rw [searchStep_unmatched ctl st tok hl]
    rcases h with ⟨h2, h1⟩ | ⟨h2, x, h1 | h1⟩
    · left
      refine ⟨h2, ?_⟩
      simp only [h1]
      decide
    · right
      refine ⟨h2, x, Or.inr ?_⟩
      have e : x ++ " ? AND " = (x ++ " ? ") ++ "AND " := by
        apply String.ext; simp [String.data_append]
      simp only [h1]
      rw [e, hasSuffix_append, if_pos rfl]
      have := dropLast_append (x ++ " ? ") "AND "
      simp only [show ("AND ".data.length) = 4 from rfl] at this
      rw [this]
      apply String.ext; simp [String.data_append]
    · right
      refine ⟨h2, x, Or.inr ?_⟩
      simp only [h1]
      rw [hasSuffix_append_short x " ? OR " "AND " (by decide)]
      simp only [show HasSuffix " ? OR " "AND " = false from by decide]
      simp
  · by_cases hin : n ∈ ctl.ModelColumnNames
    · obtain ⟨ot, p, hp⟩ := searchStep_known ctl st tok w n o v hm hin
      rw [hp]
      right
      refine ⟨by simp, st.1 ++ (n ++ " " ++ ot), Or.inl ?_⟩
      apply String.ext; simp [String.data_append]
    · rw [searchStep_unknown ctl st tok w n o v hm hin]
      exact h

theorem searchLoop_wellJoined (ctl : GormController) (key : String) :
    wellJoined (searchLoop ctl key) := by
  have : ∀ (toks : List String) (st : String × List Value), wellJoined st →
      wellJoined (toks.foldl (searchStep ctl) st) := by
    intro toks
    induction toks with
    | nil => intro st h; exact h
    | cons t ts ih => intro st h; exact ih _ (searchStep_wellJoined ctl st t h)
  exact this _ _ (Or.inl ⟨rfl, rfl⟩)

/-- The param that the loop body binds for a token of `key` is never `key` itself. -/
theorem searchStep_structuredParam (ctl : GormController) (key : String)
    (st : String × List Value) (tok : String)
    (htok : ∃ a b, key.data = a ++ (tok.data ++ b))
    (h : ∀ p ∈ st.2, structuredParam key p) :
    ∀ p ∈ (searchStep ctl st tok).2, structuredParam key p := by
  rcases submatch_cases tok with hm | ⟨w, n, o, v, hm⟩
  · have hl : (Re.FindStringSubmatch regc 3 tok).length ≠ 4 := by simp [hm]
    rw [searchStep_unmatched ctl st tok hl]
    exact h
  · by_cases hin : n ∈ ctl.ModelColumnNames
    · obtain ⟨pre, post, ho, ht⟩ := regc_submatch_sound tok w n o v hm
      obtain ⟨a, b, hk⟩ := htok
      have hone := regcOps_ne_nil _ ho
      have hlen : key.data.length = a.length + (pre.length + (n.data.length +
          (o.data.length + (v.data.length + post.length))) + b.length) := by
        rw [hk, ht]; simp only [List.length_append]
      have hopos : 0 < o.data.length := List.length_pos.2 hone
      have hv : v ≠ key := by
        intro e
        rw [e] at hlen
        omega
      have hwrap : o = "~" ∨ o = "!~" → "%" ++ v ++ "%" ≠ key := by
        intro hop e
        have e' := congrArg String.data e
        simp only [String.data_append] at e'
        rw [hk, ht] at e'
        have hod : o.data = ['~'] ∨ o.data = ['!', '~'] := by
          rcases hop with rfl | rfl
          · exact Or.inl rfl
          · exact Or.inr rfl
        refine wrap_ne (a ++ (pre ++ n.data)) o.data v.data (post ++ b) hod ?_
        simpa using e'.symm
      have hs := (stringSliceIn_iff ctl.ModelColumnNames n).2 hin
      intro p hp
      simp only [searchStep, hm, hs, Bool.not_true, Bool.false_eq_true, if_false] at hp
      split_ifs at hp with c1 c2 c3 c4 c5 c6 <;>
        rcases List.mem_append.1 hp with h1 | h1 <;>
        first
          | exact h p h1
          | (simp only [List.mem_singleton] at h1
             subst h1
             first
               | trivial
               | exact hv
               | exact hwrap (Or.inl c1)
               | exact hwrap (Or.inr c2)
               | exact hwrap (Or.inl ‹_›)
               | exact hwrap (Or.inr ‹_›))
    · rw [searchStep_unknown ctl st tok w n o v hm hin]
      exact h

theorem searchLoop_structuredParam (ctl : GormController) (key : String) :
    ∀ p ∈ (searchLoop ctl key).2, structuredParam key p := by
  have hgen : ∀ (toks : List String) (st : String × List Value),
      (∀ t ∈ toks, ∃ a b, key.data = a ++ (t.data ++ b)) →
      (∀ p ∈ st.2, structuredParam key p) →
      ∀ p ∈ (toks.foldl (searchStep ctl) st).2, structuredParam key p := by
    intro toks
    induction toks with
    | nil => intro st _ h; exact h
    | cons t ts ih =>
      intro st ht h
      exact ih _ (fun t' h' => ht t' (List.mem_cons_of_mem _ h'))
        (searchStep_structuredParam ctl key st t (ht t (List.mem_cons_self _ _)) h)
  exact hgen _ _ (fun t ht => findAllAux_infix regs key.data 0 t ht) (by simp)

/-! ## The fallback like-scan -/

theorem parseSearchType_cases (sc : Strconv) (key : String) :
    (GormController.parseSearchType sc key).1 = "int" ∨
    (GormController.parseSearchType sc key).1 = "float" ∨
    (GormController.parseSearchType sc key).1 = "bool" ∨
    (GormController.parseSearchType sc key).1 = "string" := by
  unfold GormController.parseSearchType
  cases sc.ParseInt key <;> cases sc.ParseFloat key <;> cases sc.ParseBool key <;> simp

theorem parseSearchType_not_structured (sc : Strconv) (key : String) :
    ¬ structuredParam key (GormController.parseSearchType sc key).2 := by
  unfold GormController.parseSearchType
  cases sc.ParseInt key <;> cases sc.ParseFloat key <;> cases sc.ParseBool key <;>
    simp [structuredParam]

/-- The loop of the like-scan from column `pre.length` on, when every remaining type has its
name. -/
theorem parseSearchLikeLoop_eq (typ : String) (val : Value) (types : List String) :
    ∀ (pre ns : List String) (sqls : List String) (vals : List Value),
      ns.length = types.length →
      parseSearchLikeLoop (pre ++ ns) typ val types pre.length (sqls, vals) =
        some (sqls ++ (likeHits ns types typ).map likeClause,
              vals ++ (likeHits ns types typ).map (fun _ => val)) := by
  induction types with
  | nil =>
    intro pre ns sqls vals h
    have : ns = [] := List.length_eq_zero.1 h
    subst this
    simp [parseSearchLikeLoop, likeHits]
  | cons t ts ih =>
    intro pre ns sqls vals h
    obtain ⟨n, ns', rfl⟩ : ∃ n ns', ns = n :: ns' := by
      cases ns with
      | nil => simp at h
      | cons n ns' => exact ⟨n, ns', rfl⟩
    have hl : ns'.length = ts.length := by simpa using h
    have e : pre ++ n :: ns' = (pre ++ [n]) ++ ns' := by simp
    have el : pre.length + 1 = (pre ++ [n]).length := by simp
    have hget : (pre ++ n :: ns').get? pre.length = some n := get?_append_length pre n ns'
    unfold parseSearchLikeLoop
    by_cases h1 : typ = t
    · subst h1
      by_cases h2 : typ = "string"
      · subst h2
        simp only [ne_eq, not_true_eq_false, if_false, if_true, hget]
        rw [e, el, ih (pre ++ [n]) ns' _ _ hl]
        simp [likeHits, likeClause, List.zip_cons_cons, List.filter_cons]
      · by_cases h3 : typ = "int" ∨ typ = "bool"
        · have h3' : (decide (typ = "int") || decide (typ = "bool")) = true := by
            simpa using h3
          simp only [ne_eq, not_true_eq_false, if_false, h2, h3', if_true, hget]
          rw [e, el, ih (pre ++ [n]) ns' _ _ hl]
          have h4 : (decide (typ = "string") || decide (typ = "int") || decide (typ = "bool"))
              = true := by
            rcases h3 with h | h <;> simp [h]
          simp [likeHits, likeClause, h2, h3, h4, List.zip_cons_cons, List.filter_cons]
        · have h3' : (decide (typ = "int") || decide (typ = "bool")) = false := by
            simpa using h3
          simp only [ne_eq, not_true_eq_false, if_false, h2, h3', Bool.false_eq_true]
          rw [e, el, ih (pre ++ [n]) ns' _ _ hl]
          have h4 : (decide (typ = "string") || decide (typ = "int") || decide (typ = "bool"))
              = false := by
            simp only [not_or] at h3
            simp [h2, h3.1, h3.2]
          simp [likeHits, h4, List.zip_cons_cons, List.filter_cons]
    · have h1' : ¬ t = typ := fun e => h1 e.symm
      simp only [ne_eq, h1, not_false_eq_true, if_true]
      rw [e, el, ih (pre ++ [n]) ns' _ _ hl]
      simp [likeHits, h1', List.zip_cons_cons, List.filter_cons]

theorem parseSearchLike_eq (sc : Strconv) (ctl : GormController) (key : String)
    (h : ctl.ModelColumnNames.length = ctl.ModelColumnTypes.length) :
    ctl.parseSearchLike sc key =
      some (Join ((likeHits ctl.ModelColumnNames ctl.ModelColumnTypes
                    (GormController.parseSearchType sc key).1).map likeClause) " OR ",
            (likeHits ctl.ModelColumnNames ctl.ModelColumnTypes
                    (GormController.parseSearchType sc key).1).map
              (fun _ => (GormController.parseSearchType sc key).2)) := by
  have := parseSearchLikeLoop_eq (GormController.parseSearchType sc key).1
    (GormController.parseSearchType sc key).2 ctl.ModelColumnTypes [] ctl.ModelColumnNames [] [] h
  simp only [List.nil_append, List.length_nil] at this
  simp [GormController.parseSearchLike, this]

theorem likeLoop_sqls (names : List String) (typ : String) (val : Value) (types : List String) :
    ∀ (i : Nat) (acc r : List String × List Value),
      parseSearchLikeLoop names typ val types i acc = some r →
      (∀ s ∈ acc.1, ∃ y : String, s = y ++ "?") → ∀ s ∈ r.1, ∃ y : String, s = y ++ "?" := by
  induction types with
  | nil =>
    intro i acc r h hacc
    simp only [parseSearchLikeLoop, Option.some.injEq] at h
    subst h
    exact hacc
  | cons t ts ih =>
    intro i acc r h hacc
    obtain ⟨sqls, vals⟩ := acc
    unfold parseSearchLikeLoop at h
    split at h
    · exact ih _ _ _ h hacc
    · split at h
      · split at h
        · exact absurd h (by simp)
        · next n _ =>
          refine ih _ _ _ h ?_
          intro s hs
          rcases List.mem_append.1 hs with h1 | h1
          · exact hacc s h1
          · simp only [List.mem_singleton] at h1
            exact ⟨n ++ " LIKE ", by rw [h1]; apply String.ext; simp [String.data_append]⟩
      · split at h
        · split at h
          · exact absurd h (by simp)
          · next n _ =>
            refine ih _ _ _ h ?_
            intro s hs
            rcases List.mem_append.1 hs with h1 | h1
            · exact hacc s h1
            · simp only [List.mem_singleton] at h1
              exact ⟨n ++ "=", by rw [h1]; apply String.ext; simp [String.data_append]⟩
        · exact ih _ _ _ h hacc

theorem likeLoop_vals (names : List String) (typ : String) (val : Value) (types : List String) :
    ∀ (i : Nat) (acc r : List String × List Value),
      parseSearchLikeLoop names typ val types i acc = some r →
      (∀ x ∈ acc.2, x = val) → ∀ x ∈ r.2, x = val := by
  induction types with
  | nil =>
    intro i acc r h hacc
    simp only [parseSearchLikeLoop, Option.some.injEq] at h
    subst h
    exact hacc
  | cons t ts ih =>
    intro i acc r h hacc
    obtain ⟨sqls, vals⟩ := acc
    have hstep : ∀ x ∈ vals ++ [val], x = val := by
      intro x hx
      rcases List.mem_append.1 hx with h1 | h1
      · exact hacc x h1
      · simpa using h1
    unfold parseSearchLikeLoop at h
    split at h
    · exact ih _ _ _ h hacc
    · split at h
      · split at h
        · exact absurd h (by simp)
        · exact ih _ _ _ h hstep
      · split at h
        · split at h
          · exact absurd h (by simp)
          · exact ih _ _ _ h hstep
        · exact ih _ _ _ h hacc

theorem parseSearchLike_fragment (sc : Strconv) (ctl : GormController) (key frag : String)
    (data : List Value) (h : ctl.parseSearchLike sc key = some (frag, data)) :
    endsInJoiner frag = false := by
  unfold GormController.parseSearchLike at h
  simp only at h
  split at h
  · exact absurd h (by simp)
  · next sqls vals hl =>
    simp only [Option.some.injEq, Prod.mk.injEq] at h
    have hs := likeLoop_sqls _ _ _ _ _ _ _ hl (by simp)
    rcases join_placeholder " OR " sqls hs with e | ⟨y, e⟩
    · rw [← h.1, e]; decide
    · rw [← h.1, e]; exact endsInJoiner_placeholder y

theorem parse_fragment (sc : Strconv) (ctl : GormController) (key frag : String)
    (data : List Value) (h : ctl.parseSearchExpression sc key = some (frag, data)) :
    endsInJoiner frag = false := by
  unfold GormController.parseSearchExpression at h
  simp only at h
  split at h
  · next hne =>
    simp only [Option.some.injEq, Prod.mk.injEq] at h
    have hw := searchLoop_wellJoined ctl key
    rcases hw with ⟨h2, _⟩ | ⟨_, x, h1 | h1⟩
    · rw [h2] at hne; simp at hne
    · rw [← h.1, h1]
      have e : x ++ " ? AND " = (x ++ " ?") ++ " AND " := by
        apply String.ext; simp [String.data_append]
      rw [e, trimJoiner_and]
      have e2 : (x ++ " ?") ++ " " = (x ++ " ") ++ "? " := by
        apply String.ext; simp [String.data_append]
      rw [e2]; exact endsInJoiner_placeholder_blank _
    · rw [← h.1, h1]
      have e : x ++ " ? OR " = (x ++ " ?") ++ " OR " := by
        apply String.ext; simp [String.data_append]
      rw [e, trimJoiner_or]
      have e2 : x ++ " ?" = (x ++ " ") ++ "?" := by
        apply String.ext; simp [String.data_append]
      rw [e2]; exact endsInJoiner_placeholder _
  · exact parseSearchLike_fragment sc ctl key frag data h

/-- A structured result is never equal to the fallback result of the same search text. -/
theorem parse_ne_fallback (sc : Strconv) (ctl : GormController) (key : String)
    (h : (searchLoop ctl key).2 ≠ []) :
    ctl.parseSearchExpression sc key ≠ ctl.parseSearchLike sc key := by
  have hne : (searchLoop ctl key).2.length ≠ 0 := fun e => h (List.length_eq_zero.1 e)
  have hp : ctl.parseSearchExpression sc key
      = some (trimJoiner (searchLoop ctl key).1, (searchLoop ctl key).2) := by
    simp [GormController.parseSearchExpression, hne]
  rw [hp]
  intro e
  unfold GormController.parseSearchLike at e
  simp only at e
  split at e
  · exact absurd e (by simp)
  · next sqls vals hl =>
    simp only [Option.some.injEq, Prod.mk.injEq] at e
    have hv := likeLoop_vals _ _ _ _ _ _ _ hl (by simp)
    obtain ⟨p, ps, hps⟩ := List.exists_cons_of_ne_nil h
    have h1 : structuredParam key p :=
      searchLoop_structuredParam ctl key p (by rw [hps]; exact List.mem_cons_self _ _)
    have h2 : p = (GormController.parseSearchType sc key).2 :=
      hv p (by rw [← e.2, hps]; exact List.mem_cons_self _ _)
    rw [h2] at h1
    exact parseSearchType_not_structured sc key h1

/-! ## One-token search texts -/

/-- A search text that is one token `name‖op‖value` on a known word name compiles to the
one clause and the one param of that token. -/
theorem parse_single_clause (sc : Strconv) (ctl : GormController) (name o v : List Char)
    (hname : ∀ c ∈ name, isWord c = true) (hin : String.mk name ∈ ctl.ModelColumnNames)
    (ho : o ∈ selectableOps) (hv : ∀ c ∈ v, isSpace c = false ∧ c ≠ quote) :
    ctl.parseSearchExpression sc (String.mk (name ++ (o ++ v))) =
      some (String.mk name ++ " " ++
          (if String.mk o = "~" then "LIKE" else if String.mk o = "!~" then "NOT LIKE"
           else if String.mk o = ":" ∧ containsComma (String.mk v) = true then "IN"
           else String.mk o) ++ " ? ",
        [if String.mk o = "~" ∨ String.mk o = "!~" then Value.str ("%" ++ String.mk v ++ "%")
         else if String.mk o = ":" ∧ containsComma (String.mk v) = true
           then Value.strs (splitComma (String.mk v))
         else Value.str (String.mk v)]) := by
  have hsolid : ∀ c ∈ name ++ (o ++ v), isSpace c = false ∧ c ≠ quote := by
    intro c hc
    rcases List.mem_append.1 hc with h | h
    · exact isWord_solid c (hname c h)
    · rcases List.mem_append.1 h with h | h
      · exact (selectableOps_solid o ho).2 c h
      · exact hv c h
  have hne : name ++ (o ++ v) ≠ [] := by
    have := (selectableOps_solid o ho).1
    simp [this]
  have htok := regs_single_token _ hne hsolid
  have hm := regc_submatch name o v hname ho
    (fun c hc => isDot_of_not_space c (hv c hc).1)
  have hstep := searchStep_clause ctl ("", []) _ _ _ _ _ hm hin (selectableOps_ne_in o ho)
  simp only [GormController.parseSearchExpression, searchLoop, htok, List.foldl_cons,
    List.foldl_nil, hstep]
  simp only [List.nil_append, List.length_singleton, ne_eq, one_ne_zero, not_false_eq_true,
    if_true]
  have e : ∀ x : String, "" ++ (String.mk name ++ " " ++ x ++ " ? AND ") =
      (String.mk name ++ " " ++ x ++ " ?") ++ " AND " := by
    intro x; apply String.ext; simp [String.data_append]
  have e2 : ∀ x : String, (String.mk name ++ " " ++ x ++ " ?") ++ " " =
      String.mk name ++ " " ++ x ++ " ? " := by
    intro x; apply String.ext; simp [String.data_append]
  rw [e, trimJoiner_and, e2]

theorem wordName_mem (c : String) (h : wordName c = true) : ∀ ch ∈ c.data, isWord ch = true := by
  simpa [wordName, List.all_eq_true] using h

theorem solidValue_mem (v : String) (h : solidValue v = true) :
    ∀ ch ∈ v.data, isSpace ch = false ∧ ch ≠ quote := by
  intro ch hch
  have := (List.all_eq_true.1 h) ch hch
  simpa using this

theorem plainValue_solid (v : String) (h : plainValue v = true) : solidValue v = true := by
  simp only [plainValue, solidValue, List.all_eq_true] at h ⊢
  intro ch hch
  have := h ch hch
  simp only [Bool.and_eq_true] at this ⊢
  exact this.1

theorem token_eq (c : String) (o : List Char) (v : String) :
    c ++ String.mk o ++ v = String.mk (c.data ++ (o ++ v.data)) := by
  apply String.ext; simp [String.data_append]

/-- The compile of a one-token search text, in terms of strings. -/
theorem parse_token (sc : Strconv) (ctl : GormController) (c op v : String)
    (hc : c ∈ ctl.ModelColumnNames) (hw : wordName c = true) (ho : op.data ∈ selectableOps)
    (hv : solidValue v = true) :
    ctl.parseSearchExpression sc (c ++ op ++ v) =
      some (c ++ " " ++
          (if op = "~" then "LIKE" else if op = "!~" then "NOT LIKE"
           else if op = ":" ∧ containsComma v = true then "IN" else op) ++ " ? ",
        [if op = "~" ∨ op = "!~" then Value.str ("%" ++ v ++ "%")
         else if op = ":" ∧ containsComma v = true then Value.strs (splitComma v)
         else Value.str v]) := by
  have h := parse_single_clause sc ctl c.data op.data v.data (wordName_mem c hw) hc ho
    (solidValue_mem v hv)
  have e := token_eq c op.data v
  exact e ▸ h

/-! ## Search texts of several clauses -/

theorem valid_parts (ctl : GormController) (q : ClauseSpec) (h : q.valid ctl = true) :
    wordName q.column = true ∧ q.column ∈ ctl.ModelColumnNames ∧
      q.op.data ∈ selectableOps ∧ solidValue q.value = true := by
  simp only [ClauseSpec.valid, Bool.and_eq_true] at h
  obtain ⟨⟨⟨h1, h2⟩, h3⟩, h4⟩ := h
  exact ⟨h1, (stringSliceIn_iff _ _).1 h2, by simpa using h3, h4⟩

theorem token_solid (ctl : GormController) (q : ClauseSpec) (h : q.valid ctl = true) :
    q.token.data ≠ [] ∧ ∀ c ∈ q.token.data, isSpace c = false ∧ c ≠ quote := by
  obtain ⟨h1, _, h3, h4⟩ := valid_parts ctl q h
  have hs := selectableOps_solid _ h3
  constructor
  · simp [ClauseSpec.token, String.data_append, hs.1]
  · intro c hc
    simp only [ClauseSpec.token, String.data_append, List.mem_append] at hc
    rcases hc with (hc | hc) | hc
    · exact isWord_solid c (wordName_mem _ h1 c hc)
    · exact hs.2 c hc
    · exact solidValue_mem _ h4 c hc

theorem spacedText_head (lead : String) (items : List (ClauseSpec × String))
    (hl : blank lead = true) (hne : lead ≠ "" ∨ items = []) :
    (spacedText lead items).data = [] ∨
      ∃ c t, (spacedText lead items).data = c :: t ∧ isSpace c = true := by
  have hb : ∀ c ∈ lead.data, isSpace c = true := by
    simpa [blank, List.all_eq_true] using hl
  cases hd : lead.data with
  | nil =>
    have hle : lead = "" := String.ext hd
    rcases hne with h | h
    · exact absurd hle h
    · subst h
      left
      simp [spacedText, hd]
  | cons c t =>
    right
    have hc : isSpace c = true := hb c (by rw [hd]; exact List.mem_cons_self _ _)
    cases items with
    | nil => exact ⟨c, t, by simp [spacedText, hd], hc⟩
    | cons it rest =>
      obtain ⟨q, sep⟩ := it
      exact ⟨c, t ++ (q.token.data ++ (spacedText sep rest).data),
        by simp [spacedText, String.data_append, hd], hc⟩

/-- The tokens of a well spaced search text are the tokens of its clauses, in order. -/
theorem regs_spacedText (ctl : GormController) (items : List (ClauseSpec × String)) :
    ∀ lead : String, blank lead = true → wellSpaced items = true →
      (∀ it ∈ items, it.1.valid ctl = true) →
      Re.findAllAux regs (spacedText lead items).data 0 = items.map (fun it => it.1.token) := by
  induction items with
  | nil =>
    intro lead hl _ _
    have hb : ∀ c ∈ lead.data, isSpace c = true := by
      simpa [blank, List.all_eq_true] using hl
    have := regs_findAll_blank lead.data [] hb
    simpa [spacedText, Re.findAllAux] using this
  | cons it rest ih =>
    intro lead hl hw hv
    obtain ⟨q, sep⟩ := it
    have hb : ∀ c ∈ lead.data, isSpace c = true := by
      simpa [blank, List.all_eq_true] using hl
    have hq := token_solid ctl q (hv (q, sep) (List.mem_cons_self _ _))
    have hsep : blank sep = true ∧ (sep ≠ "" ∨ rest = []) ∧ wellSpaced rest = true := by
      cases rest with
      | nil => exact ⟨by simpa [wellSpaced] using hw, Or.inr rfl, rfl⟩
      | cons r rs =>
        simp only [wellSpaced, Bool.and_eq_true, bne_iff_ne, ne_eq] at hw
        exact ⟨hw.1.1, Or.inl hw.1.2, hw.2⟩
    have hrest := spacedText_head sep rest hsep.1 hsep.2.1
    have e : (spacedText lead ((q, sep) :: rest)).data
        = lead.data ++ (q.token.data ++ (spacedText sep rest).data) := by
      simp [spacedText, String.data_append]
    rw [e, regs_findAll_blank _ _ hb, regs_findAll_token _ _ hq.1 hq.2 hrest,
      ih sep hsep.1 hsep.2.2 (fun it hit => hv it (List.mem_cons_of_mem _ hit))]
    simp

/-- The tokens of clauses that each end in non-empty white space, whatever follows. -/
theorem regs_separated (ctl : GormController) (items : List (ClauseSpec × String)) :
    ∀ (lead : String) (rest : List Char), blank lead = true → separated ctl items = true →
      Re.findAllAux regs ((spacedText lead items).data ++ rest) 0
        = items.map (fun it => it.1.token) ++ Re.findAllAux regs rest 0 := by
  induction items with
  | nil =>
    intro lead rest hl _
    have hb : ∀ c ∈ lead.data, isSpace c = true := by
      simpa [blank, List.all_eq_true] using hl
    simpa [spacedText] using regs_findAll_blank lead.data rest hb
  | cons it items ih =>
    intro lead rest hl hs
    obtain ⟨q, sep⟩ := it
    have hb : ∀ c ∈ lead.data, isSpace c = true := by
      simpa [blank, List.all_eq_true] using hl
    simp only [separated, List.all_cons, Bool.and_eq_true, bne_iff_ne, ne_eq] at hs
    obtain ⟨⟨⟨hv, hsb⟩, hsn⟩, hrest⟩ := hs
    have hq := token_solid ctl q hv
    have hhead := spacedText_head sep items hsb (Or.inl hsn)
    have hhead' : ((spacedText sep items).data ++ rest) = [] ∨
        ∃ c t, (spacedText sep items).data ++ rest = c :: t ∧ isSpace c = true := by
      rcases hhead with h | ⟨c, t, h1, h2⟩
      · exfalso
        have hsd : sep.data ≠ [] := fun e => hsn (String.ext e)
        cases items with
        | nil => simp [spacedText] at h; exact hsd h
        | cons i2 r2 =>
          obtain ⟨q2, s2⟩ := i2
          simp [spacedText, String.data_append] at h
          exact hsd h.1
      · exact Or.inr ⟨c, t ++ rest, by simp [h1], h2⟩
    have e : (spacedText lead ((q, sep) :: items)).data ++ rest
        = lead.data ++ (q.token.data ++ ((spacedText sep items).data ++ rest)) := by
      simp [spacedText, String.data_append]
    rw [e, regs_findAll_blank _ _ hb, regs_findAll_token _ _ hq.1 hq.2 hhead',
      ih sep rest hsb (by simpa [separated] using hrest)]
    simp

theorem matchable_parts (ctl : GormController) (q : ClauseSpec) (h : q.matchable ctl = true) :
    wordName q.column = true ∧ q.column ∈ ctl.ModelColumnNames ∧
      q.op.data ∈ selectableOps ∧ ∀ c ∈ q.value.data, isDot c = true := by
  simp only [ClauseSpec.matchable, Bool.and_eq_true] at h
  obtain ⟨⟨⟨h1, h2⟩, h3⟩, h4⟩ := h
  exact ⟨h1, (stringSliceIn_iff _ _).1 h2, by simpa using h3, by simpa using h4⟩

theorem valid_matchable (ctl : GormController) (q : ClauseSpec) (h : q.valid ctl = true) :
    q.matchable ctl = true := by
  obtain ⟨h1, h2, h3, h4⟩ := valid_parts ctl q h
  simp only [ClauseSpec.matchable, Bool.and_eq_true]
  refine ⟨⟨⟨h1, (stringSliceIn_iff _ _).2 h2⟩, by simpa using h3⟩, ?_⟩
  rw [List.all_eq_true]
  intro c hc
  exact isDot_of_not_space c (solidValue_mem _ h4 c hc).1

theorem searchStep_spec (ctl : GormController) (st : String × List Value) (q : ClauseSpec)
    (h : q.matchable ctl = true) :
    searchStep ctl st q.token = (st.1 ++ (q.clause ++ " AND "), st.2 ++ [q.param]) := by
  obtain ⟨h1, h2, h3, h4⟩ := matchable_parts ctl q h
  have hm := regc_submatch q.column.data q.op.data q.value.data (wordName_mem _ h1) h3 h4
  have e := token_eq q.column q.op.data q.value
  have hstep := searchStep_clause ctl st q.token _ q.column q.op q.value
    (by rw [ClauseSpec.token, e]; exact hm) h2 (selectableOps_ne_in _ h3)
  rw [hstep]
  simp only [ClauseSpec.clause, ClauseSpec.opText, ClauseSpec.param]
  congr 1
  apply String.ext; simp [String.data_append]

theorem searchLoop_specs (ctl : GormController) (qs : List ClauseSpec)
    (h : ∀ q ∈ qs, q.matchable ctl = true) :
    ∀ st : String × List Value,
      (qs.map ClauseSpec.token).foldl (searchStep ctl) st =
        (st.1 ++ concatAll (qs.map (fun q => q.clause ++ " AND ")),
         st.2 ++ qs.map ClauseSpec.param) := by
  induction qs with
  | nil =>
    intro st
    have : st.1 ++ "" = st.1 := by apply String.ext; simp [String.data_append]
    simp [concatAll, this]
  | cons q qs ih =>
    intro st
    rw [List.map_cons, List.foldl_cons, searchStep_spec ctl st q (h q (List.mem_cons_self _ _)),
      ih (fun q' hq' => h q' (List.mem_cons_of_mem _ hq'))]
    simp only [List.map_cons, List.append_assoc, List.singleton_append, Prod.mk.injEq, and_true,
      concatAll]
    apply String.ext
    simp [String.data_append]

/-- The compile of a search text whose tokens are those of matchable clauses. -/
theorem parse_of_tokens (sc : Strconv) (ctl : GormController) (key : String)
    (qs : List ClauseSpec) (hq : ∀ q ∈ qs, q.matchable ctl = true) (hne : qs ≠ [])
    (htok : Re.FindAllString regs key = qs.map ClauseSpec.token) :
    ctl.parseSearchExpression sc key =
      some (Join (qs.map ClauseSpec.clause) " AND " ++ " ", qs.map ClauseSpec.param) := by
  have hloop := searchLoop_specs ctl qs hq ("", [])
  have hcl : qs.map (fun q => q.clause ++ " AND ")
      = (qs.map ClauseSpec.clause).map (fun q => q ++ " AND ") := by simp
  rw [hcl, concat_join _ (by simpa using hne)] at hloop
  have hlen : (qs.map ClauseSpec.param).length ≠ 0 := by simpa using hne
  have e0 : ∀ x : String, "" ++ x = x := by intro x; apply String.ext; simp [String.data_append]
  simp only [GormController.parseSearchExpression, searchLoop]
  rw [htok, hloop]
  simp only [List.nil_append, hlen, ne_eq, not_false_eq_true, if_true, e0, trimJoiner_and]

theorem quoted_tokens (ctl : GormController) (lead : String)
    (items : List (ClauseSpec × String)) (q : ClauseSpec) (mid trail : String)
    (hl : blank lead = true) (hs : separated ctl items = true)
    (hq : q.matchable ctl = true) (hval : q.value = quoted mid) (ht : blank trail = true) :
    Re.FindAllString regs (spacedText lead items ++ q.token ++ trail)
      = (items.map (fun it => it.1) ++ [q]).map ClauseSpec.token := by
  obtain ⟨h1, _, h3, h4⟩ := matchable_parts ctl q hq
  have hmid : ∀ c ∈ mid.data, isDot c = true := by
    intro c hc
    apply h4 c
    rw [hval]
    simp [quoted, String.data_append, hc]
  have htr : ∀ c ∈ trail.data, isSpace c = true := by
    simpa [blank, List.all_eq_true] using ht
  have hpre : ∀ c ∈ q.column.data ++ q.op.data, isSpace c = false ∧ c ≠ quote := by
    intro c hc
    rcases List.mem_append.1 hc with h | h
    · exact isWord_solid c (wordName_mem _ h1 c h)
    · exact (selectableOps_solid _ h3).2 c h
  have hne : q.column.data ++ q.op.data ≠ [] := by
    simp [(selectableOps_solid _ h3).1]
  have e : (spacedText lead items ++ q.token ++ trail).data
      = (spacedText lead items).data ++
          ((q.column.data ++ q.op.data) ++ quote :: (mid.data ++ quote :: trail.data)) := by
    simp [ClauseSpec.token, hval, quoted, String.data_append]
  have e2 : String.mk ((q.column.data ++ q.op.data) ++ quote :: (mid.data ++ [quote]))
      = q.token := by
    apply String.ext
    simp [ClauseSpec.token, hval, quoted, String.data_append]
  rw [Re.FindAllString, e, regs_separated ctl items lead _ hl hs,
    regs_findAll_quoted _ _ _ hne hpre hmid htr, e2]
  simp

/-! ## The five verbs -/

theorem newGormController_withDB {policy : Context → String → List String → Int → String × List Value}
    {db : DB} {modelType name : String} {coltypes : Except Error (List ColumnType)}
    {ctl : GormController}
    (h : NewGormController policy db modelType name coltypes = some ctl) (ctx : Context) :
    (ctl.WithDB ctx).wheres = db.wheres ++ [scopeOf policy name ctl.ModelColumnNames ctx] := by
  unfold NewGormController at h
  split at h
  · exact absurd h (by simp)
  · next cols typs _ =>
    simp only [Option.some.injEq] at h
    subst h
    simp [DB.Where, DB.WithContext, scopeOf]

theorem get_calls (sc : Strconv) (eng : Engine) (ctl : GormController) (ctx : Context)
    (r : Reply gormPaging) (h : ctl.Get sc eng ctx = some r) (c : StorageCall)
    (hc : c ∈ r.calls) :
    ∃ bound db, ctx.BindPaging { Size := 20, Order := "id desc" } = .ok bound ∧
      ctl.listDB sc ctx { bound with Data := [] } = some db ∧ c.db.wheres = db.wheres := by
  unfold GormController.Get at h
  split at h
  · simp only [Option.some.injEq] at h
    subst h
    simp at hc
  · next bound hb =>
    simp only at h
    split at h
    · exact absurd h (by simp)
    · next db hdb =>
      refine ⟨bound, db, hb, hdb, ?_⟩
      split at h
      · simp only [Option.some.injEq] at h
        subst h
        simp only [List.mem_singleton] at hc
        subst hc
        rfl
      · simp only [Option.some.injEq] at h
        subst h
        simp only [List.mem_cons, List.mem_singleton, List.not_mem_nil, or_false] at hc
        rcases hc with rfl | rfl
        · rfl
        · simp [StorageCall.db, DB.Order, DB.Offset, DB.Limit]

theorem get_calls_ne_nil (sc : Strconv) (eng : Engine) (ctl : GormController) (ctx : Context)
    (bound : gormPaging) (db : DB)
    (hb : ctx.BindPaging { Size := 20, Order := "id desc" } = .ok bound)
    (hdb : ctl.listDB sc ctx { bound with Data := [] } = some db) :
    ∃ r, ctl.Get sc eng ctx = some r ∧ StorageCall.Count db ∈ r.calls := by
  unfold GormController.Get
  simp only [hb, hdb]
  split <;> exact ⟨_, rfl, by simp⟩

theorem newGormController_lengths
    {policy : Context → String → List String → Int → String × List Value}
    {db : DB} {modelType name : String} {coltypes : Except Error (List ColumnType)}
    {ctl : GormController}
    (h : NewGormController policy db modelType name coltypes = some ctl) :
    ctl.ModelColumnNames.length = ctl.ModelColumnTypes.length := by
  unfold NewGormController at h
  split at h
  · exact absurd h (by simp)
  · next cols typs hg =>
    simp only [Option.some.injEq] at h
    subst h
    unfold getGormModelColumns at hg
    split at hg
    · exact absurd hg (by simp)
    · simp only [Except.ok.injEq, Prod.mk.injEq] at hg
      obtain ⟨rfl, rfl⟩ := hg
      simp

theorem parse_isSome (sc : Strconv) (ctl : GormController) (key : String)
    (h : ctl.ModelColumnNames.length = ctl.ModelColumnTypes.length) :
    ∃ r, ctl.parseSearchExpression sc key = some r := by
  unfold GormController.parseSearchExpression
  simp only
  split
  · exact ⟨_, rfl⟩
  · exact ⟨_, parseSearchLike_eq sc ctl key h⟩

theorem listDB_isSome (sc : Strconv) (ctl : GormController) (ctx : Context)
    (paging : gormPaging)
    (h : ctl.ModelColumnNames.length = ctl.ModelColumnTypes.length) :
    ∃ q, ctl.listDB sc ctx paging = some q ∧
      ((paging.Search = "" ∧ q = ctl.WithDB ctx) ∨
       (paging.Search ≠ "" ∧ ∃ cond conddata,
          ctl.parseSearchExpression sc paging.Search = some (cond, conddata) ∧
          q = (ctl.WithDB ctx).Where cond conddata)) := by
  unfold GormController.listDB
  by_cases hs : paging.Search = ""
  · simp [hs]
  · obtain ⟨⟨cond, conddata⟩, hr⟩ := parse_isSome sc ctl paging.Search h
    refine ⟨(ctl.WithDB ctx).Where cond conddata, ?_, Or.inr ⟨hs, cond, conddata, hr, rfl⟩⟩
    simp [hs, hr]

theorem get_counted (sc : Strconv) (eng : Engine) (ctl : GormController) (ctx : Context)
    (bound : gormPaging) (q : DB)
    (hb : ctx.BindPaging { Size := 20, Order := "id desc" } = .ok bound)
    (hq : ctl.listDB sc ctx { bound with Data := [] } = some q) :
    (((eng.Count q).2 ≠ none ∨ (eng.Count q).1 = 0) →
      ctl.Get sc eng ctx =
        some ⟨some { bound with Data := [], Total := (eng.Count q).1 }, (eng.Count q).2,
          [StorageCall.Count q]⟩) ∧
    (((eng.Count q).2 = none ∧ (eng.Count q).1 ≠ 0) →
      ctl.Get sc eng ctx =
        some ⟨some { bound with
                Data := (eng.Find (fetchOf q bound)).1, Total := (eng.Count q).1 },
          (eng.Find (fetchOf q bound)).2,
          [StorageCall.Count q, StorageCall.Find (fetchOf q bound)]⟩) := by
  unfold GormController.Get
  simp only [hb, hq]
  constructor
  · intro h
    rw [if_pos]
    simpa using h
  · intro h
    rw [if_neg]
    · rfl
    · simpa using h

theorem fetchOf_fields (q : DB) (paging : gormPaging) :
    (fetchOf q paging).wheres = q.wheres ∧ (fetchOf q paging).context = q.context ∧
    (fetchOf q paging).limit = some paging.Size ∧
    (fetchOf q paging).offset = some (mulInt paging.Size paging.Page) ∧
    (fetchOf q paging).order = some paging.Order := by
  simp [fetchOf, DB.Limit, DB.Offset, DB.Order]

theorem mulInt_inInt (a b : Int) (h : inInt (a * b)) : mulInt a b = a * b := by
  unfold inInt at h
  unfold mulInt
  have h1 : (a * b + 2 ^ 63) % 2 ^ 64 = a * b + 2 ^ 63 := by
    apply Int.emod_eq_of_lt <;> omega
  omega

/-! ## The shape of a compiled fragment -/

theorem str_assoc (a b c : String) : a ++ b ++ c = a ++ (b ++ c) := by
  apply String.ext; simp [String.data_append]

theorem str_empty_append (a : String) : "" ++ a = a := by
  apply String.ext; simp [String.data_append]

theorem str_append_empty (a : String) : a ++ "" = a := by
  apply String.ext; simp [String.data_append]

theorem concatAll_append (a b : List String) :
    concatAll (a ++ b) = concatAll a ++ concatAll b := by
  induction a with
  | nil => simp [concatAll, str_empty_append]
  | cons x a ih => simp [concatAll, ih, str_assoc]

theorem render_append (a b : List (Emitted × String)) :
    render (a ++ b) = render a ++ render b := by
  simp [render, concatAll_append]

theorem render_single (e : Emitted × String) : render [e] = e.1.clause ++ e.2 := by
  simp [render, concatAll, str_append_empty]

theorem render_nil : render [] = "" := rfl

theorem regcOps_vocabulary (o : String) (h : o.data ∈ regcOps) :
    o = "~" ∨ o = "!~" ∨ o ∈ vocabulary := by
  have : o = String.mk o.data := rfl
  rw [this]
  simp only [regcOps, List.mem_cons, List.mem_singleton, List.not_mem_nil, or_false] at h
  rcases h with h | h | h | h | h | h | h | h | h | h <;> rw [h] <;> decide

/-- A token that produces a clause appends one clause text and one param, whatever the
state of the loop. -/
theorem searchStep_emits (ctl : GormController) (tok : String)
    (h : clauseToken ctl tok = true) :
    ∃ e : Emitted, e.tight = false ∧ e.name ∈ ctl.ModelColumnNames ∧
      wordName e.name = true ∧ e.op ∈ vocabulary ∧
      ∀ st : String × List Value,
        searchStep ctl st tok = (st.1 ++ (e.clause ++ " AND "), st.2 ++ [e.param]) := by
  obtain ⟨w, n, o, v, hm, hin⟩ := (clauseToken_iff ctl tok).1 h
  obtain ⟨_, _, hop, _⟩ := regc_submatch_sound tok w n o v hm
  have hov := regcOps_vocabulary o hop
  have hL : "LIKE" ∈ vocabulary := by decide
  have hN : "NOT LIKE" ∈ vocabulary := by decide
  have hI : "IN" ∈ vocabulary := by decide
  have hkn : stringSliceIn ctl.ModelColumnNames n = true := (stringSliceIn_iff _ _).2 hin
  have hw := regc_name_word tok w n o v hm
  by_cases h1 : o = "~"
  · refine ⟨⟨n, "LIKE", false, Value.str ("%" ++ v ++ "%")⟩, rfl, hin, hw, hL, ?_⟩
    intro st
    simp only [searchStep, hm, hkn, h1, Emitted.clause]
    simp [str_assoc]
  · by_cases h2 : o = "!~"
    · refine ⟨⟨n, "NOT LIKE", false, Value.str ("%" ++ v ++ "%")⟩, rfl, hin, hw, hN, ?_⟩
      intro st
      simp only [searchStep, hm, hkn, h2, Emitted.clause]
      simp [str_assoc]
    · by_cases h3 : o = ":" ∧ containsComma v = true
      · refine ⟨⟨n, "IN", false, Value.strs (splitComma v)⟩, rfl, hin, hw, hI, ?_⟩
        intro st
        simp only [searchStep, hm, hkn, h3.1, h3.2, Emitted.clause]
        simp [str_assoc]
      · have hne : o ≠ "IN" := by
          intro e
          rw [e] at hop
          revert hop
          decide
        have hov' : o ∈ vocabulary := by
          rcases hov with e | e | e
          · exact absurd e h1
          · exact absurd e h2
          · exact e
        refine ⟨⟨n, o, false, Value.str v⟩, rfl, hin, hw, hov', ?_⟩
        intro st
        have h3' : (o = ":" && containsComma v) = false := by
          simpa using h3
        simp only [searchStep, hm, hkn, h1, h2, h3', Emitted.clause]
        simp [str_assoc, hne]

theorem clauseToken_false (ctl : GormController) (st : String × List Value) (tok : String)
    (h : clauseToken ctl tok = false) :
    searchStep ctl st tok = st ∨
      searchStep ctl st tok =
        (if HasSuffix st.1 "AND " then dropLast st.1 4 ++ "OR " else st.1, st.2) := by
  rcases submatch_cases tok with h0 | ⟨w, n, o, v, hm⟩
  · right
    exact searchStep_unmatched ctl st tok (by rw [h0]; decide)
  · left
    apply searchStep_unknown ctl st tok w n o v hm
    intro hin
    have := (clauseToken_iff ctl tok).2 ⟨w, n, o, v, hm, hin⟩
    rw [h] at this
    exact absurd this (by decide)

theorem flip_last (x c : String) :
    HasSuffix (x ++ (c ++ " AND ")) "AND " = true ∧
    dropLast (x ++ (c ++ " AND ")) 4 ++ "OR " = x ++ (c ++ " OR ") ∧
    HasSuffix (x ++ (c ++ " OR ")) "AND " = false := by
  have e1 : x ++ (c ++ " AND ") = (x ++ (c ++ " ")) ++ "AND " := by
    apply String.ext; simp [String.data_append]
  refine ⟨?_, ?_, ?_⟩
  · rw [e1]; exact hasSuffix_append _ _
  · rw [e1]
    have := dropLast_append (x ++ (c ++ " ")) "AND "
    have hl : "AND ".data.length = 4 := by decide
    rw [hl] at this
    rw [this]
    apply String.ext; simp [String.data_append]
  · have e2 : x ++ (c ++ " OR ") = (x ++ c) ++ " OR " := by
      apply String.ext; simp [String.data_append]
    rw [e2, hasSuffix_append_short _ _ _ (by decide)]
    decide

/-- The state of the loop of `parseSearchExpression` after the tokens `done` is the render
of the clauses emitted so far. -/
theorem searchStep_trace (ctl : GormController) (tok : String) (done : List String)
    (st : String × List Value) (es : List (Emitted × String)) (used : List String)
    (h1 : st.1 = render es) (h2 : st.2 = es.map (fun e => e.1.param))
    (h3 : ∀ e ∈ es, e.2 = " AND " ∨ e.2 = " OR ")
    (h4 : ∀ e ∈ es, e.1.tight = false ∧ e.1.name ∈ ctl.ModelColumnNames ∧
      wordName e.1.name = true ∧ e.1.op ∈ vocabulary)
    (h5 : used.Sublist done)
    (h6 : List.Forall₂ (emitsStructured ctl) used (es.map Prod.fst)) :
    ∃ (es' : List (Emitted × String)) (used' : List String),
      (searchStep ctl st tok).1 = render es' ∧
      (searchStep ctl st tok).2 = es'.map (fun e => e.1.param) ∧
      (∀ e ∈ es', e.2 = " AND " ∨ e.2 = " OR ") ∧
      (∀ e ∈ es', e.1.tight = false ∧ e.1.name ∈ ctl.ModelColumnNames ∧
        wordName e.1.name = true ∧ e.1.op ∈ vocabulary) ∧
      used'.Sublist (done ++ [tok]) ∧
      List.Forall₂ (emitsStructured ctl) used' (es'.map Prod.fst) := by
  cases hc : clauseToken ctl tok with
  | true =>
    obtain ⟨e, ht, hn, hw, ho, hstep⟩ := searchStep_emits ctl tok hc
    refine ⟨es ++ [(e, " AND ")], used ++ [tok], ?_, ?_, ?_, ?_, ?_, ?_⟩
    · rw [hstep, render_append, render_single, h1]
    · rw [hstep, h2]; simp
    · intro x hx
      rcases List.mem_append.1 hx with hx | hx
      · exact h3 x hx
      · simp only [List.mem_singleton] at hx
        subst hx
        exact Or.inl rfl
    · intro x hx
      rcases List.mem_append.1 hx with hx | hx
      · exact h4 x hx
      · simp only [List.mem_singleton] at hx
        subst hx
        exact ⟨ht, hn, hw, ho⟩
    · exact List.Sublist.append h5 (List.Sublist.refl _)
    · rw [List.map_append]
      apply List.rel_append h6
      refine List.Forall₂.cons ?_ List.Forall₂.nil
      have := hstep ("", [])
      simpa [emitsStructured, str_empty_append] using this
  | false =>
    have hsub : used.Sublist (done ++ [tok]) := h5.trans (List.sublist_append_left _ _)
    rcases clauseToken_false ctl st tok hc with hs | hs
    · exact ⟨es, used, by rw [hs, h1], by rw [hs, h2], h3, h4, hsub, h6⟩
    · rcases List.eq_nil_or_concat es with rfl | ⟨es0, ej, rfl⟩
      · refine ⟨[], used, ?_, by rw [hs, h2], h3, h4, hsub, h6⟩
        rw [hs, h1]
        have hno : HasSuffix (render []) "AND " = false := by decide
        simp only [hno, Bool.false_eq_true, if_false]
      · obtain ⟨e, j⟩ := ej
        have hj := h3 (e, j) (by simp)
        obtain ⟨f1, f2, f3⟩ := flip_last (render es0) e.clause
        rcases hj with hj | hj
        · simp only at hj
          subst hj
          refine ⟨es0 ++ [(e, " OR ")], used, ?_, ?_, ?_, ?_, hsub, ?_⟩
          · rw [hs, h1]
            simp only [List.concat_eq_append, render_append, render_single]
            rw [if_pos f1, f2]
          · rw [hs, h2]; simp
          · intro x hx
            rcases List.mem_append.1 hx with hx | hx
            · exact h3 x (by simp [hx])
            · simp only [List.mem_singleton] at hx
              subst hx
              exact Or.inr rfl
          · intro x hx
            rcases List.mem_append.1 hx with hx | hx
            · exact h4 x (by simp [hx])
            · simp only [List.mem_singleton] at hx
              subst hx
              exact h4 (e, " AND ") (by simp)
          · simpa using h6
        · simp only at hj
          subst hj
          refine ⟨es0 ++ [(e, " OR ")], used, ?_, ?_, ?_, ?_, hsub, ?_⟩
          · rw [hs, h1]
            simp only [List.concat_eq_append, render_append, render_single]
            rw [if_neg (by rw [f3]; decide)]
          · rw [hs, h2]; simp
          · intro x hx; exact h3 x (by simpa using hx)
          · intro x hx; exact h4 x (by simpa using hx)
          · simpa using h6

theorem searchFold_trace (ctl : GormController) (toks : List String) :
    ∀ (done : List String) (st : String × List Value) (es : List (Emitted × String))
      (used : List String),
      st.1 = render es → st.2 = es.map (fun e => e.1.param) →
      (∀ e ∈ es, e.2 = " AND " ∨ e.2 = " OR ") →
      (∀ e ∈ es, e.1.tight = false ∧ e.1.name ∈ ctl.ModelColumnNames ∧
        wordName e.1.name = true ∧ e.1.op ∈ vocabulary) →
      used.Sublist done → List.Forall₂ (emitsStructured ctl) used (es.map Prod.fst) →
      ∃ (es' : List (Emitted × String)) (used' : List String),
        (toks.foldl (searchStep ctl) st).1 = render es' ∧
        (toks.foldl (searchStep ctl) st).2 = es'.map (fun e => e.1.param) ∧
        (∀ e ∈ es', e.2 = " AND " ∨ e.2 = " OR ") ∧
        (∀ e ∈ es', e.1.tight = false ∧ e.1.name ∈ ctl.ModelColumnNames ∧
          wordName e.1.name = true ∧ e.1.op ∈ vocabulary) ∧
        used'.Sublist (done ++ toks) ∧
        List.Forall₂ (emitsStructured ctl) used' (es'.map Prod.fst) := by
  induction toks with
  | nil =>
    intro done st es used h1 h2 h3 h4 h5 h6
    exact ⟨es, used, h1, h2, h3, h4, by simpa using h5, h6⟩
  | cons tok toks ih =>
    intro done st es used h1 h2 h3 h4 h5 h6
    obtain ⟨es1, used1, g1, g2, g3, g4, g5, g6⟩ :=
      searchStep_trace ctl tok done st es used h1 h2 h3 h4 h5 h6
    obtain ⟨es2, used2, k1, k2, k3, k4, k5, k6⟩ :=
      ih (done ++ [tok]) (searchStep ctl st tok) es1 used1 g1 g2 g3 g4 g5 g6
    exact ⟨es2, used2, k1, k2, k3, k4, by simpa using k5, k6⟩

theorem joinersOK_concat (es0 : List (Emitted × String)) (e : Emitted) (j : String)
    (h : ∀ x ∈ es0, x.2 = " AND " ∨ x.2 = " OR ") (hj : j = "" ∨ j = " ") :
    joinersOK (es0 ++ [(e, j)]) = true := by
  induction es0 with
  | nil => simpa [joinersOK] using hj
  | cons x rest ih =>
    have hx := h x (List.mem_cons_self _ _)
    have hr := ih (fun y hy => h y (List.mem_cons_of_mem _ hy))
    cases rest with
    | nil =>
      simp only [List.cons_append, List.nil_append, joinersOK, Bool.and_eq_true,
        Bool.or_eq_true, decide_eq_true_eq]
      exact ⟨hx, by simpa [joinersOK] using hr⟩
    | cons y ys =>
      simp only [List.cons_append, joinersOK, Bool.and_eq_true, Bool.or_eq_true,
        decide_eq_true_eq]
      exact ⟨hx, by simpa [joinersOK] using hr⟩

/-- The structured result is the render of the emitted clauses, the last joiner trimmed. -/
theorem structured_shape (ctl : GormController) (key : String)
    (h : (searchLoop ctl key).2 ≠ []) :
    ∃ (es : List (Emitted × String)) (used : List String),
      trimJoiner (searchLoop ctl key).1 = render es ∧
      (searchLoop ctl key).2 = es.map (fun e => e.1.param) ∧
      joinersOK es = true ∧
      (∀ e ∈ es, e.1.tight = false ∧ e.1.name ∈ ctl.ModelColumnNames ∧
        wordName e.1.name = true ∧ e.1.op ∈ vocabulary) ∧
      used.Sublist (Re.FindAllString regs key) ∧
      List.Forall₂ (emitsStructured ctl) used (es.map Prod.fst) := by
  obtain ⟨es, used, h1, h2, h3, h4, h5, h6⟩ :=
    searchFold_trace ctl (Re.FindAllString regs key) [] ("", []) [] []
      rfl rfl (by simp) (by simp) (List.Sublist.refl _) (by simp)
  have h1' : (searchLoop ctl key).1 = render es := h1
  have h2' : (searchLoop ctl key).2 = es.map (fun e => e.1.param) := h2
  rcases List.eq_nil_or_concat es with rfl | ⟨es0, ej, rfl⟩
  · rw [h2'] at h
    exact absurd rfl h
  · obtain ⟨e, j⟩ := ej
    simp only [List.concat_eq_append] at h1' h2' h3 h4 h6
    have h3' : ∀ x ∈ es0, x.2 = " AND " ∨ x.2 = " OR " :=
      fun x hx => h3 x (List.mem_append_left _ hx)
    have hfst : ∀ j' : String,
        (es0 ++ [(e, j')]).map Prod.fst = (es0 ++ [(e, j)]).map Prod.fst := by
      intro j'; simp
    have hpar : ∀ j' : String, (es0 ++ [(e, j')]).map (fun e => e.1.param)
        = (es0 ++ [(e, j)]).map (fun e => e.1.param) := by
      intro j'; simp
    have h4' : ∀ j' : String, ∀ x ∈ es0 ++ [(e, j')], x.1.tight = false ∧
        x.1.name ∈ ctl.ModelColumnNames ∧ wordName x.1.name = true ∧
        x.1.op ∈ vocabulary := by
      intro j' x hx
      rcases List.mem_append.1 hx with hx | hx
      · exact h4 x (List.mem_append_left _ hx)
      · simp only [List.mem_singleton] at hx
        subst hx
        exact h4 (e, j) (by simp)
    rcases h3 (e, j) (by simp) with hj | hj
    · simp only at hj
      subst hj
      refine ⟨es0 ++ [(e, " ")], used, ?_, by rw [h2']; simp,
        joinersOK_concat es0 e " " h3' (Or.inr rfl),
        h4' " ", by simpa using h5, by rw [hfst]; exact h6⟩
      rw [h1', render_append, render_append, render_single, render_single]
      have e1 : render es0 ++ ((e, " AND ").1.clause ++ (e, " AND ").2)
          = (render es0 ++ e.clause) ++ " AND " := by
        apply String.ext; simp [String.data_append]
      rw [e1, trimJoiner_and]
      apply String.ext; simp [String.data_append]
    · simp only at hj
      subst hj
      refine ⟨es0 ++ [(e, "")], used, ?_, by rw [h2']; simp,
        joinersOK_concat es0 e "" h3' (Or.inl rfl),
        h4' "", by simpa using h5, by rw [hfst]; exact h6⟩
      rw [h1', render_append, render_append, render_single, render_single]
      have e1 : render es0 ++ ((e, " OR ").1.clause ++ (e, " OR ").2)
          = (render es0 ++ e.clause) ++ " OR " := by
        apply String.ext; simp [String.data_append]
      rw [e1, trimJoiner_or]
      apply String.ext; simp [String.data_append]

/-- The loop of `parseSearchLike` appends, for some columns, a clause and the inferred
value. -/
theorem likeLoop_trace (names : List String) (typ : String) (val : Value)
    (types : List String) :
    ∀ (i : Nat) (acc r : List String × List Value),
      parseSearchLikeLoop names typ val types i acc = some r →
      ∃ es : List Emitted, r.1 = acc.1 ++ es.map Emitted.clause ∧
        r.2 = acc.2 ++ es.map Emitted.param ∧
        ∀ e ∈ es, e.name ∈ names ∧ e.param = val ∧
          ((e.tight = true ∧ e.op = "=") ∨ (e.tight = false ∧ e.op = "LIKE")) ∧
          ∃ coltyp ∈ types, parseSearchLikeLoop [e.name] typ val [coltyp] 0 ([], []) =
            some ([e.clause], [e.param]) := by
  induction types with
  | nil =>
    intro i acc r h
    simp only [parseSearchLikeLoop, Option.some.injEq] at h
    subst h
    exact ⟨[], by simp, by simp, by simp⟩
  | cons coltyp rest ih =>
    intro i acc r h
    obtain ⟨sqls, vals⟩ := acc
    have lift : ∀ (sq : List String) (vs : List Value) (pre : List Emitted),
        sq = sqls ++ pre.map Emitted.clause → vs = vals ++ pre.map Emitted.param →
        (∀ e ∈ pre, e.name ∈ names ∧ e.param = val ∧
          ((e.tight = true ∧ e.op = "=") ∨ (e.tight = false ∧ e.op = "LIKE")) ∧
          ∃ ct ∈ coltyp :: rest, parseSearchLikeLoop [e.name] typ val [ct] 0 ([], []) =
            some ([e.clause], [e.param])) →
        parseSearchLikeLoop names typ val rest (i + 1) (sq, vs) = some r →
        ∃ es : List Emitted, r.1 = sqls ++ es.map Emitted.clause ∧
          r.2 = vals ++ es.map Emitted.param ∧
          ∀ e ∈ es, e.name ∈ names ∧ e.param = val ∧
            ((e.tight = true ∧ e.op = "=") ∨ (e.tight = false ∧ e.op = "LIKE")) ∧
            ∃ ct ∈ coltyp :: rest, parseSearchLikeLoop [e.name] typ val [ct] 0 ([], []) =
              some ([e.clause], [e.param]) := by
      intro sq vs pre hsq hvs hpre hrun
      obtain ⟨es, g1, g2, g3⟩ := ih (i + 1) (sq, vs) r hrun
      refine ⟨pre ++ es, ?_, ?_, ?_⟩
      · rw [g1, hsq]; simp
      · rw [g2, hvs]; simp
      · intro e he
        rcases List.mem_append.1 he with he | he
        · exact hpre e he
        · obtain ⟨a, b, c, ct, hct, hrun'⟩ := g3 e he
          exact ⟨a, b, c, ct, List.mem_cons_of_mem _ hct, hrun'⟩
    unfold parseSearchLikeLoop at h
    by_cases h1 : typ = coltyp
    · subst h1
      simp only [ne_eq, not_true_eq_false, if_false] at h
      by_cases h2 : typ = "string"
      · subst h2
        simp only [if_true] at h
        cases hn : names.get? i with
        | none =>
          rw [hn] at h
          exact absurd h (by simp)
        | some n =>
          rw [hn] at h
          refine lift _ _ [⟨n, "LIKE", false, val⟩] ?_ (by simp) ?_ h
          · simp only [List.map_cons, List.map_nil, Emitted.clause, Bool.false_eq_true,
              if_false]
            congr 2
            apply String.ext; simp [String.data_append]
          · intro e he
            simp only [List.mem_singleton] at he
            subst he
            refine ⟨List.get?_mem hn, rfl, Or.inr ⟨rfl, rfl⟩, "string",
              List.mem_cons_self _ _, ?_⟩
            simp only [parseSearchLikeLoop, ne_eq, not_true_eq_false, if_false, if_true,
              List.get?_cons_zero, List.nil_append, Emitted.clause, Bool.false_eq_true]
            congr 3
            apply String.ext; simp [String.data_append]
      · simp only [h2, if_false] at h
        by_cases h3 : (typ = "int" || typ = "bool") = true
        · simp only [h3, if_true] at h
          cases hn : names.get? i with
          | none =>
            rw [hn] at h
            exact absurd h (by simp)
          | some n =>
            rw [hn] at h
            refine lift _ _ [⟨n, "=", true, val⟩] ?_ (by simp) ?_ h
            · simp only [List.map_cons, List.map_nil, Emitted.clause, if_true]
              congr 2
              apply String.ext; simp [String.data_append]
            · intro e he
              simp only [List.mem_singleton] at he
              subst he
              refine ⟨List.get?_mem hn, rfl, Or.inl ⟨rfl, rfl⟩, typ,
                List.mem_cons_self _ _, ?_⟩
              simp only [parseSearchLikeLoop, ne_eq, not_true_eq_false, if_false, h2, h3,
                if_true, List.get?_cons_zero, List.nil_append, Emitted.clause]
              congr 3
              apply String.ext; simp [String.data_append]
        · simp only [h3, Bool.false_eq_true, if_false] at h
          exact lift _ _ [] (by simp) (by simp) (by simp) h
    · simp only [ne_eq, h1, not_false_eq_true, if_true] at h
      exact lift _ _ [] (by simp) (by simp) (by simp) h

theorem join_render (l : List Emitted) :
    ∃ es : List (Emitted × String), es.map Prod.fst = l ∧
      Join (l.map Emitted.clause) " OR " = render es ∧ joinersOK es = true := by
  induction l with
  | nil => exact ⟨[], rfl, rfl, rfl⟩
  | cons a rest ih =>
    obtain ⟨es, h1, h2, h3⟩ := ih
    cases rest with
    | nil =>
      refine ⟨[(a, "")], rfl, ?_, by simp [joinersOK]⟩
      simp [Join, render_single, str_append_empty]
    | cons b rest =>
      cases es with
      | nil => simp at h1
      | cons x xs =>
        refine ⟨(a, " OR ") :: x :: xs, by simp [← h1], ?_, ?_⟩
        · have e : (a, " OR ") :: x :: xs = [(a, " OR ")] ++ (x :: xs) := rfl
          rw [e, render_append, render_single, ← h2]
          simp only [List.map_cons, Join]
        · simp only [joinersOK, Bool.and_eq_true, Bool.or_eq_true, decide_eq_true_eq]
          exact ⟨Or.inr trivial, by simpa [joinersOK] using h3⟩

/-- The fallback result is the render of the clauses of the like-scan, joined by OR. -/
theorem like_shape (sc : Strconv) (ctl : GormController) (key frag : String)
    (params : List Value) (h : ctl.parseSearchLike sc key = some (frag, params)) :
    ∃ es : List (Emitted × String), frag = render es ∧
      params = es.map (fun e => e.1.param) ∧ joinersOK es = true ∧
      ∀ e ∈ es, e.1.name ∈ ctl.ModelColumnNames ∧ e.1.op ∈ vocabulary ∧
        ((e.1.tight = true ∧ e.1.op = "=") ∨ (e.1.tight = false ∧ e.1.op = "LIKE")) ∧
        emitsLike sc key ctl.ModelColumnTypes e.1 := by
  unfold GormController.parseSearchLike at h
  simp only at h
  split at h
  · exact absurd h (by simp)
  · next sqls vals hrun =>
    simp only [Option.some.injEq, Prod.mk.injEq] at h
    obtain ⟨hf, hp⟩ := h
    obtain ⟨l, g1, g2, g3⟩ := likeLoop_trace _ _ _ _ _ _ _ hrun
    simp only [List.nil_append] at g1 g2
    obtain ⟨es, k1, k2, k3⟩ := join_render l
    refine ⟨es, ?_, ?_, k3, ?_⟩
    · rw [← hf, g1, k2]
    · rw [← hp, g2, ← k1]; simp
    · intro e he
      have hl : e.1 ∈ l := by rw [← k1]; exact List.mem_map_of_mem _ he
      obtain ⟨a, _, c, d⟩ := g3 e.1 hl
      refine ⟨a, ?_, c, d⟩
      rcases c with ⟨_, c⟩ | ⟨_, c⟩ <;> rw [c] <;> decide

theorem placeholders_append (a b : String) :
    placeholders (a ++ b) = placeholders a + placeholders b := by
  simp [placeholders, String.data_append]

theorem placeholders_word (n : String) (h : wordName n = true) : placeholders n = 0 := by
  unfold placeholders
  rw [List.count_eq_zero]
  intro hm
  have := wordName_mem n h _ hm
  revert this
  decide

theorem placeholders_vocabulary (o : String) (h : o ∈ vocabulary) : placeholders o = 0 := by
  simp only [vocabulary, List.mem_cons, List.mem_singleton, List.not_mem_nil, or_false] at h
  rcases h with h | h | h | h | h | h | h | h | h | h | h <;> rw [h] <;> decide

theorem placeholders_clause (e : Emitted) (hn : placeholders e.name = 0)
    (ho : e.op ∈ vocabulary) : placeholders e.clause = 1 := by
  have h2 := placeholders_vocabulary e.op ho
  have hb : placeholders " " = 0 := by decide
  have hq : placeholders "?" = 1 := by decide
  have hbq : placeholders " ?" = 1 := by decide
  unfold Emitted.clause
  split <;> simp only [placeholders_append, hn, h2, hb, hq, hbq]

theorem placeholders_render (es : List (Emitted × String))
    (h : ∀ e ∈ es, placeholders e.1.clause = 1 ∧ placeholders e.2 = 0) :
    placeholders (render es) = es.length := by
  induction es with
  | nil => rfl
  | cons e rest ih =>
    have e1 : render (e :: rest) = render [e] ++ render rest := render_append [e] rest
    rw [e1, placeholders_append, render_single, placeholders_append,
      (h e (List.mem_cons_self _ _)).1, (h e (List.mem_cons_self _ _)).2,
      ih (fun x hx => h x (List.mem_cons_of_mem _ hx))]
    simp [Nat.add_comm]

theorem joinersOK_placeholders (es : List (Emitted × String)) (h : joinersOK es = true) :
    ∀ e ∈ es, placeholders e.2 = 0 := by
  induction es with
  | nil => simp
  | cons x rest ih =>
    intro e he
    cases rest with
    | nil =>
      simp only [List.mem_singleton] at he
      subst he
      simp only [joinersOK, Bool.or_eq_true, decide_eq_true_eq] at h
      rcases h with h | h <;> rw [h] <;> decide
    | cons y ys =>
      simp only [joinersOK, Bool.and_eq_true, Bool.or_eq_true, decide_eq_true_eq] at h
      rcases List.mem_cons.1 he with he | he
      · subst he
        rcases h.1 with h1 | h1 <;> rw [h1] <;> decide
      · exact ih (by simpa [joinersOK] using h.2) e he

/-- The result of the compiler, structured or fallback, as the render of its clauses. -/
theorem parse_shape (sc : Strconv) (ctl : GormController) (key frag : String)
    (params : List Value) (h : ctl.parseSearchExpression sc key = some (frag, params)) :
    ∃ es : List (Emitted × String), frag = render es ∧
      params = es.map (fun e => e.1.param) ∧ joinersOK es = true ∧
      (∀ e ∈ es, e.1.name ∈ ctl.ModelColumnNames ∧ e.1.op ∈ vocabulary) ∧
      ((∃ used, used.Sublist (Re.FindAllString regs key) ∧
          List.Forall₂ (emitsStructured ctl) used (es.map Prod.fst)) ∨
       (∀ e ∈ es, emitsLike sc key ctl.ModelColumnTypes e.1)) := by
  unfold GormController.parseSearchExpression at h
  simp only at h
  split at h
  · next hlen =>
    simp only [Option.some.injEq, Prod.mk.injEq] at h
    obtain ⟨hf, hp⟩ := h
    have hne : (searchLoop ctl key).2 ≠ [] := by
      intro e
      rw [e] at hlen
      exact hlen rfl
    obtain ⟨es, used, g1, g2, g3, g4, g5, g6⟩ := structured_shape ctl key hne
    exact ⟨es, by rw [← hf, g1], by rw [← hp, g2], g3,
      fun e he => ⟨(g4 e he).2.1, (g4 e he).2.2.2⟩, Or.inl ⟨used, g5, g6⟩⟩
  · obtain ⟨es, g1, g2, g3, g4⟩ := like_shape sc ctl key frag params h
    exact ⟨es, g1, g2, g3, fun e he => ⟨(g4 e he).1, (g4 e he).2.1⟩,
      Or.inr (fun e he => (g4 e he).2.2.2)⟩

/-! ## Operator characters and the parsers -/

section
open strconv

theorem opChar_cases (c : Char) (h : isOpChar c = true) :
    c = '=' ∨ c = '>' ∨ c = '<' ∨ c = '!' ∨ c = '~' ∨ c = ':' := by
  simp only [isOpChar, Bool.or_eq_true, decide_eq_true_eq] at h
  tauto

theorem opChar_not_digit (c : Char) (h : isOpChar c = true) : digitVal c = none := by
  rcases opChar_cases c h with h | h | h | h | h | h <;> subst h <;> decide

theorem opChar_not_hex (c : Char) (h : isOpChar c = true) : hexLetterVal c = none := by
  rcases opChar_cases c h with h | h | h | h | h | h <;> subst h <;> decide

theorem opChar_lower (c : Char) (h : isOpChar c = true) : lower c = c := by
  rcases opChar_cases c h with h | h | h | h | h | h <;> subst h <;> decide

theorem parseDigits_digits : ∀ (ds : List Char) (acc n : Nat),
    parseDigits ds acc = some n → ∀ c ∈ ds, isOpChar c = false := by
  intro ds
  induction ds with
  | nil => intro _ _ _ c hc; simp at hc
  | cons d ds ih =>
    intro acc n h c hc
    unfold parseDigits at h
    cases hd : digitVal d with
    | none => rw [hd] at h; exact absurd h (by simp)
    | some v =>
      rw [hd] at h
      rcases List.mem_cons.1 hc with rfl | hc
      · cases ho : isOpChar c with
        | false => rfl
        | true => rw [opChar_not_digit c ho] at hd; exact absurd hd (by simp)
      · exact ih _ _ h c hc

theorem parseInt_noOp (s : String) (i : Int) (h : ParseInt s = some i) :
    ∀ c ∈ s.data, isOpChar c = false := by
  have body : ∀ (neg : Bool) (ds : List Char) (r : Int),
      (match ds with
        | [] => none
        | _ :: _ =>
          match parseDigits ds 0 with
          | none => none
          | some un =>
            if neg then (if un ≤ 2 ^ 63 then some (-(un : Int)) else none)
            else (if un < 2 ^ 63 then some (un : Int) else none)) = some r →
      ∀ c ∈ ds, isOpChar c = false := by
    intro neg ds r hb
    cases ds with
    | nil => exact absurd hb (by simp)
    | cons d ds =>
      simp only at hb
      cases hp : parseDigits (d :: ds) 0 with
      | none => rw [hp] at hb; exact absurd hb (by simp)
      | some un => exact parseDigits_digits _ _ _ hp
  unfold ParseInt at h
  simp only at h
  cases hs : s.data with
  | nil => rw [hs] at h; exact absurd h (by simp)
  | cons c cs =>
    rw [hs] at h
    simp only at h
    intro x hx
    by_cases h1 : c = '+'
    · simp only [h1, if_true] at h
      rcases List.mem_cons.1 hx with rfl | hx
      · rw [h1]; decide
      · exact body false _ _ (by simpa using h) x hx
    · by_cases h2 : c = '-'
      · simp only [h2, if_true] at h
        simp only [show ¬ ('-' = '+') by decide, if_false] at h
        rcases List.mem_cons.1 hx with rfl | hx
        · rw [h2]; decide
        · exact body true _ _ (by simpa using h) x hx
      · simp only [h1, h2, if_false] at h
        exact body false _ _ (by simpa using h) x hx

theorem parseBool_noOp (s : String) (b : Bool) (h : ParseBool s = some b) :
    ∀ c ∈ s.data, isOpChar c = false := by
  unfold ParseBool at h
  split at h
  · next h1 =>
    simp only [Bool.or_eq_true, decide_eq_true_eq] at h1
    rcases h1 with ((((h1 | h1) | h1) | h1) | h1) | h1 <;> subst h1 <;> decide
  · split at h
    · next _ h1 =>
      simp only [Bool.or_eq_true, decide_eq_true_eq] at h1
      rcases h1 with ((((h1 | h1) | h1) | h1) | h1) | h1 <;> subst h1 <;> decide
    · exact absurd h (by simp)

theorem cpl_take : ∀ (s pre : List Char),
    ∀ c ∈ s.take (commonPrefixLenIgnoreCase s pre), lower c ∈ pre := by
  intro s
  induction s with
  | nil => intro pre c hc; simp at hc
  | cons a s ih =>
    intro pre c hc
    cases pre with
    | nil => simp [commonPrefixLenIgnoreCase] at hc
    | cons p pre =>
      unfold commonPrefixLenIgnoreCase at hc
      by_cases h : lower a = p
      · simp only [h, if_true, List.take_succ_cons, List.mem_cons] at hc
        rcases hc with rfl | hc
        · rw [h]; exact List.mem_cons_self _ _
        · exact List.mem_cons_of_mem _ (ih pre c hc)
      · simp [h] at hc

theorem cpl_noOp (s pre : List Char) (hpre : ∀ c ∈ pre, isOpChar c = false)
    (hlen : s.length ≤ commonPrefixLenIgnoreCase s pre) :
    ∀ c ∈ s, isOpChar c = false := by
  intro c hc
  have hc' : c ∈ s.take (commonPrefixLenIgnoreCase s pre) := by
    rw [List.take_of_length_le hlen]; exact hc
  have := cpl_take s pre c hc'
  cases ho : isOpChar c with
  | false => rfl
  | true =>
    rw [opChar_lower c ho] at this
    rw [hpre c this] at ho
    exact absurd ho (by simp)

theorem infLen_le (s : List Char) (n : Nat) (h : infLen s = some n) :
    n ≤ commonPrefixLenIgnoreCase s "infinity".data := by
  unfold infLen at h
  simp only at h
  generalize commonPrefixLenIgnoreCase s "infinity".data = k at h ⊢
  by_cases h1 : (decide (3 < k) && decide (k < 8)) = true
  · rw [if_pos h1] at h
    simp only [Bool.and_eq_true, decide_eq_true_eq] at h1
    simp only [decide_True, Bool.true_or, if_true, Option.some.injEq] at h
    omega
  · rw [if_neg h1] at h
    by_cases h2 : (decide (k = 3) || decide (k = 8)) = true
    · rw [if_pos h2] at h
      simp only [Option.some.injEq] at h
      omega
    · rw [if_neg h2] at h
      exact absurd h (by simp)

theorem special_noOp (s : List Char) (n : Nat) (h : special s = some n)
    (hn : n = s.length) : ∀ c ∈ s, isOpChar c = false := by
  have hinf : ∀ c ∈ "infinity".data, isOpChar c = false := by decide
  have hnan : ∀ c ∈ "nan".data, isOpChar c = false := by decide
  cases s with
  | nil => exact absurd h (by simp [special])
  | cons a t =>
    unfold special at h
    simp only at h
    split at h
    · next h1 =>
      cases hi : infLen t with
      | none => rw [hi] at h; exact absurd h (by simp)
      | some m =>
        rw [hi] at h
        simp only [Option.map_some', Option.some.injEq] at h
        have hm : t.length ≤ commonPrefixLenIgnoreCase t "infinity".data := by
          have := infLen_le t m hi
          simp only [List.length_cons] at hn
          omega
        intro c hc
        rcases List.mem_cons.1 hc with rfl | hc
        · simp only [Bool.or_eq_true, decide_eq_true_eq] at h1
          rcases h1 with h1 | h1 <;> rw [h1] <;> decide
        · exact cpl_noOp t _ hinf hm c hc
    · split at h
      · have := infLen_le _ n h
        exact cpl_noOp _ _ hinf (by omega)
      · split at h
        · by_cases h3 : commonPrefixLenIgnoreCase (a :: t) "nan".data = 3
          · simp only [h3, if_true, Option.some.injEq] at h
            exact cpl_noOp _ _ hnan (by omega)
          · simp only [h3, if_false] at h
            exact absurd h (by simp)
        · exact absurd h (by simp)

theorem scanMant_prefix (hex : Bool) : ∀ (l : List Char) (m m' : Mant) (rest : List Char),
    scanMant hex l m = (m', rest) →
      ∃ pre, l = pre ++ rest ∧ ∀ c ∈ pre, isOpChar c = false := by
  intro l
  induction l with
  | nil =>
    intro m m' rest h
    simp only [scanMant, Prod.mk.injEq] at h
    exact ⟨[], by simp [h.2], by simp⟩
  | cons a l ih =>
    intro m m' rest h
    have step : ∀ m1, isOpChar a = false → scanMant hex l m1 = (m', rest) →
        ∃ pre, a :: l = pre ++ rest ∧ ∀ c ∈ pre, isOpChar c = false := by
      intro m1 ha h1
      obtain ⟨pre, e, hp⟩ := ih m1 m' rest h1
      refine ⟨a :: pre, by rw [e]; rfl, ?_⟩
      intro c hc
      rcases List.mem_cons.1 hc with rfl | hc
      · exact ha
      · exact hp c hc
    have stop : (m, a :: l) = (m', rest) →
        ∃ pre, a :: l = pre ++ rest ∧ ∀ c ∈ pre, isOpChar c = false := by
      intro h1
      simp only [Prod.mk.injEq] at h1
      exact ⟨[], by simp [h1.2], by simp⟩
    unfold scanMant at h
    by_cases h1 : a = '_'
    · simp only [h1, if_true] at h
      exact step _ (by rw [h1]; decide) h
    · simp only [h1, if_false] at h
      by_cases h2 : a = '.'
      · simp only [h2, if_true] at h
        split at h
        · subst h2; exact stop h
        · exact step _ (by rw [h2]; decide) h
      · simp only [h2, if_false] at h
        have hno : isOpChar a = true → digitVal a = none ∧ hexLetterVal a = none :=
          fun ho => ⟨opChar_not_digit a ho, opChar_not_hex a ho⟩
        cases hd : digitVal a with
        | some d =>
          rw [hd] at h
          refine step _ ?_ h
          cases ho : isOpChar a with
          | false => rfl
          | true => rw [(hno ho).1] at hd; exact absurd hd (by simp)
        | none =>
          rw [hd] at h
          cases hx : (if hex = true then hexLetterVal a else none) with
          | none =>
            rw [hx] at h
            exact stop h
          | some d =>
            rw [hx] at h
            refine step _ ?_ h
            cases ho : isOpChar a with
            | false => rfl
            | true =>
              rw [(hno ho).2] at hx
              simp at hx

theorem scanExp_prefix : ∀ (l : List Char) (e : Nat) (u : Bool) (e' : Nat) (u' : Bool)
    (rest : List Char), scanExp l e u = (e', u', rest) →
      ∃ pre, l = pre ++ rest ∧ ∀ c ∈ pre, isOpChar c = false := by
  intro l
  induction l with
  | nil =>
    intro e u e' u' rest h
    simp only [scanExp, Prod.mk.injEq] at h
    exact ⟨[], by simp [h.2.2], by simp⟩
  | cons a l ih =>
    intro e u e' u' rest h
    have step : ∀ e1 u1, isOpChar a = false → scanExp l e1 u1 = (e', u', rest) →
        ∃ pre, a :: l = pre ++ rest ∧ ∀ c ∈ pre, isOpChar c = false := by
      intro e1 u1 ha h1
      obtain ⟨pre, e, hp⟩ := ih e1 u1 e' u' rest h1
      refine ⟨a :: pre, by rw [e]; rfl, ?_⟩
      intro c hc
      rcases List.mem_cons.1 hc with rfl | hc
      · exact ha
      · exact hp c hc
    unfold scanExp at h
    by_cases h1 : a = '_'
    · simp only [h1, if_true] at h
      exact step _ _ (by rw [h1]; decide) h
    · simp only [h1, if_false] at h
      cases hd : digitVal a with
      | none =>
        rw [hd] at h
        simp only [Prod.mk.injEq] at h
        exact ⟨[], by simp [h.2.2], by simp⟩
      | some d =>
        rw [hd] at h
        refine step _ _ ?_ h
        cases ho : isOpChar a with
        | false => rfl
        | true => rw [opChar_not_digit a ho] at hd; exact absurd hd (by simp)

theorem readFloatAll_eq (s : List Char) :
    readFloatAll s = readFloatFrom s (floatHex (floatBody s))
      (if floatHex (floatBody s) then (floatBody s).drop 2 else floatBody s) := rfl

theorem floatBody_cases (s : List Char) :
    s = floatBody s ∨ ∃ c, isOpChar c = false ∧ s = c :: floatBody s := by
  cases s with
  | nil => left; rfl
  | cons c t =>
    unfold floatBody
    by_cases h : (decide (c = '+') || decide (c = '-')) = true
    · right
      simp only [h, if_true]
      refine ⟨c, ?_, rfl⟩
      simp only [Bool.or_eq_true, decide_eq_true_eq] at h
      rcases h with h | h <;> rw [h] <;> decide
    · left
      show c :: t = if (decide (c = '+') || decide (c = '-')) = true then t else c :: t
      rw [if_neg h]

theorem floatHex_true (body : List Char) (h : floatHex body = true) :
    ∃ z x rest, body = z :: x :: rest ∧ isOpChar z = false ∧ isOpChar x = false := by
  unfold floatHex at h
  split at h
  · next z x y t =>
    simp only [Bool.and_eq_true, decide_eq_true_eq] at h
    refine ⟨z, x, y :: t, rfl, by rw [h.1]; decide, ?_⟩
    cases ho : isOpChar x with
    | false => rfl
    | true =>
      have := opChar_lower x ho
      rw [this] at h
      rw [h.2] at ho
      exact absurd ho (by decide)
  · exact absurd h (by simp)

theorem lower_exp_noOp (hex : Bool) (c : Char) (h : lower c = (if hex then 'p' else 'e')) :
    isOpChar c = false := by
  cases ho : isOpChar c with
  | false => rfl
  | true =>
    rw [opChar_lower c ho] at h
    rw [h] at ho
    cases hex <;> exact absurd ho (by decide)

theorem scanExp_all (done : Nat → Bool → Bool) (ds : List Char)
    (hd : (match ds with
      | [] => false
      | d :: _ =>
        if (digitVal d).isSome then
          match scanExp ds 0 false with
          | (e, u, []) => done e u
          | _ => false
        else false) = true) : ∀ x ∈ ds, isOpChar x = false := by
  cases ds with
  | nil => exact absurd hd (by simp)
  | cons d ds' =>
    simp only at hd
    by_cases hdig : (digitVal d).isSome = true
    · rw [if_pos hdig] at hd
      cases hse : scanExp (d :: ds') 0 false with
      | mk e1 p =>
        obtain ⟨u1, rest2⟩ := p
        rw [hse] at hd
        cases rest2 with
        | nil =>
          obtain ⟨pre2, e2, hp2⟩ := scanExp_prefix _ _ _ _ _ _ hse
          rw [e2]
          simpa using hp2
        | cons a b => exact absurd hd (by simp)
    · rw [if_neg hdig] at hd
      exact absurd hd (by simp)

theorem readFloatFrom_noOp (s : List Char) (hex : Bool) (digits : List Char)
    (h : readFloatFrom s hex digits = true) : ∀ c ∈ digits, isOpChar c = false := by
  unfold readFloatFrom at h
  cases hsm : scanMant hex digits {} with
  | mk m rest =>
    obtain ⟨pre, e, hpre⟩ := scanMant_prefix hex digits {} m rest hsm
    rw [hsm] at h
    simp only at h
    by_cases hsd : (!m.sawdigits) = true
    · rw [if_pos hsd] at h
      exact absurd h (by simp)
    · rw [if_neg hsd] at h
      cases rest with
      | nil =>
        intro c hc
        rw [e] at hc
        simpa using hpre c (by simpa using hc)
      | cons c r =>
        simp only at h
        by_cases hc : lower c = (if hex = true then 'p' else 'e')
        · rw [if_pos hc] at h
          have hcn := lower_exp_noOp hex c hc
          cases r with
          | nil => exact absurd h (by simp)
          | cons sg r1 =>
            simp only at h
            intro x hx
            rw [e] at hx
            rcases List.mem_append.1 hx with hx | hx
            · exact hpre x hx
            · rcases List.mem_cons.1 hx with rfl | hx
              · exact hcn
              · by_cases h1 : sg = '+'
                · simp only [h1, if_true] at h
                  rcases List.mem_cons.1 hx with rfl | hx
                  · rw [h1]; decide
                  · exact scanExp_all _ r1 h x hx
                · by_cases h2 : sg = '-'
                  · simp only [h2, show ¬ ('-' = '+') by decide, if_false, if_true] at h
                    rcases List.mem_cons.1 hx with rfl | hx
                    · rw [h2]; decide
                    · exact scanExp_all _ r1 h x hx
                  · simp only [h1, h2, if_false] at h
                    exact scanExp_all _ (sg :: r1) h x hx
        · rw [if_neg hc] at h
          exact absurd h (by simp)

theorem readFloatAll_noOp (s : List Char) (h : readFloatAll s = true) :
    ∀ c ∈ s, isOpChar c = false := by
  rw [readFloatAll_eq] at h
  have hd := readFloatFrom_noOp _ _ _ h
  have hbody : ∀ c ∈ floatBody s, isOpChar c = false := by
    cases hx : floatHex (floatBody s) with
    | false =>
      rw [hx] at hd
      simpa using hd
    | true =>
      rw [hx] at hd
      obtain ⟨z, x, rest, e, hz, hxx⟩ := floatHex_true _ hx
      rw [e] at hd ⊢
      simp only [if_true, List.drop_succ_cons, List.drop_zero] at hd
      intro c hc
      rcases List.mem_cons.1 hc with rfl | hc
      · exact hz
      · rcases List.mem_cons.1 hc with rfl | hc
        · exact hxx
        · exact hd c hc
  rcases floatBody_cases s with e | ⟨c, hc, e⟩
  · rw [e]; exact hbody
  · rw [e]
    intro x hx
    rcases List.mem_cons.1 hx with rfl | hx
    · exact hc
    · exact hbody x hx

theorem parseFloat_noOp (s : String) (h : ParseFloat s = some ()) :
    ∀ c ∈ s.data, isOpChar c = false := by
  unfold ParseFloat at h
  split at h
  · next n hsp =>
    split at h
    · next hn => exact special_noOp _ n hsp hn
    · exact absurd h (by simp)
  · split at h
    · next hr => exact readFloatAll_noOp _ hr
    · exact absurd h (by simp)

/-- A search text that holds an operator character is typed `string` by Go's parsers. -/
theorem go_type_string (key : String) (h : ∃ c ∈ key.data, isOpChar c = true) :
    GormController.parseSearchType strconv.go key = ("string", Value.str key) := by
  obtain ⟨c, hc, ho⟩ := h
  have h1 : strconv.ParseInt key = none := by
    cases hp : strconv.ParseInt key with
    | none => rfl
    | some i => rw [parseInt_noOp key i hp c hc] at ho; exact absurd ho (by simp)
  have h2 : strconv.ParseFloat key = none := by
    cases hp : strconv.ParseFloat key with
    | none => rfl
    | some u => rw [parseFloat_noOp key hp c hc] at ho; exact absurd ho (by simp)
  have h3 : strconv.ParseBool key = none := by
    cases hp : strconv.ParseBool key with
    | none => rfl
    | some b => rw [parseBool_noOp key b hp c hc] at ho; exact absurd ho (by simp)
  simp [GormController.parseSearchType, strconv.go, h1, h2, h3]

end

/-! ## Search texts that differ in values -/

theorem regcOps_ne_in (o : String) (h : o.data ∈ regcOps) : o ≠ "IN" := by
  intro e
  rw [e] at h
  revert h
  decide

/-- Two tokens that differ at most in the value of their clause move the loop of the
compiler to the same fragment and to as many params. -/
theorem searchStep_variant (ctl : GormController) (a b : String) (h : valueVariant a b)
    (st1 st2 : String × List Value) (hf : st1.1 = st2.1) (hl : st1.2.length = st2.2.length) :
    (searchStep ctl st1 a).1 = (searchStep ctl st2 b).1 ∧
    (searchStep ctl st1 a).2.length = (searchStep ctl st2 b).2.length := by
  rcases h with rfl | ⟨wa, wb, n, o, va, vb, ha, hb, hcomma⟩
  · cases hc : clauseToken ctl a with
    | true =>
      obtain ⟨e, _, _, _, _, hstep⟩ := searchStep_emits ctl a hc
      rw [hstep st1, hstep st2]
      simp [hf, hl]
    | false =>
      rcases submatch_cases a with h0 | ⟨w, n, o, v, hm⟩
      · have hne : (Re.FindStringSubmatch regc 3 a).length ≠ 4 := by rw [h0]; decide
        rw [searchStep_unmatched ctl st1 a hne, searchStep_unmatched ctl st2 a hne]
        simp [hf, hl]
      · have hin : n ∉ ctl.ModelColumnNames := by
          intro hin
          have := (clauseToken_iff ctl a).2 ⟨w, n, o, v, hm, hin⟩
          rw [hc] at this
          exact absurd this (by decide)
        rw [searchStep_unknown ctl st1 a w n o v hm hin,
          searchStep_unknown ctl st2 a w n o v hm hin]
        exact ⟨hf, hl⟩
  · by_cases hin : n ∈ ctl.ModelColumnNames
    · obtain ⟨_, _, hop, _⟩ := regc_submatch_sound a wa n o va ha
      have hne := regcOps_ne_in o hop
      rw [searchStep_clause ctl st1 a wa n o va ha hin hne,
        searchStep_clause ctl st2 b wb n o vb hb hin hne]
      have hcond : (o = ":" ∧ containsComma va = true) ↔
          (o = ":" ∧ containsComma vb = true) := by
        constructor
        · rintro ⟨h1, h2⟩; exact ⟨h1, by rw [← hcomma h1]; exact h2⟩
        · rintro ⟨h1, h2⟩; exact ⟨h1, by rw [hcomma h1]; exact h2⟩
      simp only [hcond, hf, List.length_append, hl, List.length_singleton, and_self]
    · rw [searchStep_unknown ctl st1 a wa n o va ha hin,
        searchStep_unknown ctl st2 b wb n o vb hb hin]
      exact ⟨hf, hl⟩

theorem searchFold_variant (ctl : GormController) (t1 t2 : List String)
    (h : List.Forall₂ valueVariant t1 t2) :
    ∀ (st1 st2 : String × List Value), st1.1 = st2.1 → st1.2.length = st2.2.length →
      (t1.foldl (searchStep ctl) st1).1 = (t2.foldl (searchStep ctl) st2).1 ∧
      (t1.foldl (searchStep ctl) st1).2.length = (t2.foldl (searchStep ctl) st2).2.length := by
  induction h with
  | nil => intro st1 st2 hf hl; exact ⟨hf, hl⟩
  | cons hab _ ih =>
    intro st1 st2 hf hl
    obtain ⟨g1, g2⟩ := searchStep_variant ctl _ _ hab st1 st2 hf hl
    exact ih _ _ g1 g2

/-- The clauses of the like-scan do not depend on the bound value. -/
theorem likeLoop_sqls_indep (names : List String) (typ : String) (val val' : Value)
    (types : List String) :
    ∀ (i : Nat) (sqls : List String) (vals vals' : List Value),
      (parseSearchLikeLoop names typ val types i (sqls, vals)).map Prod.fst =
        (parseSearchLikeLoop names typ val' types i (sqls, vals')).map Prod.fst := by
  induction types with
  | nil => intro i sqls vals vals'; rfl
  | cons coltyp rest ih =>
    intro i sqls vals vals'
    unfold parseSearchLikeLoop
    by_cases h1 : typ = coltyp
    · subst h1
      simp only [ne_eq, not_true_eq_false, if_false]
      by_cases h2 : typ = "string"
      · subst h2
        simp only [if_true]
        cases names.get? i with
        | none => rfl
        | some n => exact ih _ _ _ _
      · simp only [h2, if_false]
        by_cases h3 : (typ = "int" || typ = "bool") = true
        · simp only [h3, if_true]
          cases names.get? i with
          | none => rfl
          | some n => exact ih _ _ _ _
        · simp only [h3, Bool.false_eq_true, if_false]
          exact ih _ _ _ _
    · simp only [ne_eq, h1, not_false_eq_true, if_true]
      exact ih _ _ _ _

theorem parseSearchLike_fragment_type (sc : Strconv) (ctl : GormController) (k1 k2 : String)
    (h : (GormController.parseSearchType sc k1).1 = (GormController.parseSearchType sc k2).1) :
    (ctl.parseSearchLike sc k1).map Prod.fst = (ctl.parseSearchLike sc k2).map Prod.fst := by
  unfold GormController.parseSearchLike
  simp only
  rw [h]
  have := likeLoop_sqls_indep ctl.ModelColumnNames (GormController.parseSearchType sc k2).1
    (GormController.parseSearchType sc k1).2 (GormController.parseSearchType sc k2).2
    ctl.ModelColumnTypes 0 [] [] []
  revert this
  cases parseSearchLikeLoop ctl.ModelColumnNames (GormController.parseSearchType sc k2).1
      (GormController.parseSearchType sc k1).2 ctl.ModelColumnTypes 0 ([], []) <;>
    cases parseSearchLikeLoop ctl.ModelColumnNames (GormController.parseSearchType sc k2).1
      (GormController.parseSearchType sc k2).2 ctl.ModelColumnTypes 0 ([], []) <;>
    simp
  intro h
  rw [h]

theorem regc_match_opChar (tok w n o v : String)
    (h : Re.FindStringSubmatch regc 3 tok = [w, n, o, v]) :
    ∃ c ∈ tok.data, isOpChar c = true := by
  obtain ⟨pre, post, hop, e⟩ := regc_submatch_sound tok w n o v h
  have hall : ∀ x ∈ regcOps, ∃ c ∈ x, isOpChar c = true := by decide
  obtain ⟨c, hc, ho⟩ := hall _ hop
  exact ⟨c, by rw [e]; simp [hc], ho⟩

theorem textOf_data (lead tok sep : String) (rest : List (String × String)) :
    (textOf lead ((tok, sep) :: rest)).data =
      lead.data ++ (tok.data ++ (textOf sep rest).data) := by
  simp [textOf, String.data_append]

/-- Two texts that differ at most in the values of their clauses are the same text, or
both hold an operator character. -/
theorem variant_texts (items1 items2 : List (String × String))
    (h : List.Forall₂ (fun a b => valueVariant a.1 b.1 ∧ a.2 = b.2) items1 items2) :
    ∀ lead : String, textOf lead items1 = textOf lead items2 ∨
      ((∃ c ∈ (textOf lead items1).data, isOpChar c = true) ∧
       (∃ c ∈ (textOf lead items2).data, isOpChar c = true)) := by
  induction h with
  | nil => intro lead; exact Or.inl rfl
  | @cons a b r1 r2 hab _ ih =>
    intro lead
    obtain ⟨ta, sa⟩ := a
    obtain ⟨tb, sb⟩ := b
    obtain ⟨hv, hs⟩ := hab
    simp only at hv hs
    subst hs
    rcases hv with rfl | ⟨wa, wb, n, o, va, vb, ha, hb, _⟩
    · rcases ih sa with e | ⟨⟨c1, h1, o1⟩, ⟨c2, h2, o2⟩⟩
      · left
        simp only [textOf, e]
      · right
        exact ⟨⟨c1, by rw [textOf_data]; simp [h1], o1⟩,
               ⟨c2, by rw [textOf_data]; simp [h2], o2⟩⟩
    · right
      obtain ⟨c1, h1, o1⟩ := regc_match_opChar ta wa n o va ha
      obtain ⟨c2, h2, o2⟩ := regc_match_opChar tb wb n o vb hb
      exact ⟨⟨c1, by rw [textOf_data]; simp [h1], o1⟩,
             ⟨c2, by rw [textOf_data]; simp [h2], o2⟩⟩

theorem variant_tokens (items1 items2 : List (String × String))
    (h : List.Forall₂ (fun a b => valueVariant a.1 b.1 ∧ a.2 = b.2) items1 items2) :
    List.Forall₂ valueVariant (items1.map Prod.fst) (items2.map Prod.fst) := by
  induction h with
  | nil => exact List.Forall₂.nil
  | cons hab _ ih => exact List.Forall₂.cons hab.1 ih

/-- The fragments of two texts whose tokens differ at most in the values of their
clauses. -/
theorem parse_variant (ctl : GormController) (k1 k2 : String)
    (htok : List.Forall₂ valueVariant (Re.FindAllString regs k1) (Re.FindAllString regs k2))
    (htyp : (GormController.parseSearchType strconv.go k1).1 =
      (GormController.parseSearchType strconv.go k2).1) :
    (ctl.parseSearchExpression strconv.go k1).map Prod.fst =
      (ctl.parseSearchExpression strconv.go k2).map Prod.fst := by
  obtain ⟨g1, g2⟩ := searchFold_variant ctl _ _ htok ("", []) ("", []) rfl rfl
  have g1' : (searchLoop ctl k1).1 = (searchLoop ctl k2).1 := g1
  have g2' : (searchLoop ctl k1).2.length = (searchLoop ctl k2).2.length := g2
  unfold GormController.parseSearchExpression
  simp only
  by_cases hz : (searchLoop ctl k2).2.length = 0
  · have hz1 : (searchLoop ctl k1).2.length = 0 := by rw [g2', hz]
    simp only [hz, hz1, ne_eq, not_true_eq_false, if_false]
    exact parseSearchLike_fragment_type strconv.go ctl k1 k2 htyp
  · have hz1 : ¬ (searchLoop ctl k1).2.length = 0 := by rw [g2']; exact hz
    simp only [hz, hz1, ne_eq, not_false_eq_true, if_true, Option.map_some', g1']

theorem solidToken_parts (t : String) (h : solidToken t = true) :
    t.data ≠ [] ∧ ∀ c ∈ t.data, isSpace c = false ∧ c ≠ quote := by
  simp only [solidToken, Bool.and_eq_true, bne_iff_ne, ne_eq, List.all_eq_true,
    Bool.not_eq_true'] at h
  refine ⟨fun e => h.1 (String.ext e), ?_⟩
  intro c hc
  exact h.2 c hc

theorem textOf_head (lead : String) (items : List (String × String))
    (hl : blank lead = true) (hne : lead ≠ "" ∨ items = []) :
    (textOf lead items).data = [] ∨
      ∃ c t, (textOf lead items).data = c :: t ∧ isSpace c = true := by
  have hb : ∀ c ∈ lead.data, isSpace c = true := by
    simpa [blank, List.all_eq_true] using hl
  cases hd : lead.data with
  | nil =>
    have hle : lead = "" := String.ext hd
    rcases hne with h | h
    · exact absurd hle h
    · subst h
      left
      simp [textOf, hd]
  | cons c t =>
    right
    have hc : isSpace c = true := hb c (by rw [hd]; exact List.mem_cons_self _ _)
    cases items with
    | nil => exact ⟨c, t, by simp [textOf, hd], hc⟩
    | cons it rest =>
      obtain ⟨tok, sep⟩ := it
      exact ⟨c, t ++ (tok.data ++ (textOf sep rest).data), by simp [textOf_data, hd], hc⟩

/-- The tokens of a text made of solid tokens between white space are the tokens as
written. -/
theorem regs_textOf (items : List (String × String)) :
    ∀ lead : String, blank lead = true → gapped items = true →
      Re.FindAllString regs (textOf lead items) = items.map Prod.fst := by
  induction items with
  | nil =>
    intro lead hl _
    have hb : ∀ c ∈ lead.data, isSpace c = true := by
      simpa [blank, List.all_eq_true] using hl
    have := regs_findAll_blank lead.data [] hb
    simpa [Re.FindAllString, textOf, Re.findAllAux] using this
  | cons it rest ih =>
    intro lead hl hg
    obtain ⟨tok, sep⟩ := it
    have hb : ∀ c ∈ lead.data, isSpace c = true := by
      simpa [blank, List.all_eq_true] using hl
    have hparts : solidToken tok = true ∧ blank sep = true ∧ (sep ≠ "" ∨ rest = []) ∧
        gapped rest = true := by
      cases rest with
      | nil =>
        simp only [gapped, Bool.and_eq_true] at hg
        exact ⟨hg.1, hg.2, Or.inr rfl, rfl⟩
      | cons r rs =>
        simp only [gapped, Bool.and_eq_true, bne_iff_ne, ne_eq] at hg
        exact ⟨hg.1.1.1, hg.1.1.2, Or.inl hg.1.2, hg.2⟩
    obtain ⟨hs, hsb, hsn, hrest⟩ := hparts
    have hq := solidToken_parts tok hs
    have hhead := textOf_head sep rest hsb hsn
    have ih' := ih sep hsb hrest
    unfold Re.FindAllString at ih' ⊢
    rw [textOf_data, regs_findAll_blank _ _ hb, regs_findAll_token _ _ hq.1 hq.2 hhead, ih']
    simp

/-- Two written clauses with the same word name and the same operator are value variants. -/
theorem variant_of_clause (c op v1 v2 : String) (hw : wordName c = true)
    (ho : op.data ∈ selectableOps) (h1 : ∀ ch ∈ v1.data, isDot ch = true)
    (h2 : ∀ ch ∈ v2.data, isDot ch = true)
    (hcomma : op = ":" → containsComma v1 = containsComma v2) :
    valueVariant (c ++ op ++ v1) (c ++ op ++ v2) := by
  have e : op = String.mk op.data := rfl
  have m1 := regc_submatch c.data op.data v1.data (wordName_mem _ hw) ho h1
  have m2 := regc_submatch c.data op.data v2.data (wordName_mem _ hw) ho h2
  rw [← token_eq c op.data v1] at m1
  rw [← token_eq c op.data v2] at m2
  exact Or.inr ⟨_, _, c, op, v1, v2, m1, m2, hcomma⟩

/-! ## Scoping of every query -/

/-- C1: for a controller made by `NewGormController`, every call that `Get`, `GetById`,
`Post`, `PutById` and `DeleteById` send to the storage engine carries the conditions of
`ctl.WithDB(ctx)`, that is the conditions of the base statement followed by the scope
predicate of the policy; `Get` with a search text appends the compiled search predicate
behind the scope predicate (and it does reach the engine, with the count), `GetById`,
`PutById` and `DeleteById` append `id=?`. -/
theorem C1_scope_in_every_query
    (policy : Context → String → List String → Int → String × List Value) (db : DB)
    (modelType name : String) (coltypes : Except Error (List ColumnType))
    (ctl : GormController)
    (h : NewGormController policy db modelType name coltypes = some ctl)
    (sc : Strconv) (eng : Engine) (ctx : Context) :
    (∀ r, ctl.Get sc eng ctx = some r → ∀ c ∈ r.calls,
      ∃ bound, ctx.BindPaging { Size := 20, Order := "id desc" } = .ok bound ∧
        (bound.Search = "" →
          c.db.wheres = db.wheres ++ [scopeOf policy name ctl.ModelColumnNames ctx]) ∧
        (bound.Search ≠ "" → ∃ cond conddata,
          ctl.parseSearchExpression sc bound.Search = some (cond, conddata) ∧
          c.db.wheres = db.wheres ++
            [scopeOf policy name ctl.ModelColumnNames ctx, ⟨cond, conddata⟩])) ∧
    (∀ bound cond conddata, ctx.BindPaging { Size := 20, Order := "id desc" } = .ok bound →
      bound.Search ≠ "" → ctl.parseSearchExpression sc bound.Search = some (cond, conddata) →
      ∃ r, ctl.Get sc eng ctx = some r ∧ ∃ c ∈ r.calls, c.db.wheres = db.wheres ++
        [scopeOf policy name ctl.ModelColumnNames ctx, ⟨cond, conddata⟩]) ∧
    (∀ c ∈ (ctl.GetById eng ctx).calls, c.db.wheres =
      db.wheres ++ [scopeOf policy name ctl.ModelColumnNames ctx, idCondition ctx]) ∧
    (∀ c ∈ (ctl.Post eng ctx).calls, c.db.wheres =
      db.wheres ++ [scopeOf policy name ctl.ModelColumnNames ctx]) ∧
    (∀ c ∈ (ctl.PutById eng ctx).calls, c.db.wheres =
      db.wheres ++ [scopeOf policy name ctl.ModelColumnNames ctx, idCondition ctx]) ∧
    (∀ c ∈ (ctl.DeleteById eng ctx).calls, c.db.wheres =
      db.wheres ++ [scopeOf policy name ctl.ModelColumnNames ctx, idCondition ctx]) := by
  have hw := newGormController_withDB h ctx
  refine ⟨?_, ?_, ?_, ?_, ?_, ?_⟩
  · intro r hr c hc
    obtain ⟨bound, q, hb, hq, hcq⟩ := get_calls sc eng ctl ctx r hr c hc
    refine ⟨bound, hb, ?_, ?_⟩
    · intro hs
      simp only [GormController.listDB, hs, ne_eq, not_true_eq_false, if_false,
        Option.some.injEq] at hq
      rw [hcq, ← hq, hw]
    · intro hs
      simp only [GormController.listDB, hs, ne_eq, not_false_eq_true, if_true] at hq
      split at hq
      · exact absurd hq (by simp)
      · next cond conddata hp =>
        simp only [Option.some.injEq] at hq
        refine ⟨cond, conddata, hp, ?_⟩
        rw [hcq, ← hq]
        simp [DB.Where, hw]
  · intro bound cond conddata hb hs hp
    have hq : ctl.listDB sc ctx { bound with Data := [] }
        = some ((ctl.WithDB ctx).Where cond conddata) := by
      simp [GormController.listDB, hs, hp]
    obtain ⟨r, hr, hmem⟩ := get_calls_ne_nil sc eng ctl ctx bound _ hb hq
    exact ⟨r, hr, _, hmem, by simp [StorageCall.db, DB.Where, hw]⟩
  · intro c hc
    simp only [GormController.GetById, List.mem_singleton] at hc
    subst hc
    simp [StorageCall.db, DB.Where, hw, idCondition]
  · intro c hc
    unfold GormController.Post at hc
    split at hc
    · simp at hc
    · simp only [List.mem_singleton] at hc
      subst hc
      simp [StorageCall.db, hw]
  · intro c hc
    unfold GormController.PutById at hc
    split at hc
    · simp at hc
    · simp only [List.mem_singleton] at hc
      subst hc
      simp [StorageCall.db, DB.Where, hw, idCondition]
  · intro c hc
    simp only [GormController.DeleteById, List.mem_singleton] at hc
    subst hc
    simp [StorageCall.db, DB.Where, hw, idCondition]

theorem C1_scope_in_every_query_witness :
    NewGormController demoPolicy {} "User" "users" demoColumns = some demoController ∧
    (∀ c ∈ (demoController.GetById demoEngine demoContext).calls, c.db.wheres =
      ({} : DB).wheres ++
        [scopeOf demoPolicy "users" demoController.ModelColumnNames demoContext,
         idCondition demoContext]) ∧
    (∃ r, demoController.Get strconv.go demoEngine demoContext = some r ∧
      ∃ c ∈ r.calls, c.db.wheres = ({} : DB).wheres ++
        [scopeOf demoPolicy "users" demoController.ModelColumnNames demoContext,
         ⟨"name LIKE ? ", [Value.str "%ali%"]⟩]) :=
  ⟨rfl,
   (C1_scope_in_every_query demoPolicy {} "User" "users" demoColumns demoController rfl
      strconv.go demoEngine demoContext).2.2.1,
   (C1_scope_in_every_query demoPolicy {} "User" "users" demoColumns demoController rfl
      strconv.go demoEngine demoContext).2.1 _ _ _ rfl (by decide) (by decide)⟩

/-! ## Structured clauses -/

/-- C2 (amended): for a known column `c` made only of word characters and a plain value `v`,
the search text `c=v` compiles to the params `[v]` and to a fragment that is the one clause
`c = ?` (with or without a blank behind it). -/
theorem C2_equality_clause (sc : Strconv) (ctl : GormController) (c v : String)
    (hc : c ∈ ctl.ModelColumnNames) (hw : wordName c = true) (hv : plainValue v = true) :
    ∃ frag, ctl.parseSearchExpression sc (c ++ "=" ++ v) = some (frag, [Value.str v]) ∧
      singleClause c "=" frag := by
  refine ⟨c ++ " " ++ "=" ++ " ? ", ?_, Or.inr rfl⟩
  rw [parse_token sc ctl c "=" v hc hw (by decide) (plainValue_solid v hv)]
  simp

theorem C2_equality_clause_witness :
    ∃ frag, (controllerOf ["id", "name"] ["int", "string"]).parseSearchExpression strconv.go
        ("name" ++ "=" ++ "alice") = some (frag, [Value.str "alice"]) ∧
      singleClause "name" "=" frag :=
  C2_equality_clause strconv.go (controllerOf ["id", "name"] ["int", "string"]) "name" "alice"
    (by decide) (by decide) (by decide)

/-- C2, as stated, fails: a column whose name has a character outside `\w` is never the name
of a clause (the text falls back to the like-scan), and on the word column `name` the
fragment carries a blank behind the clause. -/
theorem C2_counterexample :
    (controllerOf ["user-id"] ["int"]).parseSearchExpression strconv.go "user-id=7"
      = some ("", []) ∧
    (controllerOf ["user-id"] ["int"]).parseSearchExpression strconv.go "user-id=7"
      ≠ some ("user-id = ?", [Value.str "7"]) ∧
    (controllerOf ["id", "name"] ["int", "string"]).parseSearchExpression strconv.go "name=alice"
      = some ("name = ? ", [Value.str "alice"]) ∧
    (controllerOf ["id", "name"] ["int", "string"]).parseSearchExpression strconv.go "name=alice"
      ≠ some ("name = ?", [Value.str "alice"]) := by
  decide

/-- C3 (amended): for a known column `c` made only of word characters, an operator `op`
among `=`, `>`, `<`, `!=` and a plain value `v`, the token `c‖op‖v` compiles to the one
clause `c op ?` with the single param `v`. -/
theorem C3_operator_clause (sc : Strconv) (ctl : GormController) (c op v : String)
    (hc : c ∈ ctl.ModelColumnNames) (hw : wordName c = true)
    (hop : op ∈ ["=", ">", "<", "!="]) (hv : plainValue v = true) :
    ∃ frag, ctl.parseSearchExpression sc (c ++ op ++ v) = some (frag, [Value.str v]) ∧
      singleClause c op frag := by
  refine ⟨c ++ " " ++ op ++ " ? ", ?_, Or.inr rfl⟩
  simp only [List.mem_cons, List.mem_singleton, List.not_mem_nil, or_false] at hop
  rcases hop with rfl | rfl | rfl | rfl <;>
    (rw [parse_token sc ctl c _ v hc hw (by decide) (plainValue_solid v hv)]; simp)

theorem C3_operator_clause_witness :
    ∃ frag, (controllerOf ["id", "age"] ["int", "int"]).parseSearchExpression strconv.go
        ("age" ++ "!=" ++ "5") = some (frag, [Value.str "5"]) ∧
      singleClause "age" "!=" frag :=
  C3_operator_clause strconv.go (controllerOf ["id", "age"] ["int", "int"]) "age" "!=" "5"
    (by decide) (by decide) (by decide) (by decide)

/-- C3, as stated, fails: a column name outside `\w` gives no clause; `>=`, `<=` and `<>`
are never selected, the one-character `>` or `<` ahead of them in the alternation matches
first and the rest of the operator goes into the param; and a value that holds quotes is cut
at its last quote. -/
theorem C3_counterexample :
    (controllerOf ["user-id"] ["int"]).parseSearchExpression strconv.go "user-id>5"
      = some ("", []) ∧
    (controllerOf ["age"] ["int"]).parseSearchExpression strconv.go "age>=5"
      = some ("age > ? ", [Value.str "=5"]) ∧
    (controllerOf ["age"] ["int"]).parseSearchExpression strconv.go "age<>5"
      = some ("age < ? ", [Value.str ">5"]) ∧
    (controllerOf ["age"] ["int"]).parseSearchExpression strconv.go "age<=5"
      = some ("age < ? ", [Value.str "=5"]) ∧
    (controllerOf ["age"] ["int"]).parseSearchExpression strconv.go
        ("age=x" ++ String.mk [quote] ++ "y" ++ String.mk [quote] ++ "z")
      = some ("age = ?", [Value.str ("x" ++ String.mk [quote] ++ "y" ++ String.mk [quote])]) := by
  decide

/-- C4 (amended): for a known column `c` made only of word characters and a plain value `v`,
the token `c~v` compiles to the one clause `c LIKE ?` and the token `c!~v` to the one clause
`c NOT LIKE ?`, each with the single param `%v%`. -/
theorem C4_like_clause (sc : Strconv) (ctl : GormController) (c v : String)
    (hc : c ∈ ctl.ModelColumnNames) (hw : wordName c = true) (hv : plainValue v = true) :
    (∃ frag, ctl.parseSearchExpression sc (c ++ "~" ++ v)
        = some (frag, [Value.str ("%" ++ v ++ "%")]) ∧ singleClause c "LIKE" frag) ∧
    (∃ frag, ctl.parseSearchExpression sc (c ++ "!~" ++ v)
        = some (frag, [Value.str ("%" ++ v ++ "%")]) ∧ singleClause c "NOT LIKE" frag) := by
  constructor
  · refine ⟨c ++ " " ++ "LIKE" ++ " ? ", ?_, Or.inr rfl⟩
    rw [parse_token sc ctl c "~" v hc hw (by decide) (plainValue_solid v hv)]; simp
  · refine ⟨c ++ " " ++ "NOT LIKE" ++ " ? ", ?_, Or.inr rfl⟩
    rw [parse_token sc ctl c "!~" v hc hw (by decide) (plainValue_solid v hv)]; simp

theorem C4_like_clause_witness :
    (∃ frag, (controllerOf ["id", "name"] ["int", "string"]).parseSearchExpression strconv.go
        ("name" ++ "~" ++ "ali") = some (frag, [Value.str ("%" ++ "ali" ++ "%")]) ∧
      singleClause "name" "LIKE" frag) ∧
    (∃ frag, (controllerOf ["id", "name"] ["int", "string"]).parseSearchExpression strconv.go
        ("name" ++ "!~" ++ "ali") = some (frag, [Value.str ("%" ++ "ali" ++ "%")]) ∧
      singleClause "name" "NOT LIKE" frag) :=
  C4_like_clause strconv.go (controllerOf ["id", "name"] ["int", "string"]) "name" "ali"
    (by decide) (by decide) (by decide)

/-- C4, as stated, fails for a column whose name has a character outside `\w`: neither
`user-id~7` nor `user-id!~7` gives a clause. -/
theorem C4_counterexample :
    (controllerOf ["user-id"] ["int"]).parseSearchExpression strconv.go "user-id~7"
      = some ("", []) ∧
    (controllerOf ["user-id"] ["int"]).parseSearchExpression strconv.go "user-id!~7"
      = some ("", []) := by
  decide

/-- C5 (amended): for a known column `c` made only of word characters and a value `v`
without white space and without quotes, the token `c:v` compiles to the one clause `c IN ?`
with the single param the list of the pieces of `v` between its commas when `v` holds a
comma, and to the one clause `c : ?` with the single string param `v` when it holds none; the
pieces hold no comma and, joined by commas, give `v` back. -/
theorem C5_in_clause (sc : Strconv) (ctl : GormController) (c v : String)
    (hc : c ∈ ctl.ModelColumnNames) (hw : wordName c = true) (hv : solidValue v = true) :
    (containsComma v = true →
      ∃ frag, ctl.parseSearchExpression sc (c ++ ":" ++ v)
        = some (frag, [Value.strs (splitComma v)]) ∧ singleClause c "IN" frag) ∧
    (containsComma v = false →
      ∃ frag, ctl.parseSearchExpression sc (c ++ ":" ++ v)
        = some (frag, [Value.str v]) ∧ singleClause c ":" frag) ∧
    (Join (splitComma v) "," = v ∧ ∀ p ∈ splitComma v, containsComma p = false) := by
  refine ⟨?_, ?_, splitComma_spec v⟩
  · intro h
    refine ⟨c ++ " " ++ "IN" ++ " ? ", ?_, Or.inr rfl⟩
    rw [parse_token sc ctl c ":" v hc hw (by decide) hv]; simp [h]
  · intro h
    refine ⟨c ++ " " ++ ":" ++ " ? ", ?_, Or.inr rfl⟩
    rw [parse_token sc ctl c ":" v hc hw (by decide) hv]; simp [h]

theorem C5_in_clause_witness :
    (∃ frag, (controllerOf ["id", "name"] ["int", "string"]).parseSearchExpression strconv.go
        ("id" ++ ":" ++ "1,2,3") = some (frag, [Value.strs ["1", "2", "3"]]) ∧
      singleClause "id" "IN" frag) ∧
    (∃ frag, (controllerOf ["id", "name"] ["int", "string"]).parseSearchExpression strconv.go
        ("id" ++ ":" ++ "7") = some (frag, [Value.str "7"]) ∧ singleClause "id" ":" frag) :=
  ⟨(C5_in_clause strconv.go (controllerOf ["id", "name"] ["int", "string"]) "id" "1,2,3"
      (by decide) (by decide) (by decide)).1 (by decide),
   (C5_in_clause strconv.go (controllerOf ["id", "name"] ["int", "string"]) "id" "7"
      (by decide) (by decide) (by decide)).2.1 (by decide)⟩

/-- C5, as stated, fails: a column name outside `\w` gives no clause; white space in the
value ends the token, so the list holds only the pieces before it; and text behind the last
quote of the value is a token of its own. -/
theorem C5_counterexample :
    (controllerOf ["user-id"] ["int"]).parseSearchExpression strconv.go "user-id:1,2"
      = some ("", []) ∧
    (controllerOf ["id"] ["int"]).parseSearchExpression strconv.go "id:1, 2"
      = some ("id IN ?", [Value.strs ["1", ""]]) ∧
    splitComma "1, 2" = ["1", " 2"] ∧
    (controllerOf ["id"] ["int"]).parseSearchExpression strconv.go
        ("id:" ++ String.mk [quote] ++ "a" ++ String.mk [quote] ++ ",bx")
      = some ("id : ?", [Value.str (String.mk [quote] ++ "a" ++ String.mk [quote])]) := by
  decide

/-! ## Fallback and joiners -/

/-- C6: a token whose captured name is not a known column leaves the fragment and the params
as they are; the number of params of the structured result is the number of tokens that
produce a clause; `parseSearchExpression` returns the fallback result `parseSearchLike` of
the whole search text if and only if no token produces a clause, and when some token does
the result is the structured one, with at least one param. -/
theorem C6_fallback (sc : Strconv) (ctl : GormController) (key : String) :
    (∀ (st : String × List Value) (tok whole name op val : String),
      Re.FindStringSubmatch regc 3 tok = [whole, name, op, val] →
      name ∉ ctl.ModelColumnNames → searchStep ctl st tok = st) ∧
    (searchLoop ctl key).2.length = (Re.FindAllString regs key).countP (clauseToken ctl) ∧
    (ctl.parseSearchExpression sc key = ctl.parseSearchLike sc key ↔
      ∀ tok ∈ Re.FindAllString regs key, clauseToken ctl tok = false) ∧
    ((∃ tok ∈ Re.FindAllString regs key, clauseToken ctl tok = true) →
      (searchLoop ctl key).2 ≠ [] ∧
      ctl.parseSearchExpression sc key
        = some (trimJoiner (searchLoop ctl key).1, (searchLoop ctl key).2)) := by
  have hcount : (searchLoop ctl key).2.length
      = (Re.FindAllString regs key).countP (clauseToken ctl) := by
    have := searchLoop_count ctl (Re.FindAllString regs key) ("", [])
    simpa [searchLoop] using this
  have hsome : (∃ tok ∈ Re.FindAllString regs key, clauseToken ctl tok = true) →
      (searchLoop ctl key).2 ≠ [] := by
    intro hex
    have hpos : 0 < (Re.FindAllString regs key).countP (clauseToken ctl) := by
      rw [List.countP_pos_iff]
      obtain ⟨tok, ht, hc⟩ := hex
      exact ⟨tok, ht, hc⟩
    intro h
    rw [h] at hcount
    simp at hcount
    omega
  refine ⟨?_, hcount, ⟨?_, ?_⟩, ?_⟩
  · intro st tok whole name op val hm hin
    exact searchStep_unknown ctl st tok whole name op val hm hin
  · intro heq tok ht
    cases hc : clauseToken ctl tok with
    | false => rfl
    | true => exact absurd heq (parse_ne_fallback sc ctl key (hsome ⟨tok, ht, hc⟩))
  · intro hall
    have h0 : (Re.FindAllString regs key).countP (clauseToken ctl) = 0 := by
      rw [List.countP_eq_zero]
      intro tok ht
      simp [hall tok ht]
    simp [GormController.parseSearchExpression, hcount, h0]
  · intro hex
    have hne : (searchLoop ctl key).2.length ≠ 0 :=
      fun e => hsome hex (List.length_eq_zero.1 e)
    exact ⟨hsome hex, by simp [GormController.parseSearchExpression, hne]⟩

theorem C6_fallback_witness :
    (controllerOf ["id", "name"] ["int", "string"]).parseSearchExpression strconv.go "foo=bar"
      = (controllerOf ["id", "name"] ["int", "string"]).parseSearchLike strconv.go "foo=bar" :=
  (C6_fallback strconv.go (controllerOf ["id", "name"] ["int", "string"]) "foo=bar").2.2.1.2
    (by decide)

/-- C7: the code at the failing input. With the string column `name`, the search text
`alice` falls back to the like-scan, which emits `name LIKE ?` with the param `alice`
itself, not `%alice%`; the structured `~` path does wrap its param. -/
theorem C7_like_scan_param_unwrapped :
    (controllerOf ["id", "name"] ["int", "string"]).parseSearchExpression strconv.go "alice"
      = some ("name LIKE ?", [Value.str "alice"]) ∧
    (controllerOf ["id", "name"] ["int", "string"]).parseSearchLike strconv.go "alice"
      = some ("name LIKE ?", [Value.str "alice"]) ∧
    GormController.parseSearchType strconv.go "alice" = ("string", Value.str "alice") ∧
    (controllerOf ["id", "name"] ["int", "string"]).parseSearchExpression strconv.go "name~alice"
      = some ("name LIKE ? ", [Value.str "%alice%"]) := by
  decide

/-- C8 (amended): the type of the search text is the first of int, float, bool, string whose
parse succeeds (`1` is int although it also parses as a bool, `1.5` is float); for a schema
whose name and type lists have the same length the like-scan returns, OR-joined and in
column order, one clause and one param for every column whose type is the inferred type when
that type is string, int or bool, and for no other column; for the inferred type float it
emits nothing, and a column of type time or without a type is never matched. -/
theorem C8_like_scan (sc : Strconv) (ctl : GormController) (key : String)
    (h : ctl.ModelColumnNames.length = ctl.ModelColumnTypes.length) :
    (∀ i, sc.ParseInt key = some i →
      GormController.parseSearchType sc key = ("int", Value.int i)) ∧
    (sc.ParseInt key = none → sc.ParseFloat key = some () →
      GormController.parseSearchType sc key = ("float", Value.float key)) ∧
    (∀ b, sc.ParseInt key = none → sc.ParseFloat key = none → sc.ParseBool key = some b →
      GormController.parseSearchType sc key = ("bool", Value.bool b)) ∧
    (sc.ParseInt key = none → sc.ParseFloat key = none → sc.ParseBool key = none →
      GormController.parseSearchType sc key = ("string", Value.str key)) ∧
    (GormController.parseSearchType strconv.go "1" = ("int", Value.int 1) ∧
      strconv.go.ParseBool "1" = some true ∧
      GormController.parseSearchType strconv.go "1.5" = ("float", Value.float "1.5")) ∧
    ctl.parseSearchLike sc key =
      some (Join ((likeHits ctl.ModelColumnNames ctl.ModelColumnTypes
                    (GormController.parseSearchType sc key).1).map likeClause) " OR ",
            (likeHits ctl.ModelColumnNames ctl.ModelColumnTypes
                    (GormController.parseSearchType sc key).1).map
              (fun _ => (GormController.parseSearchType sc key).2)) ∧
    ((GormController.parseSearchType sc key).1 ≠ "float" →
      likeHits ctl.ModelColumnNames ctl.ModelColumnTypes (GormController.parseSearchType sc key).1
        = (ctl.ModelColumnNames.zip ctl.ModelColumnTypes).filter
            (fun p => p.2 = (GormController.parseSearchType sc key).1)) ∧
    ((GormController.parseSearchType sc key).1 = "float" →
      likeHits ctl.ModelColumnNames ctl.ModelColumnTypes (GormController.parseSearchType sc key).1
        = []) ∧
    (∀ p ∈ likeHits ctl.ModelColumnNames ctl.ModelColumnTypes
        (GormController.parseSearchType sc key).1, p.2 ≠ "time" ∧ p.2 ≠ "") := by
  refine ⟨?_, ?_, ?_, ?_, by decide, parseSearchLike_eq sc ctl key h, ?_, ?_, ?_⟩
  · intro i hi; simp [GormController.parseSearchType, hi]
  · intro hi hf; simp [GormController.parseSearchType, hi, hf]
  · intro b hi hf hb; simp [GormController.parseSearchType, hi, hf, hb]
  · intro hi hf hb; simp [GormController.parseSearchType, hi, hf, hb]
  · intro hne
    have hc := parseSearchType_cases sc key
    have h4 : (decide ((GormController.parseSearchType sc key).1 = "string") ||
        decide ((GormController.parseSearchType sc key).1 = "int") ||
        decide ((GormController.parseSearchType sc key).1 = "bool")) = true := by
      rcases hc with h | h | h | h
      · simp [h]
      · exact absurd h hne
      · simp [h]
      · simp [h]
    simp [likeHits, h4]
  · intro hf
    simp [likeHits, hf]
  · intro p hp
    simp only [likeHits, List.mem_filter, Bool.and_eq_true, Bool.or_eq_true,
      decide_eq_true_eq] at hp
    obtain ⟨_, h1, h2⟩ := hp
    rw [h1]
    rcases h2 with (h2 | h2) | h2 <;> rw [h2] <;> decide

theorem C8_like_scan_witness :
    (controllerOf ["id", "name", "born", "age"] ["int", "string", "time", "int"]).parseSearchLike
        strconv.go "1" = some ("id=? OR age=?", [Value.int 1, Value.int 1]) :=
  ((C8_like_scan strconv.go
      (controllerOf ["id", "name", "born", "age"] ["int", "string", "time", "int"]) "1"
      (by decide)).2.2.2.2.2.1).trans (by decide)

/-- C8, as stated, fails for a column of semantic type float: the text `1.5` is inferred as
float, the column `price` has that type, and no clause is emitted for it. -/
theorem C8_counterexample :
    (GormController.parseSearchType strconv.go "1.5").1 = "float" ∧
    (controllerOf ["price"] ["float"]).parseSearchLike strconv.go "1.5" = some ("", []) ∧
    (controllerOf ["price"] ["float"]).parseSearchExpression strconv.go "1.5" = some ("", []) := by
  decide

/-- C9: a token without the shape name, operator, value (it holds no operator, so `regc`
does not match it) adds no clause and no param; it rewrites a closing `AND ` of the fragment
built so far to `OR ` and otherwise leaves the fragment as it is. A token that produces a
clause appends it closed by the AND joiner, with one param. The fragment that
`parseSearchExpression` returns never ends in an AND or OR joiner. With the columns `a` and
`b`, `a=1 or b=2` compiles to the clauses `a = ?` and `b = ?` joined by OR, with the params
`1` and `2`. -/
theorem C9_or_marker (sc : Strconv) (ctl : GormController) :
    (∀ (st : String × List Value) (tok : String), ¬ hasOperator tok →
        (searchStep ctl st tok).2 = st.2 ∧
        (∀ x : String, st.1 = x ++ "AND " → (searchStep ctl st tok).1 = x ++ "OR ") ∧
        (HasSuffix st.1 "AND " = false → (searchStep ctl st tok).1 = st.1)) ∧
    (∀ (st : String × List Value) (tok : String), clauseToken ctl tok = true →
      ∃ name opText param, name ∈ ctl.ModelColumnNames ∧
        searchStep ctl st tok =
          (st.1 ++ (name ++ " " ++ opText ++ " ? AND "), st.2 ++ [param])) ∧
    (∀ (key frag : String) (data : List Value),
      ctl.parseSearchExpression sc key = some (frag, data) → endsInJoiner frag = false) ∧
    (controllerOf ["a", "b"] ["string", "string"]).parseSearchExpression strconv.go "a=1 or b=2"
      = some ("a = ? OR b = ? ", [Value.str "1", Value.str "2"]) ∧
    ¬ hasOperator "or" := by
  refine ⟨?_, ?_, ?_, by decide, fun h => absurd ((regc_matches_iff "or").2 h) (by decide)⟩
  · intro st tok hno
    have hm : (Re.FindStringSubmatch regc 3 tok).length ≠ 4 :=
      fun h => hno ((regc_matches_iff tok).1 h)
    rw [searchStep_unmatched ctl st tok hm]
    refine ⟨rfl, ?_, ?_⟩
    · intro x hx
      have := dropLast_append x "AND "
      simp only [show ("AND ".data.length) = 4 from rfl] at this
      simp [hx, hasSuffix_append, this]
    · intro hs
      simp [hs]
  · intro st tok hc
    obtain ⟨w, n, o, v, hm, hin⟩ := (clauseToken_iff ctl tok).1 hc
    obtain ⟨ot, p, hp⟩ := searchStep_known ctl st tok w n o v hm hin
    exact ⟨n, ot, p, hin, hp⟩
  · intro key frag data h
    exact parse_fragment sc ctl key frag data h

theorem C9_or_marker_witness :
    (searchStep (controllerOf ["a", "b"] ["string", "string"])
        ("a = ? " ++ "AND ", [Value.str "1"]) "or").1 = "a = ? " ++ "OR " :=
  ((C9_or_marker strconv.go (controllerOf ["a", "b"] ["string", "string"])).1
    ("a = ? " ++ "AND ", [Value.str "1"]) "or"
    (C9_or_marker strconv.go (controllerOf ["a", "b"] ["string", "string"])).2.2.2.2).2.1
    "a = ? " rfl

/-! ## Tokens -/

/-- C10 (amended): a search text made of clauses on known columns of word characters, with
operators that `regc` selects and values free of white space and quotes, separated by
non-empty white space, has the tokens of its clauses as its tokens and compiles to the
clauses joined by AND and to their params, one per clause, in input order; the same holds
when one more clause follows whose value is a single-quoted string on one line, white space
inside it included, with only white space behind its closing quote. -/
theorem C10_spaced_clauses (sc : Strconv) (ctl : GormController) (lead : String)
    (items : List (ClauseSpec × String)) :
    (blank lead = true → wellSpaced items = true → (∀ it ∈ items, it.1.valid ctl = true) →
      items ≠ [] →
      Re.FindAllString regs (spacedText lead items) = items.map (fun it => it.1.token) ∧
      ∃ pad, (pad = "" ∨ pad = " ") ∧
        ctl.parseSearchExpression sc (spacedText lead items) =
          some (Join (items.map (fun it => it.1.clause)) " AND " ++ pad,
                items.map (fun it => it.1.param))) ∧
    (∀ (q : ClauseSpec) (mid trail : String),
      blank lead = true → separated ctl items = true → q.matchable ctl = true →
      q.value = quoted mid → blank trail = true →
      Re.FindAllString regs (spacedText lead items ++ q.token ++ trail)
        = items.map (fun it => it.1.token) ++ [q.token] ∧
      ∃ pad, (pad = "" ∨ pad = " ") ∧
        ctl.parseSearchExpression sc (spacedText lead items ++ q.token ++ trail) =
          some (Join (items.map (fun it => it.1.clause) ++ [q.clause]) " AND " ++ pad,
                items.map (fun it => it.1.param) ++ [q.param])) := by
  constructor
  · intro hl hw hv hne
    have htok := regs_spacedText ctl items lead hl hw hv
    have htok' : Re.FindAllString regs (spacedText lead items)
        = (items.map (fun it => it.1)).map ClauseSpec.token := by
      simpa [Re.FindAllString] using htok
    refine ⟨by simpa using htok', " ", Or.inr rfl, ?_⟩
    have := parse_of_tokens sc ctl _ (items.map (fun it => it.1))
      (fun q hq => by
        obtain ⟨it, hit, rfl⟩ := List.mem_map.1 hq
        exact valid_matchable ctl _ (hv it hit)) (by simpa using hne) htok'
    simpa using this
  · intro q mid trail hl hs hq hval ht
    have htok := quoted_tokens ctl lead items q mid trail hl hs hq hval ht
    refine ⟨by simpa using htok, " ", Or.inr rfl, ?_⟩
    have hall : ∀ q' ∈ items.map (fun it => it.1) ++ [q], q'.matchable ctl = true := by
      intro q' hq'
      rcases List.mem_append.1 hq' with h | h
      · obtain ⟨it, hit, rfl⟩ := List.mem_map.1 h
        have hsi := (List.all_eq_true.1 hs) it hit
        simp only [Bool.and_eq_true] at hsi
        exact valid_matchable ctl _ hsi.1.1
      · simp only [List.mem_singleton] at h
        rw [h]; exact hq
    have := parse_of_tokens sc ctl _ (items.map (fun it => it.1) ++ [q]) hall (by simp) htok
    simpa using this

theorem C10_spaced_clauses_witness :
    (Re.FindAllString regs (spacedText " " demoItems) = ["a=1", "b~z"] ∧
      ∃ pad, (pad = "" ∨ pad = " ") ∧
        (controllerOf ["a", "b"] ["string", "string"]).parseSearchExpression strconv.go
            (spacedText " " demoItems) =
          some ("a = ? AND b LIKE ?" ++ pad, [Value.str "1", Value.str "%z%"])) ∧
    (Re.FindAllString regs (spacedText "" [(⟨"b", ">", "2"⟩, " ")] ++ demoQuoted.token ++ " ")
        = ["b>2", "a=" ++ quoted "x y"] ∧
      ∃ pad, (pad = "" ∨ pad = " ") ∧
        (controllerOf ["a", "b"] ["string", "string"]).parseSearchExpression strconv.go
            (spacedText "" [(⟨"b", ">", "2"⟩, " ")] ++ demoQuoted.token ++ " ") =
          some ("b > ? AND a = ?" ++ pad, [Value.str "2", Value.str (quoted "x y")])) :=
  ⟨(C10_spaced_clauses strconv.go (controllerOf ["a", "b"] ["string", "string"]) " "
      demoItems).1 (by decide) (by decide) (by decide) (List.cons_ne_nil _ _),
   (C10_spaced_clauses strconv.go (controllerOf ["a", "b"] ["string", "string"]) ""
      [(⟨"b", ">", "2"⟩, " ")]).2 demoQuoted "x y" " " (by decide) (by decide) (by decide)
      rfl (by decide)⟩

/-- C10, as stated, fails on its own witness: the greedy `.*` of `regs` runs to the last
quote of the line, so the two quoted clauses are one token and one clause, on `a`, whose
param holds the second clause; and a column name outside `\w` gives no clause. -/
theorem C10_counterexample :
    Re.FindAllString regs ("a=" ++ quoted "x y" ++ " b=" ++ quoted "z w")
      = ["a=" ++ quoted "x y" ++ " b=" ++ quoted "z w"] ∧
    (controllerOf ["a", "b"] ["string", "string"]).parseSearchExpression strconv.go
        ("a=" ++ quoted "x y" ++ " b=" ++ quoted "z w")
      = some ("a = ? ", [Value.str (quoted "x y" ++ " b=" ++ quoted "z w")]) ∧
    (controllerOf ["user-id", "c"] ["string", "string"]).parseSearchExpression strconv.go
        "user-id=1 c=2" = some ("c = ? ", [Value.str "2"]) := by
  decide

/-! ## Paging -/

/-- C11: for a controller made by `NewGormController` and a request whose paging struct
binds, the statement to count on exists, and when the count on it answers 0 without error,
`Get` returns the paging struct with `Total = 0` and empty `Data`, with `Page`, `Size`,
`Order` and `Search` as bound from the request, no error, and the count as its only call to
the storage engine. -/
theorem C11_empty_list
    (policy : Context → String → List String → Int → String × List Value) (db : DB)
    (modelType name : String) (coltypes : Except Error (List ColumnType))
    (ctl : GormController)
    (h : NewGormController policy db modelType name coltypes = some ctl)
    (sc : Strconv) (eng : Engine) (ctx : Context) (bound : gormPaging)
    (hb : ctx.BindPaging { Size := 20, Order := "id desc" } = .ok bound) :
    (∃ q, ctl.listDB sc ctx { bound with Data := [] } = some q) ∧
    ∀ q, ctl.listDB sc ctx { bound with Data := [] } = some q → eng.Count q = (0, none) →
      ctl.Get sc eng ctx =
        some ⟨some { Page := bound.Page, Size := bound.Size, Order := bound.Order,
                     Total := 0, Search := bound.Search, Data := [] },
          none, [StorageCall.Count q]⟩ := by
  obtain ⟨q, hq, _⟩ := listDB_isSome sc ctl ctx { bound with Data := [] }
    (newGormController_lengths h)
  refine ⟨⟨q, hq⟩, ?_⟩
  intro q hq hc
  have hg := (get_counted sc eng ctl ctx bound q hb hq).1 (Or.inr (by rw [hc]))
  rw [hg, hc]

theorem C11_empty_list_witness :
    ∃ q, openController.Get strconv.go (tableEngine []) (requestOf none none none none "1") =
      some ⟨some { Page := 0, Size := 20, Order := "id desc", Total := 0, Search := "",
                   Data := [] }, none, [StorageCall.Count q]⟩ :=
  ⟨_, (C11_empty_list openPolicy {} "User" "users" demoColumns openController rfl
        strconv.go (tableEngine []) (requestOf none none none none "1") _ rfl).2 _ rfl rfl⟩

/-- C12 (amended): for a controller made by `NewGormController` and a request whose count
succeeds with a total above 0, `Get` makes exactly two calls, the count and one fetch; the
fetch carries the conditions of the counted statement, limit `Size`, order `Order`, and the
offset `Size * Page` whenever that product is in the range of Go `int`; the reply holds
`Total = count` and the fetched records with the error of the fetch. A parameter among page,
size and order that the request does not supply is 0, 20 and `id desc`. -/
theorem C12_fetch
    (policy : Context → String → List String → Int → String × List Value) (db : DB)
    (modelType name : String) (coltypes : Except Error (List ColumnType))
    (ctl : GormController)
    (h : NewGormController policy db modelType name coltypes = some ctl)
    (sc : Strconv) (eng : Engine) (ctx : Context) (bound : gormPaging)
    (hb : ctx.BindPaging { Size := 20, Order := "id desc" } = .ok bound) :
    (∃ q, ctl.listDB sc ctx { bound with Data := [] } = some q) ∧
    (∀ q n, ctl.listDB sc ctx { bound with Data := [] } = some q →
      eng.Count q = (n, none) → 0 < n →
      ctl.Get sc eng ctx =
        some ⟨some { Page := bound.Page, Size := bound.Size, Order := bound.Order,
                     Total := n, Search := bound.Search,
                     Data := (eng.Find (fetchOf q bound)).1 },
          (eng.Find (fetchOf q bound)).2,
          [StorageCall.Count q, StorageCall.Find (fetchOf q bound)]⟩ ∧
      (fetchOf q bound).wheres = q.wheres ∧
      (fetchOf q bound).limit = some bound.Size ∧
      (fetchOf q bound).order = some bound.Order ∧
      (inInt (bound.Size * bound.Page) →
        (fetchOf q bound).offset = some (bound.Size * bound.Page))) ∧
    (∀ page size order search, ctx.BindPaging = bindQuery page size order search →
      (page = none → bound.Page = 0) ∧ (size = none → bound.Size = 20) ∧
      (order = none → bound.Order = "id desc")) := by
  obtain ⟨q, hq, _⟩ := listDB_isSome sc ctl ctx { bound with Data := [] }
    (newGormController_lengths h)
  refine ⟨⟨q, hq⟩, ?_, ?_⟩
  · intro q n hq hc hn
    have hg := (get_counted sc eng ctl ctx bound q hb hq).2
      ⟨by rw [hc], by rw [hc]; exact ne_of_gt hn⟩
    obtain ⟨hw, _, hl, ho, hor⟩ := fetchOf_fields q bound
    refine ⟨?_, hw, hl, hor, ?_⟩
    · rw [hg, hc]
    · intro hr
      rw [ho, mulInt_inInt _ _ hr]
  · intro page size order search hbind
    rw [hbind] at hb
    simp only [bindQuery, Except.ok.injEq] at hb
    subst hb
    refine ⟨?_, ?_, ?_⟩ <;> intro hx <;> subst hx <;> rfl

theorem C12_fetch_witness :
    openController.Get strconv.go (tableEngine (tableOf 45))
        (requestOf (some 2) (some 20) none none "1") =
      some ⟨some { Page := 2, Size := 20, Order := "id desc", Total := 45, Search := "",
                   Data := [rowOf 41, rowOf 42, rowOf 43, rowOf 44, rowOf 45] }, none,
        [StorageCall.Count (openController.WithDB (requestOf (some 2) (some 20) none none "1")),
         StorageCall.Find
           { wheres := [⟨"", []⟩], limit := some 20, offset := some 40,
             order := some "id desc",
             context := [(ContextKey.ContextItemGormLogger, CtxValue.logger ⟨1⟩)] }]⟩ :=
  ((C12_fetch openPolicy {} "User" "users" demoColumns openController rfl
      strconv.go (tableEngine (tableOf 45)) (requestOf (some 2) (some 20) none none "1")
      _ rfl).2.1 _ 45 rfl (by decide) (by decide)).1

theorem C12_counterexample :
    ∃ r, openController.Get strconv.go demoEngine
        (requestOf (some 4294967296) (some 4294967296) none none "1") = some r ∧
      r.calls.map (fun c => (c.db.limit, c.db.offset)) =
        [(none, none), (some 4294967296, some 0)] ∧
      ((4294967296 : Int) * 4294967296 ≠ 0) :=
  ⟨_, rfl, by decide, by decide⟩

/-- C13 (amended): for a request whose bound size is zero or negative, `Get` neither rejects
nor clamps: when the count succeeds with a total other than 0 it issues the fetch with that
size as the limit, its error is the error of the fetch, and the reply echoes the size; such a
size is always one the request supplied (the default 20 stands only for a missing size). -/
theorem C13_size_unchecked
    (policy : Context → String → List String → Int → String × List Value) (db : DB)
    (modelType name : String) (coltypes : Except Error (List ColumnType))
    (ctl : GormController)
    (h : NewGormController policy db modelType name coltypes = some ctl)
    (sc : Strconv) (eng : Engine) (ctx : Context) (bound : gormPaging)
    (hb : ctx.BindPaging { Size := 20, Order := "id desc" } = .ok bound)
    (hs : bound.Size ≤ 0) :
    (∃ q, ctl.listDB sc ctx { bound with Data := [] } = some q) ∧
    (∀ q n, ctl.listDB sc ctx { bound with Data := [] } = some q →
      eng.Count q = (n, none) → n ≠ 0 →
      ∃ r paging, ctl.Get sc eng ctx = some r ∧
        r.calls = [StorageCall.Count q, StorageCall.Find (fetchOf q bound)] ∧
        (fetchOf q bound).limit = some bound.Size ∧
        r.err = (eng.Find (fetchOf q bound)).2 ∧
        r.value = some paging ∧ paging.Size = bound.Size) ∧
    (∀ page size order search, ctx.BindPaging = bindQuery page size order search →
      size ≠ none) := by
  obtain ⟨q, hq, _⟩ := listDB_isSome sc ctl ctx { bound with Data := [] }
    (newGormController_lengths h)
  refine ⟨⟨q, hq⟩, ?_, ?_⟩
  · intro q n hq hc hn
    have hg := (get_counted sc eng ctl ctx bound q hb hq).2
      ⟨by rw [hc], by rw [hc]; exact hn⟩
    exact ⟨_, _, hg, rfl, (fetchOf_fields q bound).2.2.1, rfl, rfl, rfl⟩
  · intro page size order search hbind hsz
    rw [hbind] at hb
    simp only [bindQuery, Except.ok.injEq] at hb
    subst hb
    subst hsz
    simp at hs

theorem C13_size_unchecked_witness :
    ∃ r paging, openController.Get strconv.go demoEngine
        (requestOf none (some (-5)) none none "1") = some r ∧
      r.calls = [StorageCall.Count (openController.WithDB
          (requestOf none (some (-5)) none none "1")),
        StorageCall.Find (fetchOf (openController.WithDB
          (requestOf none (some (-5)) none none "1"))
          { Page := 0, Size := -5, Order := "id desc" })] ∧
      (fetchOf (openController.WithDB (requestOf none (some (-5)) none none "1"))
          { Page := 0, Size := -5, Order := "id desc" }).limit = some (-5) ∧
      r.err = (demoEngine.Find (fetchOf (openController.WithDB
          (requestOf none (some (-5)) none none "1"))
          { Page := 0, Size := -5, Order := "id desc" })).2 ∧
      r.value = some paging ∧ paging.Size = -5 :=
  (C13_size_unchecked openPolicy {} "User" "users" demoColumns openController rfl
      strconv.go demoEngine (requestOf none (some (-5)) none none "1")
      { Page := 0, Size := -5, Order := "id desc" } rfl (by decide)).2.1 _ 45 rfl rfl
      (by decide)

theorem C13_counterexample :
    (∃ r, openController.Get strconv.go demoEngine
        (requestOf none (some 0) none none "1") = some r ∧ r.err = none ∧
      r.calls.map (fun c => c.db.limit) = [none, some 0]) ∧
    (∃ r, openController.Get strconv.go demoEngine
        (requestOf none (some (-5)) none none "1") = some r ∧ r.err = none ∧
      r.calls.map (fun c => c.db.limit) = [none, some (-5)]) :=
  ⟨⟨_, rfl, by decide, by decide⟩, ⟨_, rfl, by decide, by decide⟩⟩

/-! ## Single records -/

/-- C14 (amended): `GetById` makes one call, a `Find` on the base conditions, the scope
predicate and `id=?`, without a limit of its own; it returns the error of that call as it is
and the first row found, or the zero record when no row was found. A row outside the scope
and a missing row are the same to it, but when the engine finds no row and reports no
error, `GetById` returns the zero record without an error. -/
theorem C14_get_by_id
    (policy : Context → String → List String → Int → String × List Value) (db : DB)
    (modelType name : String) (coltypes : Except Error (List ColumnType))
    (ctl : GormController)
    (h : NewGormController policy db modelType name coltypes = some ctl)
    (eng : Engine) (ctx : Context) :
    ∃ q, (ctl.GetById eng ctx).calls = [StorageCall.Find q] ∧
      q.wheres = db.wheres ++ [scopeOf policy name ctl.ModelColumnNames ctx, idCondition ctx] ∧
      q.limit = db.limit ∧
      (ctl.GetById eng ctx).err = (eng.Find q).2 ∧
      (ctl.GetById eng ctx).value = some ((eng.Find q).1.headD []) ∧
      (eng.Find q = ([], none) →
        (ctl.GetById eng ctx).err = none ∧ (ctl.GetById eng ctx).value = some []) := by
  have hw := newGormController_withDB h ctx
  refine ⟨(ctl.WithDB ctx).Where "id=?" [Value.str (ctx.GetParam "id")], rfl, ?_, ?_, rfl, rfl,
    ?_⟩
  · simp [DB.Where, hw, idCondition]
  · unfold NewGormController at h
    split at h
    · exact absurd h (by simp)
    · simp only [Option.some.injEq] at h
      subst h
      simp [DB.Where, DB.WithContext]
  · intro he
    simp [GormController.GetById, he]

theorem C14_get_by_id_witness :
    ∃ q, (demoController.GetById (tableEngine (tableOf 5))
        (requestOf none none none none "1")).calls = [StorageCall.Find q] ∧
      q.wheres = ({} : DB).wheres ++
        [scopeOf demoPolicy "users" demoController.ModelColumnNames
          (requestOf none none none none "1"),
         idCondition (requestOf none none none none "1")] ∧
      q.limit = ({} : DB).limit ∧
      (demoController.GetById (tableEngine (tableOf 5))
        (requestOf none none none none "1")).err = ((tableEngine (tableOf 5)).Find q).2 ∧
      (demoController.GetById (tableEngine (tableOf 5))
        (requestOf none none none none "1")).value =
          some (((tableEngine (tableOf 5)).Find q).1.headD []) ∧
      ((tableEngine (tableOf 5)).Find q = ([], none) →
        (demoController.GetById (tableEngine (tableOf 5))
          (requestOf none none none none "1")).err = none ∧
        (demoController.GetById (tableEngine (tableOf 5))
          (requestOf none none none none "1")).value = some []) :=
  C14_get_by_id demoPolicy {} "User" "users" demoColumns demoController rfl
    (tableEngine (tableOf 5)) (requestOf none none none none "1")

theorem C14_counterexample :
    rowOf 5 ∈ tableOf 5 ∧
    (demoController.GetById (tableEngine (tableOf 5))
      (requestOf none none none none "5")).err = none ∧
    (demoController.GetById (tableEngine (tableOf 5))
      (requestOf none none none none "5")).value = some [] ∧
    (demoController.GetById (tableEngine (tableOf 5))
      (requestOf none none none none "1")).value = some (rowOf 1) ∧
    (demoController.GetById (tableEngine (tableOf 5))
      (requestOf none none none none "9")).err = none ∧
    (demoController.GetById (tableEngine (tableOf 5))
      (requestOf none none none none "9")).value = some [] := by
  decide

/-! ## Introspection of the model -/

/-- C15: on a described model `getGormModelColumns` returns a name list and a type list of
the length of the description, position by position the name of the column and `int` for
`int8`, `string` for `text`, `time` for `timestamptz` and the empty string for any other
engine type, and `NewGormController` returns a controller holding these lists; on an error of
the engine it returns the error and `NewGormController` returns no controller. -/
theorem C15_model_columns
    (policy : Context → String → List String → Int → String × List Value) (db : DB)
    (modelType name : String) (coltypes : List ColumnType) (err : Error) :
    (∃ names types, getGormModelColumns (.ok coltypes) = .ok (names, types) ∧
      names.length = coltypes.length ∧ types.length = coltypes.length ∧
      (∀ i coltype, coltypes.get? i = some coltype →
        names.get? i = some coltype.Name ∧
        ∃ t, types.get? i = some t ∧
          (coltype.DatabaseTypeName = "int8" → t = "int") ∧
          (coltype.DatabaseTypeName = "text" → t = "string") ∧
          (coltype.DatabaseTypeName = "timestamptz" → t = "time") ∧
          (coltype.DatabaseTypeName ≠ "int8" → coltype.DatabaseTypeName ≠ "text" →
            coltype.DatabaseTypeName ≠ "timestamptz" → t = "")) ∧
      ∃ ctl, NewGormController policy db modelType name (.ok coltypes) = some ctl ∧
        ctl.ModelColumnNames = names ∧ ctl.ModelColumnTypes = types) ∧
    getGormModelColumns (.error err) = .error err ∧
    NewGormController policy db modelType name (.error err) = none := by
  refine ⟨⟨_, _, rfl, by simp, by simp, ?_, ⟨_, rfl, rfl, rfl⟩⟩, rfl, rfl⟩
  intro i coltype hi
  rw [List.get?_eq_getElem?] at hi
  refine ⟨by simp [hi], if coltype.DatabaseTypeName = "int8" then "int"
      else if coltype.DatabaseTypeName = "text" then "string"
      else if coltype.DatabaseTypeName = "timestamptz" then "time" else "",
    by simp [hi], ?_, ?_, ?_, ?_⟩
  · intro h1
    simp [h1]
  · intro h1
    simp [h1]
  · intro h1
    simp [h1]
  · intro h1 h2 h3
    simp [h1, h2, h3]

theorem C15_model_columns_witness :
    getGormModelColumns
        (.ok [⟨"id", "int8"⟩, ⟨"name", "text"⟩, ⟨"born", "timestamptz"⟩, ⟨"ok", "bool"⟩]) =
      .ok (["id", "name", "born", "ok"], ["int", "string", "time", ""]) ∧
    NewGormController demoPolicy {} "User" "users" (.error "no such table") = none := by
  obtain ⟨⟨names, types, hg, -, -, -, -⟩, -, hn⟩ :=
    C15_model_columns demoPolicy {} "User" "users"
      [⟨"id", "int8"⟩, ⟨"name", "text"⟩, ⟨"born", "timestamptz"⟩, ⟨"ok", "bool"⟩]
      "no such table"
  exact ⟨rfl, hn⟩

/-! ## Placeholders and params -/

/-- C16: for every search text and every controller whose column names hold no `?`, the
compiler returns a predicate whenever names and types have one length, and a returned
predicate has as many params as its fragment has placeholders: the fragment is a sequence
of clauses, each with exactly one placeholder and followed by a joiner without one, the
params are the params of these clauses in the same order, and clause and param of each
position were emitted together, by the loop body on one token (the tokens taken in the order
of the text) or by the like-scan on one column. -/
theorem C16_placeholders (sc : Strconv) (ctl : GormController) (key : String)
    (hq : ∀ n ∈ ctl.ModelColumnNames, '?' ∉ n.data) :
    (ctl.ModelColumnNames.length = ctl.ModelColumnTypes.length →
      ∃ r, ctl.parseSearchExpression sc key = some r) ∧
    ∀ frag params, ctl.parseSearchExpression sc key = some (frag, params) →
      placeholders frag = params.length ∧
      ∃ es : List (Emitted × String), frag = render es ∧
        params = es.map (fun e => e.1.param) ∧
        (∀ e ∈ es, placeholders e.1.clause = 1 ∧ placeholders e.2 = 0) ∧
        ((∃ used, used.Sublist (Re.FindAllString regs key) ∧
            List.Forall₂ (emitsStructured ctl) used (es.map Prod.fst)) ∨
         (∀ e ∈ es, emitsLike sc key ctl.ModelColumnTypes e.1)) := by
  refine ⟨parse_isSome sc ctl key, ?_⟩
  intro frag params h
  obtain ⟨es, g1, g2, g3, g4, g5⟩ := parse_shape sc ctl key frag params h
  have hcl : ∀ e ∈ es, placeholders e.1.clause = 1 ∧ placeholders e.2 = 0 := by
    intro e he
    refine ⟨placeholders_clause e.1 ?_ (g4 e he).2, joinersOK_placeholders es g3 e he⟩
    unfold placeholders
    rw [List.count_eq_zero]
    exact hq _ (g4 e he).1
  refine ⟨?_, es, g1, g2, hcl, g5⟩
  rw [g1, g2, placeholders_render es hcl]
  simp

theorem C16_placeholders_witness :
    (controllerOf ["id", "name"] ["int", "string"]).parseSearchExpression strconv.go
        "name~ali or id:1,2" =
      some ("name LIKE ? OR id IN ? ", [Value.str "%ali%", Value.strs ["1", "2"]]) ∧
    placeholders "name LIKE ? OR id IN ? " = 2 ∧
    placeholders "id=?" = 1 :=
  ⟨by decide,
   ((C16_placeholders strconv.go (controllerOf ["id", "name"] ["int", "string"])
      "name~ali or id:1,2" (by decide)).2 "name LIKE ? OR id IN ? "
      [Value.str "%ali%", Value.strs ["1", "2"]] (by decide)).1,
   ((C16_placeholders strconv.go (controllerOf ["id", "name"] ["int", "string"])
      "7" (by decide)).2 "id=?" [Value.int 7] (by decide)).1⟩

/-! ## Values stay out of the fragment -/

/-- C17 (amended): a fragment that the compiler returns is a sequence of clauses
`name op ?` (or `name=?` in the like-scan) whose names are column names of the controller
and whose operators are in the fixed vocabulary, joined by AND or OR and ended by nothing or
one blank; and two search texts with the same white space whose tokens are pairwise the same
or clauses with the same name and operator (for `:` both values or neither holding a comma)
compile to the same fragment under Go's parsers, provided `regs` cuts both texts into these
tokens, as it does whenever the tokens hold no white space and no quote. -/
theorem C17_values_stay_out (ctl : GormController) :
    (∀ (sc : Strconv) (key frag : String) (params : List Value),
      ctl.parseSearchExpression sc key = some (frag, params) →
      ∃ es : List (Emitted × String), frag = render es ∧ joinersOK es = true ∧
        ∀ e ∈ es, e.1.name ∈ ctl.ModelColumnNames ∧ e.1.op ∈ vocabulary) ∧
    (∀ (lead : String) (items1 items2 : List (String × String)),
      Re.FindAllString regs (textOf lead items1) = items1.map Prod.fst →
      Re.FindAllString regs (textOf lead items2) = items2.map Prod.fst →
      List.Forall₂ (fun a b => valueVariant a.1 b.1 ∧ a.2 = b.2) items1 items2 →
      (ctl.parseSearchExpression strconv.go (textOf lead items1)).map Prod.fst =
        (ctl.parseSearchExpression strconv.go (textOf lead items2)).map Prod.fst) ∧
    (∀ (lead : String) (items1 items2 : List (String × String)),
      blank lead = true → gapped items1 = true → gapped items2 = true →
      List.Forall₂ (fun a b => valueVariant a.1 b.1 ∧ a.2 = b.2) items1 items2 →
      (ctl.parseSearchExpression strconv.go (textOf lead items1)).map Prod.fst =
        (ctl.parseSearchExpression strconv.go (textOf lead items2)).map Prod.fst) := by
  have hB : ∀ (lead : String) (items1 items2 : List (String × String)),
      Re.FindAllString regs (textOf lead items1) = items1.map Prod.fst →
      Re.FindAllString regs (textOf lead items2) = items2.map Prod.fst →
      List.Forall₂ (fun a b => valueVariant a.1 b.1 ∧ a.2 = b.2) items1 items2 →
      (ctl.parseSearchExpression strconv.go (textOf lead items1)).map Prod.fst =
        (ctl.parseSearchExpression strconv.go (textOf lead items2)).map Prod.fst := by
    intro lead items1 items2 h1 h2 hv
    rcases variant_texts items1 items2 hv lead with e | ⟨o1, o2⟩
    · rw [e]
    · apply parse_variant
      · rw [h1, h2]
        exact variant_tokens items1 items2 hv
      · rw [go_type_string _ o1, go_type_string _ o2]
  refine ⟨?_, hB, ?_⟩
  · intro sc key frag params h
    obtain ⟨es, g1, _, g3, g4, _⟩ := parse_shape sc ctl key frag params h
    exact ⟨es, g1, g3, g4⟩
  · intro lead items1 items2 hl g1 g2 hv
    exact hB lead items1 items2 (regs_textOf items1 lead hl g1) (regs_textOf items2 lead hl g2) hv

theorem C17_values_stay_out_witness :
    (∃ es : List (Emitted × String), "name = ? OR id IN ? " = render es ∧
      joinersOK es = true ∧
      ∀ e ∈ es, e.1.name ∈ ["id", "name"] ∧ e.1.op ∈ vocabulary) ∧
    ((controllerOf ["id", "name"] ["int", "string"]).parseSearchExpression strconv.go
        "name=alice or id:1,2").map Prod.fst =
      ((controllerOf ["id", "name"] ["int", "string"]).parseSearchExpression strconv.go
        "name=x;drop or id:7,8,9").map Prod.fst ∧
    ((controllerOf ["id", "name"] ["int", "string"]).parseSearchExpression strconv.go
        (textOf " " [("foo=1", "")])).map Prod.fst =
      ((controllerOf ["id", "name"] ["int", "string"]).parseSearchExpression strconv.go
        (textOf " " [("foo=zzz", "")])).map Prod.fst :=
  ⟨(C17_values_stay_out (controllerOf ["id", "name"] ["int", "string"])).1 strconv.go
      "name=alice or id:1,2" "name = ? OR id IN ? "
      [Value.str "alice", Value.strs ["1", "2"]] (by decide),
   (C17_values_stay_out (controllerOf ["id", "name"] ["int", "string"])).2.1 ""
      [("name=alice", " "), ("or", " "), ("id:1,2", "")]
      [("name=x;drop", " "), ("or", " "), ("id:7,8,9", "")]
      (by decide) (by decide)
      (List.Forall₂.cons
        ⟨Or.inr ⟨"name=alice", "name=x;drop", "name", "=", "alice", "x;drop",
          by decide, by decide, by decide⟩, rfl⟩
        (List.Forall₂.cons ⟨Or.inl rfl, rfl⟩
          (List.Forall₂.cons
            ⟨Or.inr ⟨"id:1,2", "id:7,8,9", "id", ":", "1,2", "7,8,9",
              by decide, by decide, by decide⟩, rfl⟩
            List.Forall₂.nil))),
   (C17_values_stay_out (controllerOf ["id", "name"] ["int", "string"])).2.2 " "
      [("foo=1", "")] [("foo=zzz", "")] (by decide) (by decide) (by decide)
      (List.Forall₂.cons
        ⟨variant_of_clause "foo" "=" "1" "zzz" (by decide) (by decide) (by decide) (by decide)
          (by decide), rfl⟩
        List.Forall₂.nil)⟩

/-- C17, as stated, fails where a value holds a quote: `age=xyz` compiles to `age = ? `
but `age=x'y'z` to `age = ?`, because `regs` ends the token at the quote and the rest is a
token of its own; and `a=1 b=2` compiles to two clauses but `a='p' b='q'` to one, because
`regs` runs a quoted value to the last quote of the line. -/
theorem C17_counterexample :
    (((controllerOf ["age", "a", "b"] ["int", "string", "string"]).parseSearchExpression
        strconv.go "age=xyz").map Prod.fst = some "age = ? " ∧
     ((controllerOf ["age", "a", "b"] ["int", "string", "string"]).parseSearchExpression
        strconv.go ("age=x" ++ quoted "y" ++ "z")).map Prod.fst = some "age = ?" ∧
     Re.FindAllString regs ("age=x" ++ quoted "y" ++ "z") = ["age=x" ++ quoted "y", "z"]) ∧
    (((controllerOf ["age", "a", "b"] ["int", "string", "string"]).parseSearchExpression
        strconv.go "a=1 b=2").map Prod.fst = some "a = ? AND b = ? " ∧
     ((controllerOf ["age", "a", "b"] ["int", "string", "string"]).parseSearchExpression
        strconv.go ("a=" ++ quoted "p" ++ " b=" ++ quoted "q")).map Prod.fst =
       some "a = ? " ∧
     Re.FindAllString regs ("a=" ++ quoted "p" ++ " b=" ++ quoted "q") =
       ["a=" ++ quoted "p" ++ " b=" ++ quoted "q"]) := by
  decide

/-! ## The logger of a request -/

theorem getLogger_skip (l : gormLogger) (c : GoContext) (v : CtxValue) :
    l.getLogger (c.WithValue ContextKey.ContextItemGormLogger v) = l.getLogger c := by
  simp [gormLogger.getLogger, GoContext.WithValue, GoContext.Value]

/-- C18: `getLogger` does not read the key `ContextItemGormLogger`: a logger stored under
that key leaves its result unchanged, so on a context that holds nothing else it returns the
logger of the `gormLogger`, also on the contexts that `GormController.WithDB` and
`Context.WithDB` build for a request whose logger is another one; it returns a stored logger
when that is stored under the string key `logger`. -/
theorem C18_logger_key_unread (l : gormLogger) (c : GoContext) (L : Logger) :
    l.getLogger (c.WithValue ContextKey.ContextItemGormLogger (CtxValue.logger L)) =
      l.getLogger c ∧
    l.getLogger (GoContext.WithValue [] ContextKey.ContextItemGormLogger (CtxValue.logger L)) =
      l.Logger ∧
    l.getLogger (c.WithValue (ContextKey.str "logger") (CtxValue.logger L)) = L ∧
    (⟨⟨0⟩, 0, 0⟩ : gormLogger).getLogger (demoController.WithDB demoContext).context =
      ⟨0⟩ ∧
    (⟨⟨0⟩, 0, 0⟩ : gormLogger).getLogger (Context.WithDB {} demoContext).context = ⟨0⟩ ∧
    demoContext.Logger = ⟨1⟩ := by
  refine ⟨getLogger_skip l c _, ?_, ?_, by decide, by decide, by decide⟩
  · rw [getLogger_skip]
    rfl
  · simp [gormLogger.getLogger, GoContext.WithValue, GoContext.Value]

end Endpoint
